import Mathlib

/-!
Double-double arithmetic of `xprec` (`csrc/ddouble.c`, `csrc/_dd_ufunc.c`).

The C type `double` is embedded as `Dbl`: an IEEE-754 binary64 datum is a NaN, a signed
infinity, or a signed finite number.  A finite number is stored as its sign bit and its
magnitude counted in units of `2^-1074` (the smallest subnormal), so the magnitude is a
natural number below `2^2098` with at most 53 significant bits.  The arithmetic operators of
C (`+`, `-`, `*`, `/`, `fma`) are the IEEE-754 operations in round-to-nearest-even.
-/

set_option maxRecDepth 100000

namespace Xprec

/-- An IEEE-754 binary64 datum; `fin neg mag` is the number `(-1)^neg * mag * 2^-1074`. -/
inductive Dbl where
  | nan : Dbl
  | inf (neg : Bool) : Dbl
  | fin (neg : Bool) (mag : Nat) : Dbl
  deriving DecidableEq, Repr

/-- Binary logarithm by repeated halving; the first argument bounds the number of steps. -/
def lgAux : Nat → Nat → Nat
  | 0, _ => 0
  | fuel + 1, n => if n < 2 then 0 else lgAux fuel (n / 2) + 1

/-- The position of the leading bit of `n`: `floor (log2 n)`, and `0` for `n = 0`. -/
def lg (n : Nat) : Nat := lgAux n n

/-- Exponent of the unit in the last place of a magnitude `q` (in units of `2^-1074`):
`0` in the subnormal range and in the first normal binade, `lg q - 52` above. -/
def ulpExp (q : Nat) : Nat := lg q - 52

/-- A magnitude is representable when it has at most 53 significant bits. -/
def Rep (n : Nat) : Prop := 2 ^ ulpExp n ∣ n

instance (n : Nat) : Decidable (Rep n) := by unfold Rep; infer_instance

/-- The magnitude of `1.0`: the number of units `2^-1074` in one. -/
def scale : Nat := 2 ^ 1074

/-- Magnitudes from `2^2098` on (that is `2^1024` as a real number) overflow. -/
def ovf : Nat := 2 ^ 2098

/-- The well-formed data of type `double`. -/
def IsDouble : Dbl → Prop
  | Dbl.fin _ n => Rep n ∧ n < ovf
  | _ => True

instance (x : Dbl) : Decidable (IsDouble x) := by
  cases x <;> unfold IsDouble <;> infer_instance

/-- Round the non-negative rational `n / d` (in units of `2^-1074`) to the nearest magnitude
with 53 significant bits, ties to even, before any overflow check. -/
def roundRat (n d : Nat) : Nat :=
  let k := ulpExp (n / d)
  let D := d * 2 ^ k
  let Q := n / D
  let r := n % D
  (if D < 2 * r ∨ (2 * r = D ∧ Q % 2 = 1) then Q + 1 else Q) * 2 ^ k

/-- Deliver a rounded magnitude with its sign: overflow gives the infinity of that sign. -/
def mk (neg : Bool) (n : Nat) : Dbl :=
  if ovf ≤ n then Dbl.inf neg else Dbl.fin neg n

namespace Dbl

/-- The signed magnitude of a finite number in units of `2^-1074` (0 for NaN, infinities). -/
def toInt : Dbl → Int
  | fin s n => if s then -(n : Int) else (n : Int)
  | _ => 0

/-- The real number a finite datum stands for (0 for NaN and infinities). -/
def toRat (x : Dbl) : ℚ := (x.toInt : ℚ) / (scale : ℚ)

/-- The C classification macro `isfinite`. -/
def isFinite : Dbl → Bool
  | fin _ _ => true
  | _ => false

/-- The C classification macro `isnan`. -/
def isNaN : Dbl → Bool
  | nan => true
  | _ => false

/-- The C macro `signbit`; the sign bit of a NaN is not modelled and reads as clear. -/
def signbit : Dbl → Bool
  | nan => false
  | inf s => s
  | fin s _ => s

/-- Unary minus: flips the sign bit. -/
def neg : Dbl → Dbl
  | nan => nan
  | inf s => inf (!s)
  | fin s n => fin (!s) n

/-- IEEE-754 addition `a + b`. -/
def add : Dbl → Dbl → Dbl
  | nan, _ => nan
  | _, nan => nan
  | inf s, inf t => if s = t then inf s else nan
  | inf s, fin _ _ => inf s
  | fin _ _, inf t => inf t
  | fin s n, fin t m =>
    let i := (fin s n).toInt + (fin t m).toInt
    if i = 0 then fin (s && t) 0
    else mk (decide (i < 0)) (roundRat i.natAbs 1)

/-- IEEE-754 subtraction `a - b`, which is `a + (-b)`. -/
def sub (a b : Dbl) : Dbl := add a (neg b)

/-- IEEE-754 multiplication `a * b`. -/
def mul : Dbl → Dbl → Dbl
  | nan, _ => nan
  | _, nan => nan
  | inf s, inf t => inf (xor s t)
  | inf s, fin t m => if m = 0 then nan else inf (xor s t)
  | fin s n, inf t => if n = 0 then nan else inf (xor s t)
  | fin s n, fin t m => mk (xor s t) (roundRat (n * m) scale)

/-- The C library `fma(a, b, c)`: `a * b + c` with a single rounding. -/
def fma : Dbl → Dbl → Dbl → Dbl
  | nan, _, _ => nan
  | _, nan, _ => nan
  | _, _, nan => nan
  | inf s, inf t, c => if c = inf (!(xor s t)) then nan else inf (xor s t)
  | inf s, fin t m, c =>
    if m = 0 then nan else if c = inf (!(xor s t)) then nan else inf (xor s t)
  | fin s n, inf t, c =>
    if n = 0 then nan else if c = inf (!(xor s t)) then nan else inf (xor s t)
  | fin _ _, fin _ _, inf u => inf u
  | fin s n, fin t m, fin u l =>
    let p : Int := if xor s t then -((n * m : Nat) : Int) else ((n * m : Nat) : Int)
    let i := p + (fin u l).toInt * (scale : Int)
    if i = 0 then fin (if xor s t = u then u else false) 0
    else mk (decide (i < 0)) (roundRat i.natAbs scale)

/-- IEEE-754 division `a / b`. -/
def div : Dbl → Dbl → Dbl
  | nan, _ => nan
  | _, nan => nan
  | inf _, inf _ => nan
  | inf s, fin t _ => inf (xor s t)
  | fin s _, inf t => fin (xor s t) 0
  | fin s n, fin t m =>
    if m = 0 then (if n = 0 then nan else inf (xor s t))
    else mk (xor s t) (roundRat (n * scale) m)

end Dbl

/-- The C struct `ddouble`: a pair of doubles standing for `hi + lo`. -/
structure ddouble where
  hi : Dbl
  lo : Dbl
  deriving DecidableEq, Repr

/-- Source `two_sum_quick`: `s = a + b; lo = b - (s - a)`. -/
def two_sum_quick (a b : Dbl) : ddouble :=
  let s := Dbl.add a b
  let lo := Dbl.sub b (Dbl.sub s a)
  { hi := s, lo := lo }

/-- Source `two_sum`: `s = a + b; v = s - a; lo = (a - (s - v)) + (b - v)`. -/
def two_sum (a b : Dbl) : ddouble :=
  let s := Dbl.add a b
  let v := Dbl.sub s a
  let lo := Dbl.add (Dbl.sub a (Dbl.sub s v)) (Dbl.sub b v)
  { hi := s, lo := lo }

/-- Source `two_diff`: `s = a - b; v = s - a; lo = (a - (s - v)) - (b + v)`. -/
def two_diff (a b : Dbl) : ddouble :=
  let s := Dbl.sub a b
  let v := Dbl.sub s a
  let lo := Dbl.sub (Dbl.sub a (Dbl.sub s v)) (Dbl.add b v)
  { hi := s, lo := lo }

/-- Source `two_prod`: `s = a * b; lo = fma(a, b, -s)`. -/
def two_prod (a b : Dbl) : ddouble :=
  let s := Dbl.mul a b
  let lo := Dbl.fma a b (Dbl.neg s)
  { hi := s, lo := lo }

/-- Source `addqd`. -/
def addqd (x : ddouble) (y : Dbl) : ddouble :=
  let s := two_sum x.hi y
  let v := Dbl.add x.lo s.lo
  two_sum_quick s.hi v

/-- Source `mulqd`. -/
def mulqd (x : ddouble) (y : Dbl) : ddouble :=
  let c := two_prod x.hi y
  let v := Dbl.fma x.lo y c.lo
  two_sum_quick c.hi v

/-- Source `divqd` (Alg 14). -/
def divqd (x : ddouble) (y : Dbl) : ddouble :=
  let t_hi := Dbl.div x.hi y
  let pi := two_prod t_hi y
  let d_hi := Dbl.sub x.hi pi.hi
  let d_lo := Dbl.sub x.lo pi.lo
  let t_lo := Dbl.div (Dbl.add d_hi d_lo) y
  two_sum_quick t_hi t_lo

/-- Source `adddq`. -/
def adddq (x : Dbl) (y : ddouble) : ddouble := addqd y x

/-- Source `muldq`. -/
def muldq (x : Dbl) (y : ddouble) : ddouble := mulqd y x

/-- Source `addqq`. -/
def addqq (x y : ddouble) : ddouble :=
  let s := two_sum x.hi y.hi
  let t := two_sum x.lo y.lo
  let v := two_sum_quick s.hi (Dbl.add s.lo t.hi)
  let z := two_sum_quick v.hi (Dbl.add t.lo v.lo)
  z

/-- Source `subqq`. -/
def subqq (x y : ddouble) : ddouble :=
  let s := two_diff x.hi y.hi
  let t := two_diff x.lo y.lo
  let v := two_sum_quick s.hi (Dbl.add s.lo t.hi)
  let z := two_sum_quick v.hi (Dbl.add t.lo v.lo)
  z

/-- Source `mulqq` (Alg 11). -/
def mulqq (a b : ddouble) : ddouble :=
  let c := two_prod a.hi b.hi
  let t := Dbl.mul a.hi b.lo
  let t := Dbl.fma a.lo b.hi t
  two_sum_quick c.hi (Dbl.add c.lo t)

/-- Source `divqq` (Alg 17). -/
def divqq (x y : ddouble) : ddouble :=
  let t_hi := Dbl.div x.hi y.hi
  let r := mulqd y t_hi
  let pi_hi := Dbl.sub x.hi r.hi
  let d := Dbl.add pi_hi (Dbl.sub x.lo r.lo)
  let t_lo := Dbl.div d y.hi
  two_sum_quick t_hi t_lo

/-- Source `negq`: `{-a.hi, -a.lo}`. -/
def negq (a : ddouble) : ddouble := { hi := Dbl.neg a.hi, lo := Dbl.neg a.lo }

/-- Source `posq`, whose body is `{-a.hi, -a.lo}` as well. -/
def posq (a : ddouble) : ddouble := { hi := Dbl.neg a.hi, lo := Dbl.neg a.lo }

/-- Source `absq`: `signbit(a.hi) ? negq(a) : a`. -/
def absq (a : ddouble) : ddouble := if a.hi.signbit then negq a else a

/-- The double `1.0`. -/
def one : Dbl := Dbl.fin false scale

/-- The double `0.0`. -/
def zero : Dbl := Dbl.fin false 0

/-- The largest finite double, `(2^53 - 1) * 2^971`. -/
def maxDbl : Dbl := Dbl.fin false ((2 ^ 53 - 1) * 2 ^ 2045)

/-- The double `-0.0`. -/
def negZero : Dbl := Dbl.fin true 0

/-- The double `-1.0`. -/
def negOne : Dbl := Dbl.fin true scale

/-- The double nearest to `1e-20`, `0x1.79ca10c924223p-67`. -/
def tenPowNeg20 : Dbl := Dbl.fin false (0x179ca10c924223 * 2 ^ 955)

/-- The smallest positive subnormal double, `2^-1074`. -/
def minSubnormal : Dbl := Dbl.fin false 1

/-- The double `0.5`. -/
def half : Dbl := Dbl.fin false (2 ^ 1073)

/-- The double `-3 * 2^970`. -/
def negThreeTwoPow970 : Dbl := Dbl.fin true (3 * 2 ^ 2044)

/-- The double `2^e` for `-1074 ≤ e`, given through `k = e + 1074`. -/
def twoPow (k : Nat) : Dbl := Dbl.fin false (2 ^ k)

/-- Rounding of a natural number (a rational with denominator `1`), the case needed by
`+` and `-`. -/
def rn (n : Nat) : Nat := roundRat n 1

/-- Rounding of a signed magnitude: the sign is kept, the magnitude is rounded. -/
def rnI (i : Int) : Int := Int.sign i * (rn i.natAbs : Int)

/-- A signed magnitude is representable when its absolute value is. -/
def RepI (i : Int) : Prop := Rep i.natAbs

/-- The unit in the last place of a finite double, as a real number: `2^-1074` for zero and
the subnormal numbers, `2^(e-52)` for a normal number in `[2^e, 2^(e+1))`. -/
def Dbl.ulp (x : Dbl) : ℚ := (2 ^ ulpExp x.toInt.natAbs : ℚ) / (scale : ℚ)

/-- The normalized (non-overlapping) form of a finite double-double:
`|lo| ≤ 0.5 * ulp(hi)`. -/
def Normalized (x : ddouble) : Prop := |x.lo.toRat| ≤ x.hi.ulp / 2

/-- The exact result `num / den` of an operation (in units of `2^-1074`) is tiny: nonzero and
below the normal range, that is of magnitude below `2^-1022`; the operation underflows. -/
def Tiny (num : Int) (den : Nat) : Prop := num ≠ 0 ∧ num.natAbs < 2 ^ 52 * den

instance (num : Int) (den : Nat) : Decidable (Tiny num den) := by
  unfold Tiny
  infer_instance

/-- The product `a * b` neither overflows nor underflows. -/
def Dbl.mulOK (a b : Dbl) : Prop :=
  (Dbl.mul a b).isFinite = true ∧ ¬ Tiny (a.toInt * b.toInt) scale

/-- The fused multiply-add `fma(a, b, c)` neither overflows nor underflows. -/
def Dbl.fmaOK (a b c : Dbl) : Prop :=
  (Dbl.fma a b c).isFinite = true ∧ ¬ Tiny (a.toInt * b.toInt + c.toInt * scale) scale

/-- The quotient `a / b` by a nonzero finite `b` neither overflows nor underflows. -/
def Dbl.divOK (a b : Dbl) : Prop :=
  (Dbl.div a b).isFinite = true ∧ b.toInt ≠ 0 ∧ ¬ Tiny (a.toInt * scale) b.toInt.natAbs

/-- The double-double `{1.0, 2^-54}`. -/
def onePlusTiny : ddouble := ⟨one, twoPow 1020⟩

/-- The double-double `{2^-54, 2^-200}`. -/
def tinyPlusTinier : ddouble := ⟨twoPow 1020, twoPow 874⟩

/-- The double `1 + 2^-52`, the successor of `1.0`. -/
def succOne : Dbl := Dbl.fin false (2 ^ 1074 + 2 ^ 1022)

/-- Two doubles are the same datum up to the sign of a zero. -/
def EqZ (x y : Dbl) : Prop := x = y ∨ ∃ s t, x = Dbl.fin s 0 ∧ y = Dbl.fin t 0

/-- A double `x` is nearest to the rational `q`: no finite double is nearer. -/
def NearestTo (q : ℚ) (x : Dbl) : Prop :=
  ∀ y : Dbl, IsDouble y → y.isFinite = true → |x.toRat - q| ≤ |y.toRat - q|

end Xprec

namespace Xprec

/-- The sum `a + b` neither overflows nor underflows. -/
def Dbl.addOK (a b : Dbl) : Prop :=
  (Dbl.add a b).isFinite = true ∧ ¬ Tiny (a.toInt + b.toInt) 1

/-- The difference `a - b` neither overflows nor underflows. -/
def Dbl.subOK (a b : Dbl) : Prop :=
  (Dbl.sub a b).isFinite = true ∧ ¬ Tiny (a.toInt - b.toInt) 1

instance (a b : Dbl) : Decidable (Dbl.addOK a b) := by
  unfold Dbl.addOK
  infer_instance

instance (a b : Dbl) : Decidable (Dbl.subOK a b) := by
  unfold Dbl.subOK
  infer_instance

instance (a b : Dbl) : Decidable (Dbl.mulOK a b) := by
  unfold Dbl.mulOK
  infer_instance

instance (a b c : Dbl) : Decidable (Dbl.fmaOK a b c) := by
  unfold Dbl.fmaOK
  infer_instance

instance (a b : Dbl) : Decidable (Dbl.divOK a b) := by
  unfold Dbl.divOK
  infer_instance

/-- No operation of `two_sum_quick a b` overflows or underflows. -/
def two_sum_quick_OK (a b : Dbl) : Prop :=
  Dbl.addOK a b ∧ Dbl.subOK (Dbl.add a b) a ∧ Dbl.subOK b (Dbl.sub (Dbl.add a b) a)

/-- No operation of `two_prod a b` overflows or underflows. -/
def two_prod_OK (a b : Dbl) : Prop :=
  Dbl.mulOK a b ∧ Dbl.fmaOK a b (Dbl.neg (Dbl.mul a b))

/-- No operation of `mulqd x y` overflows or underflows. -/
def mulqd_OK (x : ddouble) (y : Dbl) : Prop :=
  two_prod_OK x.hi y ∧
  Dbl.fmaOK x.lo y (two_prod x.hi y).lo ∧
  two_sum_quick_OK (two_prod x.hi y).hi (Dbl.fma x.lo y (two_prod x.hi y).lo)

/-- No operation of `mulqq a b` overflows or underflows. -/
def mulqq_OK (a b : ddouble) : Prop :=
  two_prod_OK a.hi b.hi ∧
  Dbl.mulOK a.hi b.lo ∧
  Dbl.fmaOK a.lo b.hi (Dbl.mul a.hi b.lo) ∧
  Dbl.addOK (two_prod a.hi b.hi).lo (Dbl.fma a.lo b.hi (Dbl.mul a.hi b.lo)) ∧
  two_sum_quick_OK (two_prod a.hi b.hi).hi
    (Dbl.add (two_prod a.hi b.hi).lo (Dbl.fma a.lo b.hi (Dbl.mul a.hi b.lo)))

/-- No operation of `divqq x y` overflows or underflows. -/
def divqq_OK (x y : ddouble) : Prop :=
  Dbl.divOK x.hi y.hi ∧
  mulqd_OK y (Dbl.div x.hi y.hi) ∧
  Dbl.subOK x.hi (mulqd y (Dbl.div x.hi y.hi)).hi ∧
  Dbl.subOK x.lo (mulqd y (Dbl.div x.hi y.hi)).lo ∧
  Dbl.addOK (Dbl.sub x.hi (mulqd y (Dbl.div x.hi y.hi)).hi)
    (Dbl.sub x.lo (mulqd y (Dbl.div x.hi y.hi)).lo) ∧
  Dbl.divOK (Dbl.add (Dbl.sub x.hi (mulqd y (Dbl.div x.hi y.hi)).hi)
    (Dbl.sub x.lo (mulqd y (Dbl.div x.hi y.hi)).lo)) y.hi ∧
  two_sum_quick_OK (Dbl.div x.hi y.hi)
    (Dbl.div (Dbl.add (Dbl.sub x.hi (mulqd y (Dbl.div x.hi y.hi)).hi)
      (Dbl.sub x.lo (mulqd y (Dbl.div x.hi y.hi)).lo)) y.hi)

instance (a b : Dbl) : Decidable (two_sum_quick_OK a b) := by
  unfold two_sum_quick_OK
  infer_instance

instance (a b : Dbl) : Decidable (two_prod_OK a b) := by
  unfold two_prod_OK
  infer_instance

instance (x : ddouble) (y : Dbl) : Decidable (mulqd_OK x y) := by
  unfold mulqd_OK
  infer_instance

instance (a b : ddouble) : Decidable (mulqq_OK a b) := by
  unfold mulqq_OK
  infer_instance

instance (x y : ddouble) : Decidable (divqq_OK x y) := by
  unfold divqq_OK
  infer_instance

/-- No operation of the round trip `divqq (mulqq x y) y` overflows or underflows. -/
def roundTripOK (x y : ddouble) : Prop := mulqq_OK x y ∧ divqq_OK (mulqq x y) y

instance (x y : ddouble) : Decidable (roundTripOK x y) := by
  unfold roundTripOK
  infer_instance

/-- The double-double `{0x1.1bf83cdd16d7ap+0, -0x1.e3bad27bfca48p-56}`. -/
def rtX : ddouble :=
  ⟨Dbl.fin false (0x8dfc1e6e8b6bd * 2 ^ 1023), Dbl.fin true (0x3c775a4f7f949 * 2 ^ 969)⟩

/-- The double-double `{0x1.0dfe6bf49af65p+0, 0x1.b51a069b4f624p-55}`. -/
def rtY : ddouble :=
  ⟨Dbl.fin false (0x10dfe6bf49af65 * 2 ^ 1022), Dbl.fin false (0x6d4681a6d3d89 * 2 ^ 969)⟩

/-- The double-double `{1.625, -13 * 2^-57}`. -/
def rtA : ddouble := ⟨Dbl.fin false (13 * 2 ^ 1071), Dbl.fin true (13 * 2 ^ 1017)⟩

/-- The double-double `{1.25, -3 * 2^-55}`. -/
def rtB : ddouble := ⟨Dbl.fin false (5 * 2 ^ 1072), Dbl.fin true (3 * 2 ^ 1019)⟩

end Xprec

namespace Xprec

namespace Dbl

/-- The C operator `<` on doubles: false when an operand is NaN; `-0.0` and `0.0` are the
same number. -/
def lt : Dbl → Dbl → Bool
  | nan, _ => false
  | _, nan => false
  | inf s, inf t => s && !t
  | inf s, fin _ _ => s
  | fin _ _, inf t => !t
  | fin s n, fin t m => decide ((fin s n).toInt < (fin t m).toInt)

/-- The C operator `==` on doubles: false when an operand is NaN. -/
def eq : Dbl → Dbl → Bool
  | nan, _ => false
  | _, nan => false
  | inf s, inf t => s == t
  | inf _, fin _ _ => false
  | fin _ _, inf _ => false
  | fin s n, fin t m => decide ((fin s n).toInt = (fin t m).toInt)

/-- The C operator `<=` on doubles. -/
def le (x y : Dbl) : Bool := lt x y || eq x y

/-- The C operator `>` on doubles. -/
def gt (x y : Dbl) : Bool := lt y x

/-- The C operator `>=` on doubles. -/
def ge (x y : Dbl) : Bool := le y x

end Dbl

/-- The double `2^53 + 2`. -/
def twoPow53Plus2 : Dbl := Dbl.fin false ((2 ^ 53 + 2) * 2 ^ 1074)

/-- The double-double `{1.0, 0.0}`. -/
def oneQ : ddouble := ⟨one, zero⟩

/-- The double-double `{-0.0, 0.0}`. -/
def negZeroQ : ddouble := ⟨negZero, zero⟩

/-- The double-double `{-1.0, 2^-54}`. -/
def negOnePlusTiny : ddouble := ⟨negOne, twoPow 1020⟩

/-- The double-double `{DBL_MAX, 0.0}`. -/
def maxQ : ddouble := ⟨maxDbl, zero⟩

/-- Source `addqq`, local `s = two_sum(x.hi, y.hi)`. -/
def addqq_s (x y : ddouble) : ddouble := two_sum x.hi y.hi

/-- Source `addqq`, local `t = two_sum(x.lo, y.lo)`. -/
def addqq_t (x y : ddouble) : ddouble := two_sum x.lo y.lo

/-- Source `addqq`, the second argument `s.lo + t.hi` of the first call of
`two_sum_quick`. -/
def addqq_c (x y : ddouble) : Dbl := Dbl.add (addqq_s x y).lo (addqq_t x y).hi

/-- Source `addqq`, local `v = two_sum_quick(s.hi, s.lo + t.hi)`. -/
def addqq_v (x y : ddouble) : ddouble := two_sum_quick (addqq_s x y).hi (addqq_c x y)

/-- Source `addqq`, the second argument `t.lo + v.lo` of the second call of
`two_sum_quick`. -/
def addqq_w (x y : ddouble) : Dbl := Dbl.add (addqq_t x y).lo (addqq_v x y).lo

/-- The double `a` is an integer multiple of `ulp(b)`: the condition under which
`two_sum_quick a b` returns the exact rounding error. It holds whenever `|a| ≥ |b|`. -/
def UlpMultiple (a b : Dbl) : Prop := (2 : Int) ^ ulpExp b.toInt.natAbs ∣ a.toInt

/-- Modelled from the spec: the helper `greaterqq` of `dd_arith.h`, which is not among the
sources. The spec has the ordering predicates "compare `(hi, lo)` lexicographically", every
ordered comparison with a NaN operand being false. -/
def greaterqq (x y : ddouble) : Bool :=
  Dbl.gt x.hi y.hi || (Dbl.eq x.hi y.hi && Dbl.gt x.lo y.lo)

/-- Modelled from the spec: the helper `lessqq` of `dd_arith.h`, which is not among the
sources; the strict lexicographic order on `(hi, lo)`. -/
def lessqq (x y : ddouble) : Bool :=
  Dbl.lt x.hi y.hi || (Dbl.eq x.hi y.hi && Dbl.lt x.lo y.lo)

/-- The non-strict lexicographic order `(x.hi, x.lo) >= (y.hi, y.lo)` of the spec. -/
def lexGe (x y : ddouble) : Bool :=
  Dbl.gt x.hi y.hi || (Dbl.eq x.hi y.hi && Dbl.ge x.lo y.lo)

/-- The non-strict lexicographic order `(x.hi, x.lo) <= (y.hi, y.lo)` of the spec. -/
def lexLe (x y : ddouble) : Bool :=
  Dbl.lt x.hi y.hi || (Dbl.eq x.hi y.hi && Dbl.le x.lo y.lo)

/-- A 64-bit pattern of a signed value: conversion of an `npy_intp` to `size_t`, and the
reduction of a byte address modulo `2^64`. -/
def wrap64 (x : Int) : Nat := (x % 2 ^ 64).toNat

/-- A 64-bit pattern read as the signed type `npy_intp`. -/
def toIntp (u : Nat) : Int := if u < 2 ^ 63 then (u : Int) else (u : Int) - 2 ^ 64

/-- Source `ULOOP_UNARY` of `_dd_ufunc.c`: the element strides are
`is = steps[0] / sizeof(type_in)` and `os = steps[1] / sizeof(type_out)` (the signed step is
converted to `size_t` for the division by `sizeof`, the quotient is stored as `npy_intp`),
and `out[i * os] = inner_func(in[i * is])` for `0 ≤ i < n`. The input array is given by the
element read at each byte offset from `args[0]`; the result lists the writes in index order
as pairs (byte offset from `args[1]`, value written), offsets modulo `2^64`. -/
def ULOOP_UNARY {α β : Type} (inner_func : α → β) (sizeof_out sizeof_in : Nat)
    (n steps0 steps1 : Int) (inp : Nat → α) : List (Nat × β) :=
  let is : Int := toIntp (wrap64 steps0 / sizeof_in)
  let os : Int := toIntp (wrap64 steps1 / sizeof_out)
  (List.range n.toNat).map fun (i : Nat) =>
    (wrap64 ((i : Int) * os * (sizeof_out : Int)),
      inner_func (inp (wrap64 ((i : Int) * is * (sizeof_in : Int)))))

/-- The body of the loop of `DDOUBLE_UNARY_FUNCTION`, run `k` times from the byte pointers
`_in1` and `_out1`: `*out = inner_func(*in); _in1 += is1; _out1 += os1`. -/
def byteLoop {α β : Type} (inner_func : α → β) (is1 os1 : Int) (inp : Nat → α) :
    Nat → Nat → Nat → List (Nat × β)
  | 0, _, _ => []
  | k + 1, in1, out1 =>
    (out1, inner_func (inp in1)) ::
      byteLoop inner_func is1 os1 inp k (wrap64 ((in1 : Int) + is1)) (wrap64 ((out1 : Int) + os1))

/-- Source `DDOUBLE_UNARY_FUNCTION` of `ddouble.c`: the byte pointers `_in1 = args[0]` and
`_out1 = args[1]` advance by `steps[0]` and `steps[1]` bytes per iteration, for
`0 ≤ i < n`. Input and writes are given as for `ULOOP_UNARY`. -/
def DDOUBLE_UNARY_FUNCTION {α β : Type} (inner_func : α → β)
    (n steps0 steps1 : Int) (inp : Nat → α) : List (Nat × β) :=
  byteLoop inner_func steps0 steps1 inp n.toNat 0 0

/-- Source `ULOOP_BINARY` of `_dd_ufunc.c`: element strides `as`, `bs`, `os` as in
`ULOOP_UNARY`, and `out[i * os] = inner_func(a[i * as], b[i * bs])` for `0 ≤ i < n`. -/
def ULOOP_BINARY {α β γ : Type} (inner_func : α → β → γ) (sizeof_out sizeof_a sizeof_b : Nat)
    (n steps0 steps1 steps2 : Int) (a : Nat → α) (b : Nat → β) : List (Nat × γ) :=
  let as : Int := toIntp (wrap64 steps0 / sizeof_a)
  let bs : Int := toIntp (wrap64 steps1 / sizeof_b)
  let os : Int := toIntp (wrap64 steps2 / sizeof_out)
  (List.range n.toNat).map fun (i : Nat) =>
    (wrap64 ((i : Int) * os * (sizeof_out : Int)),
      inner_func (a (wrap64 ((i : Int) * as * (sizeof_a : Int))))
        (b (wrap64 ((i : Int) * bs * (sizeof_b : Int)))))

/-- Source `ULOOP_BINARY(u_greaterequalqq, greaterqq, bool, ddouble, ddouble)`, the loop
registered for the ddouble-by-ddouble form of `greater_equal`; `sizeof(bool)` is 1 and
`sizeof(ddouble)` is 16. -/
def u_greaterequalqq (n steps0 steps1 steps2 : Int) (a b : Nat → ddouble) : List (Nat × Bool) :=
  ULOOP_BINARY greaterqq 1 16 16 n steps0 steps1 steps2 a b

/-- Source `ULOOP_BINARY(u_lessequalqq, lessqq, bool, ddouble, ddouble)`, the loop registered
for the ddouble-by-ddouble form of `less_equal`. -/
def u_lessequalqq (n steps0 steps1 steps2 : Int) (a b : Nat → ddouble) : List (Nat × Bool) :=
  ULOOP_BINARY lessqq 1 16 16 n steps0 steps1 steps2 a b

/-- Source `ULOOP_UNARY(u_negq, negq, ddouble, ddouble)`. -/
def u_negq (n steps0 steps1 : Int) (inp : Nat → ddouble) : List (Nat × ddouble) :=
  ULOOP_UNARY negq 16 16 n steps0 steps1 inp

/-- An input array whose element at byte offset `k` is the double-double `{k * 2^-1074, 0.0}`,
so that elements read at different offsets differ. -/
def offsetArray (k : Nat) : ddouble := ⟨Dbl.fin false k, zero⟩

end Xprec

/-! ## Rounding to 53 significant bits: basic facts -/

namespace Xprec

theorem lgAux_eq_log (fuel : Nat) : ∀ n, n ≤ fuel → lgAux fuel n = Nat.log 2 n := by
  induction fuel with
  | zero =>
    intro n hn
    have h0 : n = 0 := by omega
    subst h0
    simp [lgAux]
  | succ f ih =>
    intro n hn
    unfold lgAux
    by_cases h : n < 2
    · rw [if_pos h, Nat.log_of_lt h]
    · rw [if_neg h, ih (n / 2) (by omega),
        Nat.log_of_one_lt_of_le (by norm_num) (by omega : 2 ≤ n)]

theorem lg_eq_log (n : Nat) : lg n = Nat.log 2 n := lgAux_eq_log n n le_rfl

theorem ulpExp_lt (n : Nat) : n < 2 ^ (53 + ulpExp n) := by
  have h := Nat.lt_pow_succ_log_self (by norm_num : 1 < 2) n
  refine lt_of_lt_of_le h (Nat.pow_le_pow_right (by norm_num) ?_)
  unfold ulpExp
  rw [lg_eq_log]
  omega

theorem ulpExp_le_of_lt {n k : Nat} (h : n < 2 ^ (53 + k)) : ulpExp n ≤ k := by
  unfold ulpExp
  rw [lg_eq_log]
  rcases Nat.eq_zero_or_pos n with h0 | h0
  · subst h0; simp
  · have := Nat.log_lt_of_lt_pow (by omega : n ≠ 0) h
    omega

theorem le_ulpExp_of_le {n k : Nat} (h : 2 ^ (52 + k) ≤ n) : k ≤ ulpExp n := by
  unfold ulpExp
  rw [lg_eq_log]
  have := Nat.le_log_of_pow_le (by norm_num : 1 < 2) h
  omega

theorem pow_le_of_ulpExp_pos {n : Nat} (h : 0 < ulpExp n) : 2 ^ (52 + ulpExp n) ≤ n := by
  unfold ulpExp at h ⊢
  rw [lg_eq_log] at h ⊢
  have hn : n ≠ 0 := by
    rintro rfl
    simp at h
  have h2 : 52 + (Nat.log 2 n - 52) = Nat.log 2 n := by omega
  rw [h2]
  exact Nat.pow_log_le_self 2 hn

theorem ulpExp_mono {n m : Nat} (h : n ≤ m) : ulpExp n ≤ ulpExp m := by
  unfold ulpExp
  rw [lg_eq_log, lg_eq_log]
  have := Nat.log_mono_right (b := 2) h
  omega

theorem ulpExp_eq_zero {n : Nat} (h : n < 2 ^ 53) : ulpExp n = 0 :=
  Nat.le_zero.mp (ulpExp_le_of_lt (k := 0) h)

theorem rep_zero : Rep 0 := by
  unfold Rep
  exact dvd_zero _

theorem rep_of_dvd_le {n k : Nat} (hd : 2 ^ k ∣ n) (hle : n ≤ 2 ^ (53 + k)) : Rep n := by
  unfold Rep
  rcases Nat.lt_or_ge n (2 ^ (53 + k)) with h | h
  · exact dvd_trans (pow_dvd_pow 2 (ulpExp_le_of_lt h)) hd
  · have he : n = 2 ^ (53 + k) := le_antisymm hle h
    rw [he]
    have hu : ulpExp (2 ^ (53 + k)) ≤ k + 1 :=
      ulpExp_le_of_lt (by
        apply Nat.pow_lt_pow_right (by norm_num)
        omega)
    exact pow_dvd_pow 2 (by omega)

theorem rep_of_lt {n : Nat} (h : n < 2 ^ 53) : Rep n :=
  rep_of_dvd_le (k := 0) (by simp) (le_of_lt h)

theorem Rep.dvd_of_pow_le {m k : Nat} (hm : Rep m) (h : 2 ^ (52 + k) ≤ m) : 2 ^ k ∣ m :=
  dvd_trans (pow_dvd_pow 2 (le_ulpExp_of_le h)) hm

/-- Two multiples of `p` that differ are at least `p` apart. -/
theorem add_le_of_dvd_of_lt {p a b : Nat} (ha : p ∣ a) (hb : p ∣ b) (h : a < b) :
    a + p ≤ b := by
  obtain ⟨x, rfl⟩ := ha
  obtain ⟨y, rfl⟩ := hb
  rcases Nat.eq_zero_or_pos p with hp | hp
  · subst hp; simp at h
  · have hxy : x < y := lt_of_mul_lt_mul_left h (Nat.zero_le p)
    calc p * x + p = p * (x + 1) := by ring
      _ ≤ p * y := Nat.mul_le_mul_left p hxy

/-- The shape of `rn n`: with `L` the multiple of the ulp just below `n` and `r` the rest,
the result is `L` or `L + ulp`, whichever is nearer. -/
theorem rn_spec (n : Nat) : ∃ L r, n = L + r ∧ r < 2 ^ ulpExp n ∧ 2 ^ ulpExp n ∣ L ∧
    ((rn n = L ∧ 2 * r ≤ 2 ^ ulpExp n) ∨ (rn n = L + 2 ^ ulpExp n ∧ 2 ^ ulpExp n ≤ 2 * r)) ∧
    (r = 0 → rn n = n) := by
  have hp : 0 < 2 ^ ulpExp n := Nat.pow_pos (by norm_num)
  refine ⟨n / 2 ^ ulpExp n * 2 ^ ulpExp n, n % 2 ^ ulpExp n, ?_, Nat.mod_lt _ hp,
    Dvd.intro_left _ rfl, ?_, ?_⟩
  · exact (Nat.div_add_mod' n (2 ^ ulpExp n)).symm
  · unfold rn roundRat
    simp only [Nat.div_one, one_mul]
    split_ifs with h
    · right
      refine ⟨by ring, ?_⟩
      rcases h with h | h
      · exact le_of_lt h
      · exact le_of_eq h.1.symm
    · left
      refine ⟨rfl, ?_⟩
      by_contra hc
      exact h (Or.inl (by omega))
  · intro hr
    unfold rn roundRat
    simp only [Nat.div_one, one_mul]
    rw [if_neg]
    · have := Nat.div_add_mod' n (2 ^ ulpExp n)
      omega
    · rw [hr]
      omega

end Xprec

namespace Xprec

/-- No representable magnitude lies strictly between the two neighbours of `n`. -/
theorem rep_gap {n L r : Nat} (hn : n = L + r) (hr : r < 2 ^ ulpExp n)
    (hL : 2 ^ ulpExp n ∣ L) {m : Nat} (hm : Rep m) : m ≤ L ∨ L + 2 ^ ulpExp n ≤ m := by
  by_contra hc
  push_neg at hc
  rcases Nat.eq_zero_or_pos (ulpExp n) with hk | hk
  · rw [hk] at hc
    omega
  · have h1 : 2 ^ (52 + ulpExp n) ≤ n := pow_le_of_ulpExp_pos hk
    have hd : 2 ^ ulpExp n ∣ 2 ^ (52 + ulpExp n) := pow_dvd_pow 2 (by omega)
    have h2 : 2 ^ (52 + ulpExp n) ≤ L := by
      by_contra h3
      have := add_le_of_dvd_of_lt hL hd (by omega)
      omega
    have h4 : 2 ^ ulpExp n ∣ m := hm.dvd_of_pow_le (by omega)
    have := add_le_of_dvd_of_lt hL h4 hc.1
    omega

theorem rn_dvd (n : Nat) : 2 ^ ulpExp n ∣ rn n := by
  obtain ⟨L, r, _, _, hL, h, _⟩ := rn_spec n
  rcases h with ⟨h, _⟩ | ⟨h, _⟩
  · rw [h]; exact hL
  · rw [h]; exact Dvd.dvd.add hL dvd_rfl

theorem rn_le_pow (n : Nat) : rn n ≤ 2 ^ (53 + ulpExp n) := by
  obtain ⟨L, r, hn, _, hL, h, _⟩ := rn_spec n
  have h1 := ulpExp_lt n
  have hd : 2 ^ ulpExp n ∣ 2 ^ (53 + ulpExp n) := pow_dvd_pow 2 (by omega)
  have := add_le_of_dvd_of_lt hL hd (by omega)
  rcases h with ⟨h, _⟩ | ⟨h, _⟩ <;> omega

theorem rn_rep (n : Nat) : Rep (rn n) := rep_of_dvd_le (rn_dvd n) (rn_le_pow n)

theorem rn_self {n : Nat} (h : Rep n) : rn n = n := by
  obtain ⟨L, r, hn, hr, hL, _, h0⟩ := rn_spec n
  apply h0
  have h1 : 2 ^ ulpExp n ∣ r := by
    have h2 : 2 ^ ulpExp n ∣ L + r := hn ▸ h
    exact (Nat.dvd_add_right hL).mp h2
  exact Nat.eq_zero_of_dvd_of_lt h1 hr

theorem rn_zero : rn 0 = 0 := rn_self rep_zero

theorem rn_err (n : Nat) :
    2 * rn n ≤ 2 * n + 2 ^ ulpExp n ∧ 2 * n ≤ 2 * rn n + 2 ^ ulpExp n := by
  obtain ⟨L, r, hn, hr, _, h, _⟩ := rn_spec n
  rcases h with ⟨h, _⟩ | ⟨h, _⟩ <;> omega

theorem rn_ge_of_rep {m n : Nat} (hm : Rep m) (h : m ≤ n) : m ≤ rn n := by
  obtain ⟨L, r, hn, hr, hL, hc, _⟩ := rn_spec n
  have := rep_gap hn hr hL hm
  rcases hc with ⟨hc, _⟩ | ⟨hc, _⟩ <;> omega

theorem rn_le_of_rep {m n : Nat} (hm : Rep m) (h : n ≤ m) : rn n ≤ m := by
  obtain ⟨L, r, hn, hr, hL, hc, h0⟩ := rn_spec n
  have := rep_gap hn hr hL hm
  rcases Nat.eq_zero_or_pos r with hr0 | hr0
  · have := h0 hr0
    omega
  · rcases hc with ⟨hc, _⟩ | ⟨hc, _⟩ <;> omega

/-- Optimality: no representable magnitude is nearer to `n` than `rn n`. -/
theorem rn_opt {m : Nat} (n : Nat) (hm : Rep m) :
    |(rn n : Int) - n| ≤ |(m : Int) - n| := by
  obtain ⟨L, r, hn, hr, hL, hc, h0⟩ := rn_spec n
  have hg := rep_gap hn hr hL hm
  rcases Nat.eq_zero_or_pos r with hr0 | hr0
  · rw [h0 hr0]
    simp
  · rcases hc with ⟨hc, _⟩ | ⟨hc, _⟩ <;> rcases hg with hg | hg <;>
      (rw [abs_le]; constructor <;> (rcases abs_cases ((m : Int) - n) with ⟨ha, _⟩ | ⟨ha, _⟩ <;> omega))

theorem rn_dvd_of_dvd {j n : Nat} (h : 2 ^ j ∣ n) : 2 ^ j ∣ rn n := by
  rcases Nat.le_total j (ulpExp n) with hj | hj
  · exact dvd_trans (pow_dvd_pow 2 hj) (rn_dvd n)
  · have : Rep n := dvd_trans (pow_dvd_pow 2 hj) h
    rw [rn_self this]
    exact h

theorem rn_pos {n : Nat} (h : 0 < n) : 0 < rn n := by
  have h1 : Rep 1 := rep_of_lt (by norm_num)
  have := rn_ge_of_rep h1 h
  omega

theorem rn_eq_zero {n : Nat} (h : rn n = 0) : n = 0 := by
  by_contra hn
  have := rn_pos (Nat.pos_of_ne_zero hn)
  omega

theorem ulpExp_le_rn (n : Nat) : ulpExp n ≤ ulpExp (rn n) := by
  rcases Nat.eq_zero_or_pos (ulpExp n) with hk | hk
  · omega
  · have h1 : 2 ^ (52 + ulpExp n) ≤ n := pow_le_of_ulpExp_pos hk
    have h2 : Rep (2 ^ (52 + ulpExp n)) :=
      rep_of_dvd_le (k := ulpExp n) (pow_dvd_pow 2 (by omega))
        (Nat.pow_le_pow_right (by norm_num) (by omega))
    exact le_ulpExp_of_le (rn_ge_of_rep h2 h1)

end Xprec

/-! ## Signed rounding -/

namespace Xprec

theorem rnI_ofNat (n : Nat) : rnI (n : Int) = (rn n : Int) := by
  unfold rnI
  rcases Nat.eq_zero_or_pos n with h | h
  · subst h
    simp [rn_zero]
  · rw [Int.sign_eq_one_of_pos (by exact_mod_cast h)]
    simp

theorem rnI_neg (i : Int) : rnI (-i) = -rnI i := by
  unfold rnI
  rw [Int.sign_neg, Int.natAbs_neg]
  ring

theorem rnI_zero : rnI 0 = 0 := by
  simpa [rn_zero] using rnI_ofNat 0

theorem repI_neg {i : Int} (h : RepI i) : RepI (-i) := by
  unfold RepI at *
  rwa [Int.natAbs_neg]

theorem repI_zero : RepI 0 := rep_zero

theorem repI_ofNat {n : Nat} : RepI (n : Int) ↔ Rep n := by
  unfold RepI
  simp

theorem rnI_natAbs (i : Int) : (rnI i).natAbs = rn i.natAbs := by
  obtain ⟨n, rfl | rfl⟩ := Int.eq_nat_or_neg i
  · rw [rnI_ofNat]; simp
  · rw [rnI_neg, rnI_ofNat]; simp

theorem rnI_rep (i : Int) : RepI (rnI i) := by
  unfold RepI
  rw [rnI_natAbs]
  exact rn_rep _

theorem rnI_self {i : Int} (h : RepI i) : rnI i = i := by
  unfold rnI
  rw [rn_self h]
  exact Int.sign_mul_natAbs i

theorem rnI_nonneg {i : Int} (h : 0 ≤ i) : 0 ≤ rnI i := by
  obtain ⟨n, rfl⟩ := Int.eq_ofNat_of_zero_le h
  rw [rnI_ofNat]
  exact Int.ofNat_nonneg _

theorem rnI_nonpos {i : Int} (h : i ≤ 0) : rnI i ≤ 0 := by
  have := rnI_nonneg (i := -i) (by omega)
  rw [rnI_neg] at this
  omega

theorem rnI_eq_zero {i : Int} (h : rnI i = 0) : i = 0 := by
  have h1 : (rnI i).natAbs = 0 := by rw [h]; rfl
  rw [rnI_natAbs] at h1
  have := rn_eq_zero h1
  omega

theorem rnI_ge_of_rep {m i : Int} (hm : RepI m) (h : m ≤ i) : m ≤ rnI i := by
  rcases le_or_lt 0 m with h0 | h0
  · obtain ⟨a, rfl⟩ := Int.eq_ofNat_of_zero_le h0
    obtain ⟨b, rfl⟩ := Int.eq_ofNat_of_zero_le (le_trans h0 h)
    rw [rnI_ofNat]
    exact_mod_cast rn_ge_of_rep (repI_ofNat.mp hm) (by exact_mod_cast h)
  · rcases le_or_lt 0 i with h1 | h1
    · have := rnI_nonneg h1
      omega
    · obtain ⟨a, ha⟩ := Int.eq_ofNat_of_zero_le (by omega : 0 ≤ -m)
      obtain ⟨b, hb⟩ := Int.eq_ofNat_of_zero_le (by omega : 0 ≤ -i)
      have hm' : Rep a := by
        have := repI_neg hm
        rw [ha] at this
        exact repI_ofNat.mp this
      have h2 : rn b ≤ a := rn_le_of_rep hm' (by omega)
      have h3 : rnI i = -(rn b : Int) := by
        have : i = -(b : Int) := by omega
        rw [this, rnI_neg, rnI_ofNat]
      omega

theorem rnI_le_of_rep {m i : Int} (hm : RepI m) (h : i ≤ m) : rnI i ≤ m := by
  have := rnI_ge_of_rep (repI_neg hm) (by omega : -m ≤ -i)
  rw [rnI_neg] at this
  omega

/-- Optimality of signed rounding. -/
theorem rnI_opt {m : Int} (i : Int) (hm : RepI m) : |rnI i - i| ≤ |m - i| := by
  rcases le_total m i with h | h
  · have h1 := rnI_ge_of_rep hm h
    rcases le_total (rnI i) i with h2 | h2
    · rw [abs_le]; constructor <;> (rcases abs_cases (m - i) with ⟨ha, _⟩ | ⟨ha, _⟩ <;> omega)
    · -- rounded up: compare with the representable `m` below through the Nat lemma
      obtain ⟨n, hn | hn⟩ := Int.eq_nat_or_neg i
      · rcases le_or_lt 0 m with h0 | h0
        · obtain ⟨a, rfl⟩ := Int.eq_ofNat_of_zero_le h0
          subst hn
          rw [rnI_ofNat]
          exact rn_opt n (repI_ofNat.mp hm)
        · subst hn
          rw [rnI_ofNat]
          have := rn_opt n rep_zero
          simp only [Nat.cast_zero, zero_sub, abs_neg] at this
          refine le_trans this ?_
          rw [abs_of_nonneg (Int.ofNat_nonneg n)]
          rw [abs_of_nonpos (by omega)]
          omega
      · have hm' : Rep (-m).natAbs := by
          have := repI_neg hm
          exact this
        have h3 : -m = ((-m).natAbs : Int) := by
          rw [Int.natAbs_of_nonneg]
          omega
        have := rn_opt n hm'
        rw [← h3] at this
        rw [hn, rnI_neg, rnI_ofNat]
        have e1 : -(rn n : Int) - -(n : Int) = -((rn n : Int) - n) := by ring
        have e2 : m - -(n : Int) = -(-m - (n : Int)) := by ring
        rw [e1, e2, abs_neg, abs_neg]
        exact this
  · have h1 := rnI_le_of_rep hm h
    rcases le_total (rnI i) i with h2 | h2
    · obtain ⟨n, hn | hn⟩ := Int.eq_nat_or_neg i
      · obtain ⟨a, rfl⟩ := Int.eq_ofNat_of_zero_le (by omega : 0 ≤ m)
        subst hn
        rw [rnI_ofNat]
        exact rn_opt n (repI_ofNat.mp hm)
      · rcases le_or_lt m 0 with h0 | h0
        · have hm' : Rep (-m).natAbs := repI_neg hm
          have h3 : -m = ((-m).natAbs : Int) := by
            rw [Int.natAbs_of_nonneg]
            omega
          have := rn_opt n hm'
          rw [← h3] at this
          rw [hn, rnI_neg, rnI_ofNat]
          have e1 : -(rn n : Int) - -(n : Int) = -((rn n : Int) - n) := by ring
          have e2 : m - -(n : Int) = -(-m - (n : Int)) := by ring
          rw [e1, e2, abs_neg, abs_neg]
          exact this
        · rw [hn, rnI_neg, rnI_ofNat]
          have := rn_opt n rep_zero
          simp only [Nat.cast_zero, zero_sub, abs_neg] at this
          have e1 : -(rn n : Int) - -(n : Int) = -((rn n : Int) - n) := by ring
          rw [e1, abs_neg]
          refine le_trans this ?_
          rw [abs_of_nonneg (Int.ofNat_nonneg n), abs_of_nonneg (by omega)]
          omega
    · rw [abs_le]; constructor <;> (rcases abs_cases (m - i) with ⟨ha, _⟩ | ⟨ha, _⟩ <;> omega)

theorem rnI_err (i : Int) : 2 * |rnI i - i| ≤ 2 ^ ulpExp i.natAbs := by
  obtain ⟨n, rfl | rfl⟩ := Int.eq_nat_or_neg i
  · rw [rnI_ofNat, Int.natAbs_ofNat]
    have := rn_err n
    have h2 : ((2 ^ ulpExp n : Nat) : Int) = 2 ^ ulpExp n := by push_cast; rfl
    rw [← h2]
    rcases abs_cases ((rn n : Int) - n) with ⟨ha, _⟩ | ⟨ha, _⟩ <;> omega
  · rw [rnI_neg, rnI_ofNat, Int.natAbs_neg, Int.natAbs_ofNat]
    have := rn_err n
    have h2 : ((2 ^ ulpExp n : Nat) : Int) = 2 ^ ulpExp n := by push_cast; rfl
    rw [← h2]
    rcases abs_cases (-(rn n : Int) - -(n : Int)) with ⟨ha, _⟩ | ⟨ha, _⟩ <;> omega

theorem natAbs_dvd_iff {j : Nat} {i : Int} : ((2 : Int) ^ j ∣ i) ↔ (2 ^ j ∣ i.natAbs) := by
  rw [← Int.natAbs_dvd_natAbs]
  simp [Int.natAbs_pow]

theorem rnI_dvd_of_dvd {j : Nat} {i : Int} (h : (2 : Int) ^ j ∣ i) : (2 : Int) ^ j ∣ rnI i := by
  rw [natAbs_dvd_iff] at h ⊢
  rw [rnI_natAbs]
  exact rn_dvd_of_dvd h

theorem RepI.dvd {i : Int} (h : RepI i) : (2 : Int) ^ ulpExp i.natAbs ∣ i :=
  natAbs_dvd_iff.mpr h

theorem repI_of_dvd_le {k : Nat} {i : Int} (hd : (2 : Int) ^ k ∣ i)
    (hle : |i| ≤ 2 ^ (53 + k)) : RepI i := by
  unfold RepI
  apply rep_of_dvd_le (natAbs_dvd_iff.mp hd)
  have : ((i.natAbs : Nat) : Int) ≤ ((2 ^ (53 + k) : Nat) : Int) := by
    rw [Int.natCast_natAbs]
    push_cast
    exact hle
  exact_mod_cast this

/-- A representable number is a multiple of the ulp of any number not above it. -/
theorem RepI.dvd_of_natAbs_le {a b : Int} (ha : RepI a) (h : b.natAbs ≤ a.natAbs) :
    (2 : Int) ^ ulpExp b.natAbs ∣ a :=
  dvd_trans (pow_dvd_pow 2 (ulpExp_mono h)) ha.dvd

end Xprec

/-! ## Exact subtraction and the error of an addition -/

namespace Xprec

theorem abs_lt_pow (i : Int) : |i| < 2 ^ (53 + ulpExp i.natAbs) := by
  have h := ulpExp_lt i.natAbs
  have : ((i.natAbs : Nat) : Int) < ((2 ^ (53 + ulpExp i.natAbs) : Nat) : Int) := by
    exact_mod_cast h
  rw [Int.natCast_natAbs] at this
  push_cast at this
  exact this

theorem ulpExp_le_of_abs_lt {i : Int} {k : Nat} (h : |i| < 2 ^ (53 + k)) :
    ulpExp i.natAbs ≤ k := by
  apply ulpExp_le_of_lt
  have : ((i.natAbs : Nat) : Int) < ((2 ^ (53 + k) : Nat) : Int) := by
    rw [Int.natCast_natAbs]
    push_cast
    exact h
  exact_mod_cast this

theorem le_ulpExp_of_le_abs {i : Int} {k : Nat} (h : 2 ^ (52 + k) ≤ |i|) :
    k ≤ ulpExp i.natAbs := by
  apply le_ulpExp_of_le
  have : ((2 ^ (52 + k) : Nat) : Int) ≤ ((i.natAbs : Nat) : Int) := by
    rw [Int.natCast_natAbs]
    push_cast
    exact h
  exact_mod_cast this

theorem pow_le_abs_of_ulpExp_pos {i : Int} (h : 0 < ulpExp i.natAbs) :
    2 ^ (52 + ulpExp i.natAbs) ≤ |i| := by
  have h1 := pow_le_of_ulpExp_pos h
  have : ((2 ^ (52 + ulpExp i.natAbs) : Nat) : Int) ≤ ((i.natAbs : Nat) : Int) := by
    exact_mod_cast h1
  rw [Int.natCast_natAbs] at this
  push_cast at this
  exact this

theorem natAbs_le_iff {a b : Int} : b.natAbs ≤ a.natAbs ↔ |b| ≤ |a| := by
  rw [← Int.natCast_natAbs, ← Int.natCast_natAbs]
  exact Int.ofNat_le.symm

/-- The error of a rounded sum is representable as soon as `a` is a multiple of the ulp
of `b`. -/
theorem add_err_rep_of_dvd {a b : Int} (hb : RepI b)
    (hd : (2 : Int) ^ ulpExp b.natAbs ∣ a) (ha : RepI a) : RepI (a + b - rnI (a + b)) := by
  have h1 : (2 : Int) ^ ulpExp b.natAbs ∣ a + b := dvd_add hd hb.dvd
  have h2 := rnI_dvd_of_dvd h1
  have h3 : (2 : Int) ^ ulpExp b.natAbs ∣ a + b - rnI (a + b) := dvd_sub h1 h2
  have h4 := rnI_opt (a + b) ha
  have h5 := abs_lt_pow b
  apply repI_of_dvd_le h3
  have e1 : |a + b - rnI (a + b)| = |rnI (a + b) - (a + b)| := abs_sub_comm _ _
  have e2 : |a - (a + b)| = |b| := by
    have : a - (a + b) = -b := by ring
    rw [this, abs_neg]
  rw [e1]
  rw [e2] at h4
  omega

/-- The error of a rounded sum of two representable numbers is representable. -/
theorem add_err_rep {a b : Int} (ha : RepI a) (hb : RepI b) : RepI (a + b - rnI (a + b)) := by
  rcases le_total b.natAbs a.natAbs with h | h
  · exact add_err_rep_of_dvd hb (ha.dvd_of_natAbs_le h) ha
  · have := add_err_rep_of_dvd ha (hb.dvd_of_natAbs_le h) hb
    rwa [add_comm b a] at this

/-- First step of `two_sum_quick`: `s - a` is representable when `a` is a multiple of the
ulp of `b` (in particular when `|a| ≥ |b|`). -/
theorem f2s_sub_rep {a b : Int} (ha : RepI a) (hb : RepI b)
    (hd : (2 : Int) ^ ulpExp b.natAbs ∣ a) : RepI (rnI (a + b) - a) := by
  have hab : (2 : Int) ^ ulpExp b.natAbs ∣ a + b := dvd_add hd hb.dvd
  have hs := rnI_dvd_of_dvd hab
  have hsa : (2 : Int) ^ ulpExp b.natAbs ∣ rnI (a + b) - a := dvd_sub hs hd
  have hopt := rnI_opt (a + b) ha
  have e2 : |a - (a + b)| = |b| := by
    have : a - (a + b) = -b := by ring
    rw [this, abs_neg]
  rw [e2] at hopt
  have hbl := abs_lt_pow b
  have herr := rnI_err (a + b)
  have htri : |rnI (a + b) - a| ≤ |b| + |rnI (a + b) - (a + b)| := by
    have : rnI (a + b) - a = b + (rnI (a + b) - (a + b)) := by ring
    rw [this]
    exact abs_add _ _
  rcases Nat.lt_or_ge (ulpExp (a + b).natAbs) (ulpExp b.natAbs + 2) with hc | hc
  · -- the sum is at most one binade above `b`
    apply repI_of_dvd_le hsa
    have hp : (2 : Int) ^ ulpExp (a + b).natAbs ≤ 2 ^ (ulpExp b.natAbs + 1) :=
      pow_le_pow_right₀ (by norm_num) (by omega)
    have hp2 : (2 : Int) ^ (ulpExp b.natAbs + 1) = 2 * 2 ^ ulpExp b.natAbs := by ring
    have hm : |b| + 2 ^ ulpExp b.natAbs ≤ 2 ^ (53 + ulpExp b.natAbs) := by
      have hbd : (2 : Int) ^ ulpExp b.natAbs ∣ |b| := (dvd_abs _ _).mpr hb.dvd
      have hpd : (2 : Int) ^ ulpExp b.natAbs ∣ 2 ^ (53 + ulpExp b.natAbs) :=
        pow_dvd_pow 2 (by omega)
      obtain ⟨x, hx⟩ := hbd
      obtain ⟨y, hy⟩ := hpd
      have hpos : (0 : Int) < 2 ^ ulpExp b.natAbs := by positivity
      rw [hx, hy] at hbl
      have hxy : x < y := lt_of_mul_lt_mul_left hbl (le_of_lt hpos)
      rw [hx, hy]
      nlinarith
    omega
  · -- the sum is far above `b`, so `a` carries one more trailing zero
    have hpos : 0 < ulpExp (a + b).natAbs := by omega
    have h1 := pow_le_abs_of_ulpExp_pos hpos
    have h2 : (2 : Int) ^ (52 + (ulpExp b.natAbs + 2)) ≤ 2 ^ (52 + ulpExp (a + b).natAbs) :=
      pow_le_pow_right₀ (by norm_num) (by omega)
    have e3 : (2 : Int) ^ (52 + (ulpExp b.natAbs + 2)) = 2 * 2 ^ (53 + ulpExp b.natAbs) := by
      ring
    have e4 : (2 : Int) ^ (53 + (ulpExp b.natAbs + 1)) = 2 * 2 ^ (53 + ulpExp b.natAbs) := by
      ring
    have e5 : (2 : Int) ^ (52 + (ulpExp b.natAbs + 1)) = 2 ^ (53 + ulpExp b.natAbs) := by
      ring
    have htri2 : |a + b| ≤ |a| + |b| := abs_add _ _
    have ha1 : ulpExp b.natAbs + 1 ≤ ulpExp a.natAbs := by
      apply le_ulpExp_of_le_abs
      omega
    have hda : (2 : Int) ^ (ulpExp b.natAbs + 1) ∣ a :=
      dvd_trans (pow_dvd_pow 2 ha1) ha.dvd
    have hds : (2 : Int) ^ (ulpExp b.natAbs + 1) ∣ rnI (a + b) :=
      dvd_trans (pow_dvd_pow 2 (by
        have := ulpExp_le_rn (a + b).natAbs
        rw [← rnI_natAbs] at this
        omega)) (rnI_rep (a + b)).dvd
    apply repI_of_dvd_le (dvd_sub hds hda)
    omega

/-- Sterbenz: the difference of two nearby representable numbers is representable. -/
theorem sterbenz {x y : Int} (hx : RepI x) (hy : RepI y) (h0 : 0 ≤ y) (h1 : y ≤ x)
    (h2 : x ≤ 2 * y) : RepI (x - y) := by
  have hd : (2 : Int) ^ ulpExp y.natAbs ∣ x - y :=
    dvd_sub (hx.dvd_of_natAbs_le (natAbs_le_iff.mpr (by
      rw [abs_of_nonneg h0, abs_of_nonneg (by omega)]
      exact h1))) hy.dvd
  apply repI_of_dvd_le hd
  have := abs_lt_pow y
  rw [abs_of_nonneg h0] at this
  rw [abs_of_nonneg (by omega)]
  omega

theorem sterbenz_abs {x y : Int} (hx : RepI x) (hy : RepI y) (h0 : 0 ≤ y) (h0x : 0 ≤ x)
    (h1 : y ≤ 2 * x) (h2 : x ≤ 2 * y) : RepI (x - y) := by
  rcases le_total y x with h | h
  · exact sterbenz hx hy h0 h h2
  · have := repI_neg (sterbenz hy hx h0x h h1)
    rwa [neg_sub] at this

end Xprec

/-! ## The operations on finite data -/

namespace Xprec

theorem ovf_pos : 0 < ovf := Nat.two_pow_pos 2098

theorem scale_pos : 0 < scale := Nat.two_pow_pos 1074

theorem toInt_mk {s : Bool} {n : Nat} (h : n < ovf) :
    mk s n = Dbl.fin s n := by
  unfold mk
  rw [if_neg (by omega)]

theorem Dbl.toInt_neg (x : Dbl) : (Dbl.neg x).toInt = -x.toInt := by
  cases x with
  | nan => rfl
  | inf s => rfl
  | fin s n => cases s <;> simp [Dbl.neg, Dbl.toInt]

theorem Dbl.isFinite_neg (x : Dbl) : (Dbl.neg x).isFinite = x.isFinite := by
  cases x <;> rfl

theorem Dbl.isDouble_neg {x : Dbl} (h : IsDouble x) : IsDouble (Dbl.neg x) := by
  cases x with
  | nan => trivial
  | inf s => trivial
  | fin s n => exact h

theorem Dbl.neg_neg (x : Dbl) : Dbl.neg (Dbl.neg x) = x := by
  cases x <;> simp [Dbl.neg]

theorem Dbl.natAbs_toInt (s : Bool) (n : Nat) : (Dbl.fin s n).toInt.natAbs = n := by
  cases s <;> simp [Dbl.toInt]

/-- A finite well-formed double is a representable signed magnitude below the overflow
threshold. -/
theorem repI_of_isDouble {x : Dbl} (h : IsDouble x) (hf : x.isFinite = true) :
    RepI x.toInt ∧ x.toInt.natAbs < ovf := by
  cases x with
  | nan => simp [Dbl.isFinite] at hf
  | inf s => simp [Dbl.isFinite] at hf
  | fin s n =>
    unfold RepI
    rw [Dbl.natAbs_toInt]
    exact h

theorem Dbl.add_fin (s t : Bool) (n m : Nat) :
    Dbl.add (Dbl.fin s n) (Dbl.fin t m) =
      if (Dbl.fin s n).toInt + (Dbl.fin t m).toInt = 0 then Dbl.fin (s && t) 0
      else mk (decide ((Dbl.fin s n).toInt + (Dbl.fin t m).toInt < 0))
        (rn ((Dbl.fin s n).toInt + (Dbl.fin t m).toInt).natAbs) := rfl

theorem toInt_fin_decide {i : Int} :
    (Dbl.fin (decide (i < 0)) (rn i.natAbs)).toInt = rnI i := by
  unfold Dbl.toInt rnI
  rcases lt_trichotomy i 0 with h | h | h
  · simp [h, Int.sign_eq_neg_one_of_neg h]
  · subst h; simp [rn_zero]
  · have : ¬ i < 0 := by omega
    simp [this, Int.sign_eq_one_of_pos h]

/-- A finite sum: both operands are finite, the result is the rounded exact sum. -/
theorem Dbl.add_of_finite {x y : Dbl} (h : (Dbl.add x y).isFinite = true) :
    x.isFinite = true ∧ y.isFinite = true ∧
      (Dbl.add x y).toInt = rnI (x.toInt + y.toInt) ∧
      (rnI (x.toInt + y.toInt)).natAbs < ovf := by
  cases x with
  | nan => simp [Dbl.add, Dbl.isFinite] at h
  | inf s =>
    cases y with
    | nan => simp [Dbl.add, Dbl.isFinite] at h
    | inf t =>
      by_cases hst : s = t <;> simp [Dbl.add, hst, Dbl.isFinite] at h
    | fin t m => simp [Dbl.add, Dbl.isFinite] at h
  | fin s n =>
    cases y with
    | nan => simp [Dbl.add, Dbl.isFinite] at h
    | inf t => simp [Dbl.add, Dbl.isFinite] at h
    | fin t m =>
      refine ⟨rfl, rfl, ?_⟩
      rw [Dbl.add_fin] at h ⊢
      split_ifs at h ⊢ with h0
      · rw [h0, rnI_zero]
        exact ⟨by simp [Dbl.toInt], ovf_pos⟩
      · rw [rnI_natAbs]
        by_cases hlt : rn ((Dbl.fin s n).toInt + (Dbl.fin t m).toInt).natAbs < ovf
        · rw [toInt_mk hlt]
          exact ⟨toInt_fin_decide, hlt⟩
        · unfold mk at h
          rw [if_pos (by omega)] at h
          simp [Dbl.isFinite] at h

/-- A sum of finite operands whose rounded value does not overflow is finite. -/
theorem Dbl.add_finite {x y : Dbl} (hx : x.isFinite = true) (hy : y.isFinite = true)
    (h : (rnI (x.toInt + y.toInt)).natAbs < ovf) :
    (Dbl.add x y).isFinite = true ∧ (Dbl.add x y).toInt = rnI (x.toInt + y.toInt) := by
  cases x with
  | nan => simp [Dbl.isFinite] at hx
  | inf s => simp [Dbl.isFinite] at hx
  | fin s n =>
    cases y with
    | nan => simp [Dbl.isFinite] at hy
    | inf t => simp [Dbl.isFinite] at hy
    | fin t m =>
      rw [Dbl.add_fin]
      split_ifs with h0
      · rw [h0, rnI_zero]
        exact ⟨rfl, by simp [Dbl.toInt]⟩
      · rw [rnI_natAbs] at h
        rw [toInt_mk h]
        exact ⟨rfl, toInt_fin_decide⟩

/-- A sum that is representable and below the overflow threshold is computed exactly. -/
theorem Dbl.add_exact {x y : Dbl} (hx : x.isFinite = true) (hy : y.isFinite = true)
    (hr : RepI (x.toInt + y.toInt)) (hb : (x.toInt + y.toInt).natAbs < ovf) :
    (Dbl.add x y).isFinite = true ∧ (Dbl.add x y).toInt = x.toInt + y.toInt := by
  have := Dbl.add_finite hx hy (by rw [rnI_self hr]; exact hb)
  rw [rnI_self hr] at this
  exact this

theorem Dbl.sub_finite {x y : Dbl} (hx : x.isFinite = true) (hy : y.isFinite = true)
    (h : (rnI (x.toInt - y.toInt)).natAbs < ovf) :
    (Dbl.sub x y).isFinite = true ∧ (Dbl.sub x y).toInt = rnI (x.toInt - y.toInt) := by
  unfold Dbl.sub
  have := Dbl.add_finite (y := Dbl.neg y) hx (by rw [Dbl.isFinite_neg]; exact hy)
    (by rw [Dbl.toInt_neg, ← sub_eq_add_neg]; exact h)
  rwa [Dbl.toInt_neg, ← sub_eq_add_neg] at this

theorem Dbl.sub_of_finite {x y : Dbl} (h : (Dbl.sub x y).isFinite = true) :
    x.isFinite = true ∧ y.isFinite = true ∧
      (Dbl.sub x y).toInt = rnI (x.toInt - y.toInt) ∧
      (rnI (x.toInt - y.toInt)).natAbs < ovf := by
  unfold Dbl.sub at h ⊢
  have := Dbl.add_of_finite h
  rwa [Dbl.toInt_neg, ← sub_eq_add_neg, Dbl.isFinite_neg] at this

theorem Dbl.sub_exact {x y : Dbl} (hx : x.isFinite = true) (hy : y.isFinite = true)
    (hr : RepI (x.toInt - y.toInt)) (hb : (x.toInt - y.toInt).natAbs < ovf) :
    (Dbl.sub x y).isFinite = true ∧ (Dbl.sub x y).toInt = x.toInt - y.toInt := by
  have := Dbl.sub_finite hx hy (by rw [rnI_self hr]; exact hb)
  rw [rnI_self hr] at this
  exact this

/-- Every result of an addition is a well-formed double. -/
theorem Dbl.isDouble_add (x y : Dbl) : IsDouble (Dbl.add x y) := by
  cases x with
  | nan => cases y <;> trivial
  | inf s =>
    cases y with
    | nan => trivial
    | inf t =>
      by_cases hst : s = t <;> simp [Dbl.add, hst, IsDouble]
    | fin t m => trivial
  | fin s n =>
    cases y with
    | nan => trivial
    | inf t => trivial
    | fin t m =>
      rw [Dbl.add_fin]
      split_ifs with h0
      · exact ⟨rep_zero, ovf_pos⟩
      · unfold mk
        split_ifs with h1
        · trivial
        · exact ⟨rn_rep _, by omega⟩

theorem Dbl.isDouble_sub (x y : Dbl) : IsDouble (Dbl.sub x y) := Dbl.isDouble_add _ _

theorem toRat_eq_of_toInt {a b c d : Dbl} (h : a.toInt + b.toInt = c.toInt + d.toInt) :
    a.toRat + b.toRat = c.toRat + d.toRat := by
  unfold Dbl.toRat
  rw [← add_div, ← add_div]
  congr 1
  exact_mod_cast h

theorem toRat_abs_le {a b : Dbl} : |b.toRat| ≤ |a.toRat| ↔ |b.toInt| ≤ |a.toInt| := by
  unfold Dbl.toRat
  rw [abs_div, abs_div]
  have hp : (0 : ℚ) < |(scale : ℚ)| := abs_pos.mpr (by exact_mod_cast (ne_of_gt scale_pos))
  rw [div_le_div_iff_of_pos_right hp]
  constructor
  · intro h
    exact_mod_cast h
  · intro h
    exact_mod_cast h

end Xprec

/-! ## `two_sum_quick` -/

namespace Xprec

theorem rnI_err_nat (i : Int) : 2 * (rnI i - i).natAbs ≤ 2 ^ ulpExp i.natAbs := by
  have h := rnI_err i
  rw [← Int.natCast_natAbs] at h
  exact_mod_cast h

theorem rnI_opt_nat {m : Int} (i : Int) (hm : RepI m) :
    (rnI i - i).natAbs ≤ (m - i).natAbs :=
  natAbs_le_iff.mpr (rnI_opt i hm)

theorem ovf_eq : ovf = 2 ^ 53 * 2 ^ 2045 := by
  unfold ovf
  rw [← Nat.pow_add]

theorem rep_ovf : Rep ovf := by
  apply rep_of_dvd_le (k := 2045)
  · rw [ovf_eq]
    exact Dvd.intro_left _ rfl
  · rw [ovf_eq, Nat.pow_add]

/-- The largest finite magnitude is one top-binade ulp below the overflow threshold. -/
theorem rep_add_le_ovf {n : Nat} (hn : Rep n) (h : n < ovf) : n + 2 ^ 2045 ≤ ovf := by
  rcases Nat.lt_or_ge n (2 ^ (52 + 2045)) with h1 | h1
  · have e1 : 2 ^ (52 + 2045) = 2 ^ 52 * 2 ^ 2045 := Nat.pow_add 2 52 2045
    rw [ovf_eq]
    have hp : 0 < 2 ^ 2045 := Nat.two_pow_pos 2045
    omega
  · have hd : 2 ^ 2045 ∣ n := hn.dvd_of_pow_le h1
    have hd2 : 2 ^ 2045 ∣ ovf := by
      rw [ovf_eq]
      exact Dvd.intro_left _ rfl
    exact add_le_of_dvd_of_lt hd hd2 h

/-- If the rounded value is below the overflow threshold, so is the exact value. -/
theorem natAbs_lt_ovf_of_rnI {i : Int} (h : (rnI i).natAbs < ovf) : i.natAbs < ovf := by
  by_contra hc
  have h1 := rn_ge_of_rep rep_ovf (Nat.le_of_not_lt hc)
  rw [rnI_natAbs] at h
  omega

/-- Below the overflow threshold a rounding error is at most half a top-binade ulp. -/
theorem rnI_err_ovf {i : Int} (h : i.natAbs < ovf) : 2 * (rnI i - i).natAbs ≤ 2 ^ 2045 := by
  have h1 := rnI_err_nat i
  have h2 : ulpExp i.natAbs ≤ 2045 := ulpExp_le_of_lt (by
    rw [Nat.pow_add, ← ovf_eq]
    exact h)
  have h3 : 2 ^ ulpExp i.natAbs ≤ 2 ^ 2045 := Nat.pow_le_pow_right (by norm_num) h2
  omega

/-- Correctness of `two_sum_quick` in terms of signed magnitudes: if `a` is a multiple of
the ulp of `b` and the sum does not overflow, `hi` is the rounded sum and `lo` the exact
rounding error. -/
theorem two_sum_quick_spec {a b : Dbl} (ha : IsDouble a) (hb : IsDouble b)
    (hfa : a.isFinite = true) (hfb : b.isFinite = true)
    (hd : (2 : Int) ^ ulpExp b.toInt.natAbs ∣ a.toInt)
    (hs : (Dbl.add a b).isFinite = true) :
    (two_sum_quick a b).hi.toInt = rnI (a.toInt + b.toInt) ∧
    (two_sum_quick a b).lo.isFinite = true ∧
    (two_sum_quick a b).lo.toInt = a.toInt + b.toInt - rnI (a.toInt + b.toInt) := by
  obtain ⟨hA, hAb⟩ := repI_of_isDouble ha hfa
  obtain ⟨hB, hBb⟩ := repI_of_isDouble hb hfb
  obtain ⟨_, _, hS, hSb⟩ := Dbl.add_of_finite hs
  have hab := natAbs_lt_ovf_of_rnI hSb
  have herr := rnI_err_ovf hab
  have hBle := rep_add_le_ovf hB hBb
  have hp : 0 < 2 ^ 2045 := Nat.two_pow_pos 2045
  have h1 : RepI (rnI (a.toInt + b.toInt) - a.toInt) := f2s_sub_rep hA hB hd
  have h2 : RepI (a.toInt + b.toInt - rnI (a.toInt + b.toInt)) :=
    add_err_rep_of_dvd hB hd hA
  have hv := Dbl.sub_exact hs hfa (by rw [hS]; exact h1) (by rw [hS]; omega)
  rw [hS] at hv
  have hl := Dbl.sub_exact hfb hv.1
    (by rw [hv.2]
        have e : b.toInt - (rnI (a.toInt + b.toInt) - a.toInt)
            = a.toInt + b.toInt - rnI (a.toInt + b.toInt) := by ring
        rw [e]; exact h2)
    (by rw [hv.2]; omega)
  refine ⟨hS, hl.1, ?_⟩
  show (Dbl.sub b (Dbl.sub (Dbl.add a b) a)).toInt = _
  rw [hl.2, hv.2]
  ring

theorem nearest_of_rnI {x : Dbl} {i : Int} (h : x.toInt = rnI i) :
    NearestTo ((i : ℚ) / (scale : ℚ)) x := by
  intro y hy hfy
  obtain ⟨hY, _⟩ := repI_of_isDouble hy hfy
  have := rnI_opt i hY
  unfold Dbl.toRat
  rw [h, ← sub_div, ← sub_div, abs_div, abs_div]
  have hp : (0 : ℚ) < |(scale : ℚ)| := abs_pos.mpr (by exact_mod_cast (ne_of_gt scale_pos))
  rw [div_le_div_iff_of_pos_right hp]
  exact_mod_cast this

theorem Dbl.add_nearest {a b : Dbl} (hs : (Dbl.add a b).isFinite = true) :
    NearestTo (a.toRat + b.toRat) (Dbl.add a b) := by
  obtain ⟨_, _, hS, _⟩ := Dbl.add_of_finite hs
  have := nearest_of_rnI hS
  unfold Dbl.toRat
  rw [← add_div]
  push_cast at this
  exact this

end Xprec

/-! ## `two_sum` on signed magnitudes -/

namespace Xprec

theorem rep_double {n : Nat} (h : Rep n) : Rep (2 * n) := by
  apply rep_of_dvd_le (k := ulpExp n + 1)
  · rw [pow_succ, mul_comm]
    exact Nat.mul_dvd_mul_left 2 h
  · have := ulpExp_lt n
    have e : 2 ^ (53 + (ulpExp n + 1)) = 2 * 2 ^ (53 + ulpExp n) := by ring
    omega

theorem repI_double {i : Int} (h : RepI i) : RepI (2 * i) := by
  unfold RepI at *
  rw [Int.natAbs_mul]
  exact rep_double h

/-- A representable magnitude from `2^53` on is twice a representable magnitude. -/
theorem rep_half {n : Nat} (h : Rep n) (hn : 2 ^ 53 ≤ n) : ∃ m, n = 2 * m ∧ Rep m := by
  have hk : 1 ≤ ulpExp n := le_ulpExp_of_le (k := 1) hn
  have hd : 2 ^ ulpExp n ∣ n := h
  have h1 := ulpExp_lt n
  obtain ⟨j, hj⟩ : ∃ j, ulpExp n = j + 1 := ⟨ulpExp n - 1, by omega⟩
  rw [hj] at hd h1
  obtain ⟨c, hc⟩ := hd
  have e : 2 ^ (j + 1) = 2 * 2 ^ j := by ring
  have e2 : 2 ^ (53 + (j + 1)) = 2 * 2 ^ (53 + j) := by ring
  have hm : n = 2 * (2 ^ j * c) := by rw [hc, e]; ring
  refine ⟨2 ^ j * c, hm, ?_⟩
  apply rep_of_dvd_le (k := j) (Dvd.intro _ rfl)
  omega

theorem repI_of_abs_lt {i : Int} (h : i.natAbs < 2 ^ 53) : RepI i := rep_of_lt h

/-- The difficult case of `two_sum`, for `0 < b`, `|a| < b`: when `s - a` is not
representable, `s - v` and `b - v` are. -/
theorem two_sum_caseB {a b : Int} (ha : RepI a) (hb : RepI b) (hb0 : 0 < b)
    (hab : a.natAbs < b.natAbs) (hn : ¬ RepI (rnI (a + b) - a)) :
    RepI (rnI (a + b) - rnI (rnI (a + b) - a)) ∧
    RepI (b - rnI (rnI (a + b) - a)) ∧
    (rnI (a + b) - rnI (rnI (a + b) - a)).natAbs ≤ (rnI (a + b)).natAbs ∧
    (b - rnI (rnI (a + b) - a)).natAbs ≤ max b.natAbs (rnI (rnI (a + b) - a)).natAbs := by
  have hS := rnI_rep (a + b)
  have hV := rnI_rep (rnI (a + b) - a)
  have h2b : RepI (2 * b) := repI_double hb
  have hs2b : rnI (a + b) ≤ 2 * b := rnI_le_of_rep h2b (by omega)
  have hbig : 2 ^ 53 ≤ (rnI (a + b) - a).natAbs := by
    by_contra hc
    exact hn (repI_of_abs_lt (by omega))
  rcases le_or_lt 0 a with ha0 | ha0
  · -- `0 ≤ a < b`
    have hsb : b ≤ rnI (a + b) := rnI_ge_of_rep hb (by omega)
    have h2a : 2 * a ≤ rnI (a + b) := rnI_ge_of_rep (repI_double ha) (by omega)
    have hsbig : 2 ^ 53 ≤ (rnI (a + b)).natAbs := by omega
    obtain ⟨m, hm, hmr⟩ := rep_half hS hsbig
    have hmi : RepI (m : Int) := repI_ofNat.mpr hmr
    have hsm : rnI (a + b) = 2 * (m : Int) := by omega
    have hvm : (m : Int) ≤ rnI (rnI (a + b) - a) := rnI_ge_of_rep hmi (by omega)
    have hvs : rnI (rnI (a + b) - a) ≤ rnI (a + b) := rnI_le_of_rep hS (by omega)
    clear hbig hab hsbig hm hn
    refine ⟨sterbenz hS hV (by omega) hvs (by omega),
      sterbenz_abs hb hV (by omega) (by omega) (by omega) (by omega), by omega, by omega⟩
  · -- `-b < a < 0`
    have hs0 : 0 ≤ rnI (a + b) := rnI_nonneg (by omega)
    have hsb : rnI (a + b) ≤ b := rnI_le_of_rep hb (by omega)
    have hbbig : 2 ^ 53 ≤ b.natAbs := by
      by_contra hc
      have : RepI (a + b) := repI_of_abs_lt (by omega)
      rw [rnI_self this] at hn
      apply hn
      have e : a + b - a = b := by ring
      rw [e]
      exact hb
    have h2a : -(2 * a) < b := by
      by_contra hc
      have h1 : RepI (b - (-a)) :=
        sterbenz hb (repI_neg ha) (by omega) (by omega) (by omega)
      have e1 : b - (-a) = a + b := by ring
      rw [e1] at h1
      rw [rnI_self h1] at hn
      apply hn
      have e : a + b - a = b := by ring
      rw [e]
      exact hb
    obtain ⟨m, hm, hmr⟩ := rep_half hb hbbig
    have hmi : RepI (m : Int) := repI_ofNat.mpr hmr
    have hbm : b = 2 * (m : Int) := by omega
    have hsm : (m : Int) ≤ rnI (a + b) := rnI_ge_of_rep hmi (by omega)
    have hvs : rnI (a + b) ≤ rnI (rnI (a + b) - a) := rnI_ge_of_rep hS (by omega)
    have hv2s : rnI (rnI (a + b) - a) ≤ 2 * rnI (a + b) :=
      rnI_le_of_rep (repI_double hS) (by omega)
    have h1 := repI_neg (sterbenz hV hS hs0 hvs hv2s)
    rw [neg_sub] at h1
    clear hbig hab hbbig hm hn
    refine ⟨h1, sterbenz_abs hb hV (by omega) (by omega) (by omega) (by omega),
      by omega, by omega⟩

/-- Correctness of the `two_sum` sequence on signed magnitudes, with the sizes of the
intermediate results. -/
theorem two_sum_int {a b : Int} (ha : RepI a) (hb : RepI b) (s v w x y : Int)
    (hs : s = rnI (a + b)) (hv : v = rnI (s - a)) (hw : w = rnI (s - v))
    (hx : x = rnI (a - w)) (hy : y = rnI (b - v)) :
    rnI (x + y) = a + b - s ∧ RepI (a + b - s) ∧ w.natAbs ≤ max a.natAbs s.natAbs ∧
      x.natAbs ≤ a.natAbs ∧ y.natAbs ≤ max b.natAbs v.natAbs ∧
      (a + b - s).natAbs ≤ b.natAbs := by
  have hS : RepI s := hs ▸ rnI_rep _
  have hE : RepI (a + b - s) := hs ▸ add_err_rep ha hb
  have hEb : (a + b - s).natAbs ≤ b.natAbs := by
    have := rnI_opt_nat (a + b) ha
    rw [← hs] at this
    omega
  by_cases hc : RepI (s - a)
  · -- `s - a` is exact
    have hv' : v = s - a := by rw [hv, rnI_self hc]
    have hw' : w = a := by
      rw [hw, hv']
      have e : s - (s - a) = a := by ring
      rw [e, rnI_self ha]
    have hx' : x = 0 := by
      rw [hx, hw', sub_self, rnI_zero]
    have hy' : y = a + b - s := by
      rw [hy, hv']
      have e : b - (s - a) = a + b - s := by ring
      rw [e, rnI_self hE]
    refine ⟨by rw [hx', hy', zero_add, rnI_self hE], hE, ?_, ?_, ?_, hEb⟩
    · rw [hw']
      exact le_max_left _ _
    · rw [hx']
      exact Nat.zero_le _
    · rw [hy']
      exact le_trans hEb (le_max_left _ _)
  · -- `s - a` is rounded: then `|a| < |b|`
    have hab : a.natAbs < b.natAbs := by
      by_contra hle
      apply hc
      rw [hs]
      exact f2s_sub_rep ha hb (ha.dvd_of_natAbs_le (by omega))
    have key : RepI (s - v) ∧ RepI (b - v) ∧ (s - v).natAbs ≤ s.natAbs ∧
        (b - v).natAbs ≤ max b.natAbs v.natAbs := by
      rcases lt_trichotomy 0 b with hb0 | hb0 | hb0
      · have := two_sum_caseB ha hb hb0 hab (by rw [← hs]; exact hc)
        rw [← hs, ← hv] at this
        exact this
      · omega
      · have hc' : ¬ RepI (rnI (-a + -b) - -a) := by
          have e1 : -a + -b = -(a + b) := by ring
          rw [e1, rnI_neg, ← hs]
          have e2 : -s - -a = -(s - a) := by ring
          rw [e2]
          intro h
          apply hc
          have := repI_neg h
          rwa [neg_neg] at this
        have := two_sum_caseB (repI_neg ha) (repI_neg hb) (by omega) (by omega) hc'
        have e1 : -a + -b = -(a + b) := by ring
        have e2 : -s - -a = -(s - a) := by ring
        have e3 : -s - -v = -(s - v) := by ring
        have e4 : -b - -v = -(b - v) := by ring
        rw [e1, rnI_neg, ← hs, e2, rnI_neg, ← hv, e3, e4] at this
        obtain ⟨t1, t2, t3, t4⟩ := this
        rw [Int.natAbs_neg, Int.natAbs_neg] at t3 t4
        rw [Int.natAbs_neg] at t4
        refine ⟨?_, ?_, t3, t4⟩
        · have := repI_neg t1
          rwa [neg_neg] at this
        · have := repI_neg t2
          rwa [neg_neg] at this
    obtain ⟨k1, k2, k3, k4⟩ := key
    have hw' : w = s - v := by rw [hw, rnI_self k1]
    have hD : RepI (a - (s - v)) := by
      have h1 := add_err_rep hS (repI_neg ha)
      have e : s + -a = s - a := by ring
      rw [e, ← hv] at h1
      have := repI_neg h1
      have e2 : -(s - a - v) = a - (s - v) := by ring
      rwa [e2] at this
    have hDb : (a - (s - v)).natAbs ≤ a.natAbs := by
      have := rnI_opt_nat (s - a) hS
      rw [← hv] at this
      clear k3 k4 hab hEb
      omega
    have hx' : x = a - (s - v) := by rw [hx, hw', rnI_self hD]
    have hy' : y = b - v := by rw [hy, rnI_self k2]
    refine ⟨?_, hE, ?_, ?_, ?_, hEb⟩
    · have e : x + y = a + b - s := by rw [hx', hy']; ring
      rw [e, rnI_self hE]
    · rw [hw']
      exact le_trans k3 (le_max_right _ _)
    · rw [hx']
      exact hDb
    · rw [hy']
      exact k4

end Xprec

/-! ## `two_sum` on doubles -/

namespace Xprec

/-- Correctness of `two_sum` in terms of signed magnitudes: if neither the sum `s = a + b`
nor the intermediate `v = s - a` overflows, `hi` is the rounded sum and `lo` the exact
rounding error. -/
theorem two_sum_spec {a b : Dbl} (ha : IsDouble a) (hb : IsDouble b)
    (hfa : a.isFinite = true) (hfb : b.isFinite = true)
    (hs : (Dbl.add a b).isFinite = true)
    (hv : (Dbl.sub (Dbl.add a b) a).isFinite = true) :
    (two_sum a b).hi.toInt = rnI (a.toInt + b.toInt) ∧
    (two_sum a b).lo.isFinite = true ∧
    (two_sum a b).lo.toInt = a.toInt + b.toInt - rnI (a.toInt + b.toInt) := by
  obtain ⟨hA, hAb⟩ := repI_of_isDouble ha hfa
  obtain ⟨hB, hBb⟩ := repI_of_isDouble hb hfb
  obtain ⟨_, _, hS, hSb⟩ := Dbl.add_of_finite hs
  obtain ⟨_, _, hV, hVb⟩ := Dbl.sub_of_finite hv
  rw [hS] at hV hVb
  obtain ⟨i1, _, i2, i3, i4, i5⟩ := two_sum_int hA hB _ _ _ _ _ rfl rfl rfl rfl rfl
  have hw := Dbl.sub_finite hs hv (by rw [hS, hV]; omega)
  rw [hS, hV] at hw
  have hx := Dbl.sub_finite hfa hw.1 (by rw [hw.2]; omega)
  rw [hw.2] at hx
  have hy := Dbl.sub_finite hfb hv (by rw [hV]; omega)
  rw [hV] at hy
  have hl := Dbl.add_finite hx.1 hy.1 (by rw [hx.2, hy.2, i1]; omega)
  rw [hx.2, hy.2, i1] at hl
  exact ⟨hS, hl.1, hl.2⟩

end Xprec

/-! ## `two_prod` -/

namespace Xprec

/-- Rounding a quotient whose denominator divides the numerator. -/
theorem roundRat_mul_left {d : Nat} (n : Nat) (hd : 0 < d) : roundRat (d * n) d = rn n := by
  unfold rn roundRat
  simp only [Nat.mul_div_cancel_left n hd, Nat.div_one, one_mul]
  rw [Nat.mul_mod_mul_left, Nat.mul_div_mul_left _ _ hd]
  have h1 : (d * 2 ^ ulpExp n < 2 * (d * (n % 2 ^ ulpExp n))) ↔
      (2 ^ ulpExp n < 2 * (n % 2 ^ ulpExp n)) := by
    rw [show 2 * (d * (n % 2 ^ ulpExp n)) = d * (2 * (n % 2 ^ ulpExp n)) by ring]
    exact Nat.mul_lt_mul_left hd
  have h2 : (2 * (d * (n % 2 ^ ulpExp n)) = d * 2 ^ ulpExp n) ↔
      (2 * (n % 2 ^ ulpExp n) = 2 ^ ulpExp n) := by
    rw [show 2 * (d * (n % 2 ^ ulpExp n)) = d * (2 * (n % 2 ^ ulpExp n)) by ring]
    exact Nat.mul_right_inj (by omega)
  simp only [h1, h2]

/-- The rounding error of a product of two representable magnitudes is representable when
the product lies on the grid of the format. -/
theorem prod_err_rep {n m P : Nat} (hn : Rep n) (hm : Rep m) (h : n * m = scale * P) :
    RepI ((P : Int) - rnI P) := by
  unfold scale at h
  have hn1 := ulpExp_lt n
  have hm1 := ulpExp_lt m
  have hlt : n * m < 2 ^ (53 + ulpExp n) * 2 ^ (53 + ulpExp m) :=
    Nat.mul_lt_mul'' hn1 hm1
  have hdv : 2 ^ ulpExp n * 2 ^ ulpExp m ∣ n * m := Nat.mul_dvd_mul hn hm
  rw [h] at hlt hdv
  have herr := rnI_err_nat (P : Int)
  rw [Int.natAbs_ofNat] at herr
  have hsym : ((P : Int) - rnI P).natAbs = (rnI (P : Int) - P).natAbs := by omega
  have hp1074 : 0 < 2 ^ 1074 := Nat.two_pow_pos 1074
  rcases Nat.lt_or_ge (ulpExp n + ulpExp m) 1074 with hc | hc
  · -- the product has at most 105 bits above the grid
    have h1 : 2 ^ (53 + ulpExp n) * 2 ^ (53 + ulpExp m) ≤ 2 ^ 1074 * 2 ^ 105 := by
      rw [← Nat.pow_add, ← Nat.pow_add]
      exact Nat.pow_le_pow_right (by norm_num) (by omega)
    have h2 : P < 2 ^ (53 + 52) :=
      Nat.lt_of_mul_lt_mul_left (a := 2 ^ 1074) (lt_of_lt_of_le hlt h1)
    have h3 : ulpExp P ≤ 52 := ulpExp_le_of_lt h2
    have h4 : 2 ^ ulpExp P ≤ 2 ^ 52 := Nat.pow_le_pow_right (by norm_num) h3
    apply repI_of_abs_lt
    rw [hsym]
    omega
  · -- the product is a multiple of `2^g` with at most 106 bits above it
    obtain ⟨g, hg⟩ : ∃ g, ulpExp n + ulpExp m = 1074 + g := ⟨ulpExp n + ulpExp m - 1074, by omega⟩
    have e1 : 2 ^ ulpExp n * 2 ^ ulpExp m = 2 ^ 1074 * 2 ^ g := by
      rw [← Nat.pow_add, ← Nat.pow_add, hg]
    have e2 : 2 ^ (53 + ulpExp n) * 2 ^ (53 + ulpExp m) = 2 ^ 1074 * 2 ^ (53 + (53 + g)) := by
      rw [← Nat.pow_add, ← Nat.pow_add]
      congr 1
      omega
    rw [e1] at hdv
    rw [e2] at hlt
    have h2 : P < 2 ^ (53 + (53 + g)) := Nat.lt_of_mul_lt_mul_left hlt
    have h3 : 2 ^ g ∣ P := Nat.dvd_of_mul_dvd_mul_left hp1074 hdv
    have h4 : ulpExp P ≤ 53 + g := ulpExp_le_of_lt h2
    have h5 : 2 ^ ulpExp P ≤ 2 ^ (53 + g) := Nat.pow_le_pow_right (by norm_num) h4
    have h6 : (2 : Int) ^ g ∣ (P : Int) := by exact_mod_cast h3
    apply repI_of_dvd_le (k := g) (dvd_sub h6 (rnI_dvd_of_dvd h6))
    rw [← Int.natCast_natAbs, hsym]
    have : ((rnI (P : Int) - P).natAbs : Int) ≤ ((2 ^ (53 + g) : Nat) : Int) := by
      exact_mod_cast (by omega : (rnI (P : Int) - P).natAbs ≤ 2 ^ (53 + g))
    exact_mod_cast this

theorem toInt_fin_decide_natAbs (e : Int) :
    (Dbl.fin (decide (e < 0)) e.natAbs).toInt = e := by
  unfold Dbl.toInt
  by_cases h : e < 0
  · simp only [h, decide_True, if_true]
    omega
  · simp only [h, decide_False]
    simp only [Bool.false_eq_true, if_false]
    omega

theorem Dbl.mul_fin (s t : Bool) (n m : Nat) :
    Dbl.mul (Dbl.fin s n) (Dbl.fin t m) = mk (xor s t) (roundRat (n * m) scale) := rfl

theorem Dbl.fma_fin (s t u : Bool) (n m l : Nat) :
    Dbl.fma (Dbl.fin s n) (Dbl.fin t m) (Dbl.fin u l) =
      if (if xor s t then -((n * m : Nat) : Int) else ((n * m : Nat) : Int)) +
          (Dbl.fin u l).toInt * (scale : Int) = 0
      then Dbl.fin (if xor s t = u then u else false) 0
      else mk (decide ((if xor s t then -((n * m : Nat) : Int) else ((n * m : Nat) : Int)) +
          (Dbl.fin u l).toInt * (scale : Int) < 0))
        (roundRat ((if xor s t then -((n * m : Nat) : Int) else ((n * m : Nat) : Int)) +
          (Dbl.fin u l).toInt * (scale : Int)).natAbs scale) := rfl

/-- Correctness of `two_prod` on finite data: when the exact product `n * m * 2^-2148` is
`P * 2^-1074` for a natural number `P` (it lies on the grid of the format) and does not
overflow, `hi` is the rounded product and `hi + lo` is the exact product. -/
theorem two_prod_spec {s t : Bool} {n m P : Nat} (hn : Rep n) (hm : Rep m)
    (h : n * m = scale * P) (ho : rn P < ovf) :
    (two_prod (Dbl.fin s n) (Dbl.fin t m)).hi = Dbl.fin (xor s t) (rn P) ∧
    (two_prod (Dbl.fin s n) (Dbl.fin t m)).lo.isFinite = true ∧
    (two_prod (Dbl.fin s n) (Dbl.fin t m)).hi.toInt +
      (two_prod (Dbl.fin s n) (Dbl.fin t m)).lo.toInt = if xor s t then -(P : Int) else P := by
  have hhi : Dbl.mul (Dbl.fin s n) (Dbl.fin t m) = Dbl.fin (xor s t) (rn P) := by
    rw [Dbl.mul_fin, h, roundRat_mul_left P scale_pos, toInt_mk ho]
  have hE := prod_err_rep hn hm h
  rw [rnI_ofNat] at hE
  have hPo : (P : Int).natAbs < ovf := natAbs_lt_ovf_of_rnI (by
    rw [rnI_ofNat]
    simpa using ho)
  have herr := rnI_err_ovf hPo
  rw [rnI_ofNat] at herr
  have hp : 0 < 2 ^ 2045 := Nat.two_pow_pos 2045
  have hov : 2 ^ 2045 ≤ ovf := by
    rw [ovf_eq]
    exact Nat.le_mul_of_pos_left _ (Nat.two_pow_pos 53)
  -- the signed error `e` of the rounded product, as `fma` sees it
  obtain ⟨e, he, hsum⟩ : ∃ e : Int,
      (if xor s t then -((n * m : Nat) : Int) else ((n * m : Nat) : Int)) +
        (Dbl.fin (!(xor s t)) (rn P)).toInt * (scale : Int) = (scale : Int) * e ∧
      (Dbl.fin (xor s t) (rn P)).toInt + e = if xor s t then -(P : Int) else P := by
    rw [h]
    cases xor s t
    · refine ⟨(P : Int) - rn P, ?_, ?_⟩
      · simp only [Bool.false_eq_true, if_false, Bool.not_false, Dbl.toInt, if_true]
        push_cast
        ring
      · simp only [Bool.false_eq_true, if_false, Dbl.toInt]
        ring
    · refine ⟨(rn P : Int) - P, ?_, ?_⟩
      · simp only [if_true, Bool.not_true, Dbl.toInt, Bool.false_eq_true, if_false]
        push_cast
        ring
      · simp only [if_true, Dbl.toInt]
        ring
  have heq : e.natAbs = (↑(rn P) - (P : Int)).natAbs := by
    cases hx : xor s t <;> rw [hx] at hsum <;>
      simp only [Bool.false_eq_true, if_false, if_true, Dbl.toInt] at hsum <;> omega
  have heR : Rep e.natAbs := by
    have h1 : e.natAbs = ((P : Int) - rn P).natAbs := by omega
    rw [h1]
    exact hE
  have heb : e.natAbs < ovf := by omega
  have hlo : Dbl.fma (Dbl.fin s n) (Dbl.fin t m) (Dbl.fin (!(xor s t)) (rn P)) =
      if e = 0 then Dbl.fin false 0 else Dbl.fin (decide (e < 0)) e.natAbs := by
    rw [Dbl.fma_fin, he]
    have hpz : (0 : Int) < (scale : Int) := by exact_mod_cast scale_pos
    by_cases h0 : e = 0
    · subst h0
      simp
    · have hne : (scale : Int) * e ≠ 0 := mul_ne_zero (ne_of_gt hpz) h0
      rw [if_neg hne, if_neg h0]
      have hna : ((scale : Int) * e).natAbs = scale * e.natAbs := by
        rw [Int.natAbs_mul, Int.natAbs_ofNat]
      have hdec : decide ((scale : Int) * e < 0) = decide (e < 0) := by
        congr 1
        apply propext
        constructor
        · intro hh
          by_contra hc
          have : 0 ≤ (scale : Int) * e := mul_nonneg (le_of_lt hpz) (by omega)
          omega
        · intro hh
          exact mul_neg_of_pos_of_neg hpz hh
      rw [hna, hdec, roundRat_mul_left _ scale_pos, rn_self heR, toInt_mk heb]
  have hneg : Dbl.neg (Dbl.fin (xor s t) (rn P)) = Dbl.fin (!(xor s t)) (rn P) := rfl
  unfold two_prod
  simp only [hhi, hneg, hlo]
  refine ⟨trivial, ?_, ?_⟩
  · split_ifs <;> rfl
  · rw [← hsum]
    congr 1
    by_cases h0 : e = 0
    · rw [if_pos h0, h0]
      rfl
    · rw [if_neg h0]
      exact toInt_fin_decide_natAbs e

end Xprec

/-! ## Signs of zero, and the products on finite data -/

namespace Xprec

theorem scale_cast : ((scale : Nat) : ℚ) = 2 ^ 1074 := by
  unfold scale
  push_cast
  rfl

theorem scale_cast_pos : (0 : ℚ) < (scale : ℚ) := by exact_mod_cast scale_pos

theorem toRat_mul_fin (s t : Bool) (n m : Nat) :
    (Dbl.fin s n).toRat * (Dbl.fin t m).toRat =
      (((if xor s t then -((n * m : Nat) : Int) else ((n * m : Nat) : Int)) : Int) : ℚ) /
        ((scale : ℚ) * (scale : ℚ)) := by
  unfold Dbl.toRat Dbl.toInt
  rw [div_mul_div_comm]
  congr 1
  cases s <;> cases t <;> simp

theorem toInt_fin_rn (σ : Bool) (P : Nat) :
    (Dbl.fin σ (rn P)).toInt = rnI (if σ then -(P : Int) else P) := by
  cases σ
  · simp [Dbl.toInt, rnI_ofNat]
  · simp [Dbl.toInt, rnI_neg, rnI_ofNat]

/-- The product of two finite doubles under the conditions of `two_prod_spec`, stated with
real numbers. -/
theorem two_prod_real {a b : Dbl} (ha : IsDouble a) (hb : IsDouble b)
    (hfa : a.isFinite = true) (hfb : b.isFinite = true)
    (hs : (Dbl.mul a b).isFinite = true)
    (hg : ∃ k : ℤ, a.toRat * b.toRat = (k : ℚ) / 2 ^ 1074) :
    NearestTo (a.toRat * b.toRat) (two_prod a b).hi ∧
    (two_prod a b).lo.isFinite = true ∧
    (two_prod a b).hi.toRat + (two_prod a b).lo.toRat = a.toRat * b.toRat := by
  cases a with
  | nan => simp [Dbl.isFinite] at hfa
  | inf s => simp [Dbl.isFinite] at hfa
  | fin s n =>
    cases b with
    | nan => simp [Dbl.isFinite] at hfb
    | inf t => simp [Dbl.isFinite] at hfb
    | fin t m =>
      obtain ⟨k, hk⟩ := hg
      have hsc := scale_cast_pos
      rw [toRat_mul_fin, ← scale_cast] at hk
      have hk2 : (if xor s t then -((n * m : Nat) : Int) else ((n * m : Nat) : Int))
          = k * (scale : Int) := by
        have : ((((if xor s t then -((n * m : Nat) : Int) else ((n * m : Nat) : Int)) : Int) : ℚ))
            = (k : ℚ) * (scale : ℚ) := by
          have hne : (scale : ℚ) ≠ 0 := ne_of_gt hsc
          have h' := (div_eq_div_iff (mul_ne_zero hne hne) hne).mp hk
          exact mul_right_cancel₀ hne (by rw [h']; ring)
        exact_mod_cast this
      have hP : n * m = scale * k.natAbs := by
        have h1 : ((n * m : Nat) : Int).natAbs = (k * (scale : Int)).natAbs := by
          rw [← hk2]
          split_ifs <;> simp
        rw [Int.natAbs_ofNat, Int.natAbs_mul, Int.natAbs_ofNat] at h1
        rw [h1, mul_comm]
      have hsgn : (if xor s t then -((k.natAbs : Nat) : Int) else ((k.natAbs : Nat) : Int)) = k := by
        have hp : (0 : Int) < (scale : Int) := by exact_mod_cast scale_pos
        have h2 : (if xor s t then -((n * m : Nat) : Int) else ((n * m : Nat) : Int)) =
            (if xor s t then -((k.natAbs : Nat) : Int) else ((k.natAbs : Nat) : Int)) * scale := by
          rw [hP]
          split_ifs <;> push_cast <;> ring
        rw [h2] at hk2
        exact mul_right_cancel₀ (ne_of_gt hp) hk2
      have ho : rn k.natAbs < ovf := by
        rw [Dbl.mul_fin, hP, roundRat_mul_left _ scale_pos] at hs
        by_contra hc
        unfold mk at hs
        rw [if_pos (by omega)] at hs
        simp [Dbl.isFinite] at hs
      obtain ⟨h1, h2, h3⟩ := two_prod_spec (s := s) (t := t) ha.1 hb.1 hP ho
      rw [hsgn] at h3
      have hprod : (Dbl.fin s n).toRat * (Dbl.fin t m).toRat = (k : ℚ) / (scale : ℚ) := by
        rw [toRat_mul_fin, hk2]
        push_cast
        field_simp
        ring
      refine ⟨?_, h2, ?_⟩
      · rw [hprod]
        apply nearest_of_rnI
        rw [h1, toInt_fin_rn, hsgn]
      · rw [hprod]
        unfold Dbl.toRat
        rw [← add_div]
        congr 1
        exact_mod_cast h3

end Xprec

/-! ## Signs of zero -/

namespace Xprec

theorem neg_mk (s : Bool) (n : Nat) : Dbl.neg (mk s n) = mk (!s) n := by
  unfold mk
  split_ifs <;> rfl

theorem toInt_fin_zero (s : Bool) : (Dbl.fin s 0).toInt = 0 := by
  cases s <;> rfl

theorem toInt_fin_not (s : Bool) (n : Nat) : (Dbl.fin (!s) n).toInt = -(Dbl.fin s n).toInt := by
  cases s <;> simp [Dbl.toInt]

/-- Negation commutes with addition up to the sign of an exact zero sum. -/
theorem neg_add_eqZ (x y : Dbl) :
    EqZ (Dbl.neg (Dbl.add x y)) (Dbl.add (Dbl.neg x) (Dbl.neg y)) := by
  cases x with
  | nan => cases y <;> exact Or.inl rfl
  | inf s =>
    cases y with
    | nan => exact Or.inl rfl
    | inf t =>
      left
      cases s <;> cases t <;> rfl
    | fin t m => exact Or.inl rfl
  | fin s n =>
    cases y with
    | nan => exact Or.inl rfl
    | inf t => exact Or.inl rfl
    | fin t m =>
      show EqZ (Dbl.neg (Dbl.add (Dbl.fin s n) (Dbl.fin t m)))
        (Dbl.add (Dbl.fin (!s) n) (Dbl.fin (!t) m))
      rw [Dbl.add_fin, Dbl.add_fin, toInt_fin_not, toInt_fin_not]
      by_cases h0 : (Dbl.fin s n).toInt + (Dbl.fin t m).toInt = 0
      · rw [if_pos h0, if_pos (by omega)]
        exact Or.inr ⟨_, _, rfl, rfl⟩
      · rw [if_neg h0, if_neg (by omega), neg_mk]
        left
        congr 1
        · by_cases h1 : (Dbl.fin s n).toInt + (Dbl.fin t m).toInt < 0
          · simp only [h1, decide_True, Bool.not_true]
            symm
            rw [decide_eq_false_iff_not]
            omega
          · simp only [h1, decide_False, Bool.not_false]
            symm
            rw [decide_eq_true_iff]
            omega
        · congr 1
          omega

/-- Adding zeros of either sign to the same datum gives the same result up to the sign of
zero. -/
theorem add_eqZ_right (p : Dbl) {z w : Dbl} (h : EqZ z w) :
    EqZ (Dbl.add p z) (Dbl.add p w) := by
  rcases h with rfl | ⟨s, t, rfl, rfl⟩
  · exact Or.inl rfl
  · cases p with
    | nan => exact Or.inl rfl
    | inf u => exact Or.inl rfl
    | fin u n =>
      rw [Dbl.add_fin, Dbl.add_fin, toInt_fin_zero, toInt_fin_zero]
      by_cases h0 : (Dbl.fin u n).toInt + 0 = 0
      · rw [if_pos h0, if_pos h0]
        exact Or.inr ⟨_, _, rfl, rfl⟩
      · rw [if_neg h0, if_neg h0]
        exact Or.inl rfl

/-- Division by a zero of either sign: every word of `divqd` is NaN. -/
theorem divqd_zero (x : ddouble) (t : Bool) : divqd x (Dbl.fin t 0) = ⟨Dbl.nan, Dbl.nan⟩ := by
  obtain ⟨hi, lo⟩ := x
  cases hi with
  | nan => cases lo <;> rfl
  | inf s => cases lo <;> rfl
  | fin s n =>
    have h1 : Dbl.div (Dbl.fin s n) (Dbl.fin t 0) = Dbl.nan ∨
        Dbl.div (Dbl.fin s n) (Dbl.fin t 0) = Dbl.inf (xor s t) := by
      unfold Dbl.div
      by_cases hn : n = 0
      · left; simp [hn]
      · right; simp [hn]
    unfold divqd
    simp only
    rcases h1 with h1 | h1 <;> rw [h1] <;> cases lo <;> rfl

end Xprec

/-! ## `addqq` on operands without low words -/

namespace Xprec

theorem mk_eq_fin {s t : Bool} {n m : Nat} (h : mk s n = Dbl.fin t m) : s = t ∧ n = m := by
  unfold mk at h
  split_ifs at h
  injection h with h1 h2
  exact ⟨h1, h2⟩

/-- A sum is `-0.0` only when both operands are. -/
theorem add_eq_negZero {x y : Dbl} (h : Dbl.add x y = Dbl.fin true 0) :
    x = Dbl.fin true 0 ∧ y = Dbl.fin true 0 := by
  cases x with
  | nan => simp [Dbl.add] at h
  | inf s =>
    cases y with
    | nan => simp [Dbl.add] at h
    | inf t => by_cases hst : s = t <;> simp [Dbl.add, hst] at h
    | fin t m => simp [Dbl.add] at h
  | fin s n =>
    cases y with
    | nan => simp [Dbl.add] at h
    | inf t => simp [Dbl.add] at h
    | fin t m =>
      rw [Dbl.add_fin] at h
      by_cases h0 : (Dbl.fin s n).toInt + (Dbl.fin t m).toInt = 0
      · rw [if_pos h0] at h
        injection h with h1 _
        have hs : s = true := by cases s <;> simp_all
        have ht : t = true := by cases t <;> simp_all
        subst hs ht
        simp only [Dbl.toInt, if_true] at h0
        have hn : n = 0 := by omega
        have hm : m = 0 := by omega
        subst hn hm
        exact ⟨rfl, rfl⟩
      · rw [if_neg h0] at h
        have := (mk_eq_fin h).2
        have := rn_eq_zero this
        omega

/-- The low word of `two_sum` is never `-0.0`. -/
theorem two_sum_lo_ne_negZero (a b : Dbl) : (two_sum a b).lo ≠ Dbl.fin true 0 := by
  intro h
  obtain ⟨hx, hy⟩ := add_eq_negZero (x := Dbl.sub a (Dbl.sub (Dbl.add a b) (Dbl.sub (Dbl.add a b) a)))
    (y := Dbl.sub b (Dbl.sub (Dbl.add a b) a)) h
  obtain ⟨ha, hw⟩ := add_eq_negZero (x := a) hx
  obtain ⟨hb, _⟩ := add_eq_negZero (x := b) hy
  subst ha hb
  revert hw
  decide

/-- Adding a zero to a finite double. -/
theorem add_zero_gen {s : Bool} {n : Nat} (t : Bool) (hn : Rep n) (ho : n < ovf) :
    Dbl.add (Dbl.fin s n) (Dbl.fin t 0) = (if n = 0 then Dbl.fin (s && t) 0 else Dbl.fin s n) ∧
    Dbl.add (Dbl.fin t 0) (Dbl.fin s n) = (if n = 0 then Dbl.fin (t && s) 0 else Dbl.fin s n) := by
  have hi : (Dbl.fin s n).toInt = 0 ↔ n = 0 := by
    cases s <;> simp [Dbl.toInt]
  have key : mk (decide ((Dbl.fin s n).toInt < 0)) (rn (Dbl.fin s n).toInt.natAbs) =
      if n = 0 then Dbl.fin false 0 else Dbl.fin s n := by
    rw [Dbl.natAbs_toInt, rn_self hn, toInt_mk ho]
    by_cases h0 : n = 0
    · subst h0
      cases s <;> simp [Dbl.toInt]
    · rw [if_neg h0]
      cases s
      · have : ¬ ((n : Int) < 0) := by omega
        simp [Dbl.toInt, this]
      · have : -(n : Int) < 0 := by omega
        simp [Dbl.toInt, this]
  constructor
  · rw [Dbl.add_fin, toInt_fin_zero, add_zero]
    by_cases h0 : n = 0
    · rw [if_pos (hi.mpr h0), if_pos h0]
    · rw [if_neg (mt hi.mp h0), if_neg h0, key, if_neg h0]
  · rw [Dbl.add_fin, toInt_fin_zero, zero_add]
    by_cases h0 : n = 0
    · rw [if_pos (hi.mpr h0), if_pos h0]
    · rw [if_neg (mt hi.mp h0), if_neg h0, key, if_neg h0]

theorem sub_self_fin (s : Bool) (n : Nat) :
    Dbl.sub (Dbl.fin s n) (Dbl.fin s n) = Dbl.fin false 0 := by
  show Dbl.add (Dbl.fin s n) (Dbl.fin (!s) n) = _
  rw [Dbl.add_fin, toInt_fin_not, if_pos (by omega)]
  cases s <;> rfl

theorem eq_of_toInt_ne_zero {s t : Bool} {n m : Nat}
    (h : (Dbl.fin s n).toInt = (Dbl.fin t m).toInt) (h0 : (Dbl.fin s n).toInt ≠ 0) :
    Dbl.fin s n = Dbl.fin t m := by
  cases s <;> cases t <;> simp only [Dbl.toInt, Bool.false_eq_true, if_false, if_true] at h h0 <;>
    first
    | (have : n = m := by omega
       subst this
       rfl)
    | omega

/-- On operands whose low words are `+0.0`, `addqq` returns what `two_sum` returns on the high
words, provided `two_sum` is exact there and the operands are not both `-0.0`. -/
theorem addqq_zero_lo_spec {a b : Dbl} (ha : IsDouble a) (hb : IsDouble b)
    (hfa : a.isFinite = true) (hfb : b.isFinite = true)
    (hs : (Dbl.add a b).isFinite = true)
    (hv : (Dbl.sub (Dbl.add a b) a).isFinite = true)
    (hz : ¬ (a = Dbl.fin true 0 ∧ b = Dbl.fin true 0)) :
    addqq ⟨a, Dbl.fin false 0⟩ ⟨b, Dbl.fin false 0⟩ = two_sum a b := by
  obtain ⟨h1, h2, h3⟩ := two_sum_spec ha hb hfa hfb hs hv
  have hne := two_sum_lo_ne_negZero a b
  have hEd : IsDouble (two_sum a b).lo := Dbl.isDouble_add _ _
  have hSd : IsDouble (Dbl.add a b) := Dbl.isDouble_add _ _
  obtain ⟨_, _, _, hSb⟩ := Dbl.add_of_finite hs
  have hhi : (two_sum a b).hi = Dbl.add a b := rfl
  rw [hhi] at h1
  -- name the two words
  generalize hE : (two_sum a b).lo = E at h2 h3 hne hEd
  generalize hS : Dbl.add a b = S at hs hSd h1
  have htwo : two_sum a b = ⟨S, E⟩ := by
    rw [← hE, ← hS]
    rfl
  cases E with
  | nan => simp [Dbl.isFinite] at h2
  | inf u => simp [Dbl.isFinite] at h2
  | fin u l =>
    cases S with
    | nan => simp [Dbl.isFinite] at hs
    | inf u => simp [Dbl.isFinite] at hs
    | fin σ k =>
      have hl0 : l = 0 → u = false := by
        intro h0
        subst h0
        cases u
        · rfl
        · exact absurd rfl hne
      have hEz := add_zero_gen (s := u) false hEd.1 hEd.2
      have hEz' := add_zero_gen (s := u) true hEd.1 hEd.2
      have e1 : Dbl.add (Dbl.fin u l) (Dbl.fin false 0) = Dbl.fin u l := by
        rw [hEz.1]
        split_ifs with h0
        · rw [hl0 h0, h0]; rfl
        · rfl
      have e2 : Dbl.add (Dbl.fin false 0) (Dbl.fin u l) = Dbl.fin u l := by
        rw [hEz.2]
        split_ifs with h0
        · rw [hl0 h0, h0]; rfl
        · rfl
      have e3 : Dbl.sub (Dbl.fin u l) (Dbl.fin false 0) = Dbl.fin u l := by
        show Dbl.add (Dbl.fin u l) (Dbl.fin true 0) = _
        rw [hEz'.1]
        split_ifs with h0
        · rw [h0]; cases u <;> rfl
        · rfl
      have e4 : Dbl.add (Dbl.fin σ k) (Dbl.fin u l) = Dbl.fin σ k := by
        have hsum : (Dbl.fin σ k).toInt + (Dbl.fin u l).toInt = a.toInt + b.toInt := by
          rw [h1, h3]; ring
        have hf := Dbl.add_finite (x := Dbl.fin σ k) (y := Dbl.fin u l) rfl rfl (by
          rw [hsum]
          exact hSb)
        rw [hsum, ← h1] at hf
        by_cases h0 : (Dbl.fin σ k).toInt = 0
        · -- the sum is an exact zero
          have hab0 : a.toInt + b.toInt = 0 := rnI_eq_zero (by rw [← h1]; exact h0)
          have hk : k = 0 := by
            have := Dbl.natAbs_toInt σ k
            rw [h0] at this
            simpa using this.symm
          have hl : l = 0 := by
            have := Dbl.natAbs_toInt u l
            rw [h3, hab0, rnI_zero] at this
            simpa using this.symm
          subst hk hl
          have hu : u = false := hl0 rfl
          subst hu
          have hσ : σ = false := by
            cases a with
            | nan => simp [Dbl.isFinite] at hfa
            | inf _ => simp [Dbl.isFinite] at hfa
            | fin sa n =>
              cases b with
              | nan => simp [Dbl.isFinite] at hfb
              | inf _ => simp [Dbl.isFinite] at hfb
              | fin sb m =>
                rw [Dbl.add_fin, if_pos hab0] at hS
                injection hS with hS1 _
                rw [← hS1]
                cases sa <;> cases sb <;> try rfl
                exfalso
                apply hz
                simp only [Dbl.toInt, if_true] at hab0
                have hn : n = 0 := by omega
                have hm : m = 0 := by omega
                subst hn hm
                exact ⟨rfl, rfl⟩
          subst hσ
          rfl
        · rcases hadd : Dbl.add (Dbl.fin σ k) (Dbl.fin u l) with _ | _ | ⟨σ', k'⟩
          · rw [hadd] at hf; simp [Dbl.isFinite] at hf
          · rw [hadd] at hf; simp [Dbl.isFinite] at hf
          · rw [hadd] at hf
            exact (eq_of_toInt_ne_zero hf.2.symm h0).symm
      rw [htwo]
      have t0 : two_sum (Dbl.fin false 0) (Dbl.fin false 0) = ⟨Dbl.fin false 0, Dbl.fin false 0⟩ := by
        decide
      unfold addqq
      simp only [t0, htwo, e1]
      unfold two_sum_quick
      simp only [e4, sub_self_fin, e3, e2]

end Xprec

/-! ## `addqq`: both calls of `two_sum_quick` are exact -/

namespace Xprec

theorem rep_pow (k : Nat) : Rep (2 ^ k) := by
  rcases Nat.lt_or_ge k 53 with h | h
  · exact rep_of_dvd_le (k := 0) (by simp) (Nat.pow_le_pow_right (by norm_num) (by omega))
  · exact rep_of_dvd_le (k := k - 53) (pow_dvd_pow 2 (by omega))
      (Nat.pow_le_pow_right (by norm_num) (by omega))

theorem rnI_natAbs_le_of_rep {m : Nat} {i : Int} (hm : Rep m) (h : i.natAbs ≤ m) :
    (rnI i).natAbs ≤ m := by
  rw [rnI_natAbs]
  exact rn_le_of_rep hm h

theorem pow_mono2 {a b : Nat} (h : a ≤ b) : 2 ^ a ≤ 2 ^ b :=
  Nat.pow_le_pow_right (by norm_num) h

/-- A magnitude of at most `2^(52+k)` has an ulp exponent of at most `k`. -/
theorem ulpExp_le_of_le_pow {n k : Nat} (h : n ≤ 2 ^ (52 + k)) : ulpExp n ≤ k := by
  apply ulpExp_le_of_lt
  have : 2 ^ (53 + k) = 2 * 2 ^ (52 + k) := by ring
  have hp : 0 < 2 ^ (52 + k) := Nat.two_pow_pos _
  omega

theorem rnI_err_nat_sub (i : Int) : 2 * (i - rnI i).natAbs ≤ 2 ^ ulpExp i.natAbs := by
  have h := rnI_err_nat i
  have e : (i - rnI i).natAbs = (rnI i - i).natAbs := by omega
  rw [e]
  exact h

theorem natAbs_le_add_natAbs (a b : Int) : a.natAbs ≤ (a + b).natAbs + b.natAbs := by
  omega

/-- The high words cannot differ by more than 51 binades from the grid of their rounded
sum. -/
theorem addqq_gap {xh yh : Int} {J : Nat}
    (hg : ulpExp yh.natAbs ≤ J) (hs : ulpExp (xh + yh).natAbs ≤ J) :
    ulpExp xh.natAbs ≤ 51 + J := by
  by_contra hc
  have hG : 0 < ulpExp xh.natAbs := by omega
  have h1 := pow_le_of_ulpExp_pos hG
  have h2 := ulpExp_lt yh.natAbs
  have h3 : 2 ^ (53 + ulpExp yh.natAbs) ≤ 2 ^ (ulpExp xh.natAbs + 1) := pow_mono2 (by omega)
  obtain ⟨G', hG'⟩ : ∃ G', ulpExp xh.natAbs = G' + 1 := ⟨ulpExp xh.natAbs - 1, by omega⟩
  rw [hG'] at h1 h3
  have e1 : 2 ^ (52 + (G' + 1)) = 4 * 2 ^ (51 + G') := by ring
  have h4 : 2 ^ (G' + 1 + 1) ≤ 2 ^ (51 + G') := pow_mono2 (by omega)
  have h6 := natAbs_le_add_natAbs xh yh
  have h5 : 2 ^ (52 + G') ≤ (xh + yh).natAbs := by
    have e2 : 2 ^ (52 + G') = 2 * 2 ^ (51 + G') := by ring
    clear hc hG hG' hg hs
    omega
  have := le_ulpExp_of_le h5
  omega

theorem size_lo {G g a b : Nat} (ha : 2 * a ≤ 2 ^ G) (hb : 2 * b ≤ 2 ^ g) (h : g ≤ G) :
    a + b ≤ 2 ^ G := by
  have := pow_mono2 h
  omega

theorem size_c {G J U a b : Nat} (ha : 2 * a ≤ 2 ^ U) (hU : U ≤ J) (hb : b ≤ 2 ^ G)
    (hG : G ≤ 51 + J) : a + b ≤ 2 ^ J + 2 ^ (51 + J) ∧ 2 ^ J + 2 ^ (51 + J) ≤ 2 ^ (52 + J) := by
  have h1 := pow_mono2 hU
  have h2 := pow_mono2 hG
  have e51 : 2 ^ (51 + J) = 2 ^ 51 * 2 ^ J := Nat.pow_add 2 51 J
  have e52 : 2 ^ (52 + J) = 2 ^ 52 * 2 ^ J := Nat.pow_add 2 52 J
  have hp : 0 < 2 ^ J := Nat.two_pow_pos J
  omega

theorem size_w {K e1 e2 a b : Nat} (ha : 2 * a ≤ 2 ^ e1) (h1 : e1 ≤ K + 1)
    (hb : 2 * b ≤ 2 ^ e2) (h2 : e2 ≤ K) : a + b ≤ 2 ^ (52 + K) := by
  have h3 := pow_mono2 h1
  have h4 := pow_mono2 h2
  have e : 2 ^ (K + 1) = 2 * 2 ^ K := by ring
  have e52 : 2 ^ (52 + K) = 2 ^ 52 * 2 ^ K := Nat.pow_add 2 52 K
  have hp : 0 < 2 ^ K := Nat.two_pow_pos K
  omega

theorem size_v {J' sm cm scm : Nat} (hs : 2 ^ (52 + (J' + 2)) ≤ sm)
    (hc : cm ≤ 2 ^ (J' + 2) + 2 ^ (51 + (J' + 2))) (h : sm ≤ scm + cm) :
    2 ^ (52 + J') ≤ scm := by
  have e1 : 2 ^ (52 + (J' + 2)) = 2 ^ 54 * 2 ^ J' := by ring
  have e2 : 2 ^ (J' + 2) = 4 * 2 ^ J' := by ring
  have e3 : 2 ^ (51 + (J' + 2)) = 2 ^ 53 * 2 ^ J' := by ring
  have e4 : 2 ^ (52 + J') = 2 ^ 52 * 2 ^ J' := by ring
  have hp : 0 < 2 ^ J' := Nat.two_pow_pos J'
  omega

theorem exp_arith1 {e G J' u uv K : Nat} (h1 : e ≤ G - 52) (h2 : G ≤ 51 + (J' + 2))
    (h3 : J' ≤ u) (h4 : u ≤ uv) (h5 : uv ≤ K) : e ≤ K + 1 := by
  omega

theorem exp_arith2 {e G J K : Nat} (h1 : e ≤ G - 52) (h2 : G ≤ 51 + J) (h3 : J < 2) :
    e ≤ K + 1 := by
  omega

theorem exp_arith3 {J g us U : Nat} (h : J = g ∨ J = us) (h1 : g + 1 ≤ U) (h2 : U ≤ us)
    (h3 : us ≤ J) : J = us ∧ 0 < us := by
  omega

/-- The sum of the low words is far below the grid of the high words. -/
theorem ulpExp_lo_le {G n : Nat} (h : n ≤ 2 ^ G) : ulpExp n ≤ G - 52 := by
  rcases Nat.lt_or_ge G 52 with h52 | h52
  · have h4 : 2 ^ G ≤ 2 ^ 52 := pow_mono2 (by omega)
    have := ulpExp_eq_zero (n := n) (by omega)
    omega
  · apply ulpExp_le_of_le_pow
    have : 52 + (G - 52) = G := by omega
    rw [this]
    exact h

/-- The two divisibility facts that make both `two_sum_quick` calls of `addqq` exact, for
high words ordered by their ulp. -/
theorem addqq_int_aux {xh xl yh yl : Int} (hxh : RepI xh) (hyh : RepI yh)
    (nx : 2 * xl.natAbs ≤ 2 ^ ulpExp xh.natAbs) (ny : 2 * yl.natAbs ≤ 2 ^ ulpExp yh.natAbs)
    (hle : ulpExp yh.natAbs ≤ ulpExp xh.natAbs)
    (s t c v w : Int) (hs : s = rnI (xh + yh)) (ht : t = rnI (xl + yl))
    (hc : c = rnI (xh + yh - s + t)) (hv : v = rnI (s + c))
    (hw : w = rnI (xl + yl - t + (s + c - v))) :
    (2 : Int) ^ ulpExp c.natAbs ∣ s ∧ (2 : Int) ^ ulpExp w.natAbs ∣ v := by
  have hS : RepI s := hs ▸ rnI_rep _
  have hT : RepI t := ht ▸ rnI_rep _
  have hC : RepI c := hc ▸ rnI_rep _
  have hV : RepI v := hv ▸ rnI_rep _
  -- divisors of `s`
  have hxyd : (2 : Int) ^ ulpExp yh.natAbs ∣ xh + yh :=
    dvd_add (dvd_trans (pow_dvd_pow 2 hle) hxh.dvd) hyh.dvd
  have hsg : (2 : Int) ^ ulpExp yh.natAbs ∣ s := by
    rw [hs]
    exact rnI_dvd_of_dvd hxyd
  have hU : ulpExp (xh + yh).natAbs ≤ ulpExp s.natAbs := by
    rw [hs, rnI_natAbs]
    exact ulpExp_le_rn _
  obtain ⟨J, hJ1, hJ2, hJ3⟩ : ∃ J, ulpExp yh.natAbs ≤ J ∧ ulpExp s.natAbs ≤ J ∧
      (J = ulpExp yh.natAbs ∨ J = ulpExp s.natAbs) := by
    rcases le_total (ulpExp yh.natAbs) (ulpExp s.natAbs) with h | h
    · exact ⟨_, h, le_rfl, Or.inr rfl⟩
    · exact ⟨_, le_rfl, h, Or.inl rfl⟩
  have hsJ : (2 : Int) ^ J ∣ s := by
    rcases hJ3 with h | h
    · rw [h]; exact hsg
    · rw [h]; exact hS.dvd
  have hgap : ulpExp xh.natAbs ≤ 51 + J :=
    @addqq_gap xh yh J hJ1 (le_trans hU hJ2)
  -- sizes
  have hsl : 2 * (xh + yh - s).natAbs ≤ 2 ^ ulpExp (xh + yh).natAbs := by
    rw [hs]
    exact rnI_err_nat_sub _
  have hxy : (xl + yl).natAbs ≤ 2 ^ ulpExp xh.natAbs :=
    le_trans (Int.natAbs_add_le _ _) (size_lo nx ny hle)
  have htb : t.natAbs ≤ 2 ^ ulpExp xh.natAbs := by
    rw [ht]
    exact rnI_natAbs_le_of_rep (rep_pow _) hxy
  have hsz := size_c hsl (le_trans hU hJ2) htb hgap
  have hc2 : c.natAbs ≤ 2 ^ J + 2 ^ (51 + J) := by
    rw [hc]
    have hr : Rep (2 ^ J + 2 ^ (51 + J)) := by
      apply rep_of_dvd_le (k := J)
      · exact Dvd.dvd.add dvd_rfl (pow_dvd_pow 2 (Nat.le_add_left J 51))
      · exact le_trans hsz.2 (pow_mono2 (Nat.add_le_add_right (by norm_num) J))
    exact rnI_natAbs_le_of_rep hr (le_trans (Int.natAbs_add_le _ _) hsz.1)
  have hcJ : ulpExp c.natAbs ≤ J := ulpExp_le_of_le_pow (le_trans hc2 hsz.2)
  have hcs : (2 : Int) ^ ulpExp c.natAbs ∣ s := dvd_trans (pow_dvd_pow 2 hcJ) hsJ
  refine ⟨hcs, ?_⟩
  -- divisors of `v`
  have hvc : (2 : Int) ^ ulpExp c.natAbs ∣ v := by
    rw [hv]
    exact rnI_dvd_of_dvd (dvd_add hcs hC.dvd)
  have hUv : ulpExp (s + c).natAbs ≤ ulpExp v.natAbs := by
    rw [hv, rnI_natAbs]
    exact ulpExp_le_rn _
  obtain ⟨K, hK1, hK2, hK3⟩ : ∃ K, ulpExp v.natAbs ≤ K ∧ ulpExp c.natAbs ≤ K ∧
      (K = ulpExp v.natAbs ∨ K = ulpExp c.natAbs) := by
    rcases le_total (ulpExp v.natAbs) (ulpExp c.natAbs) with h | h
    · exact ⟨_, h, le_rfl, Or.inr rfl⟩
    · exact ⟨_, le_rfl, h, Or.inl rfl⟩
  have hvK : (2 : Int) ^ K ∣ v := by
    rcases hK3 with h | h
    · rw [h]; exact hV.dvd
    · rw [h]; exact hvc
  have hvl : 2 * (s + c - v).natAbs ≤ 2 ^ ulpExp (s + c).natAbs := by
    rw [hv]
    exact rnI_err_nat_sub _
  have htl0 : 2 * (xl + yl - t).natAbs ≤ 2 ^ ulpExp (xl + yl).natAbs := by
    rw [ht]
    exact rnI_err_nat_sub _
  have hlow : ulpExp (xl + yl).natAbs ≤ K + 1 := by
    by_cases hsl0 : xh + yh - s = 0
    · -- the sum of the high words is exact: `c = t`
      have hct : c = t := by
        rw [hc, hsl0, zero_add, rnI_self hT]
      have h1 : ulpExp (xl + yl).natAbs ≤ ulpExp t.natAbs := by
        rw [ht, rnI_natAbs]
        exact ulpExp_le_rn _
      rw [hct] at hK2
      exact le_trans h1 (le_trans hK2 (Nat.le_succ K))
    · -- the sum of the high words is rounded, so `s` is large
      have hnr : ¬ RepI (xh + yh) := by
        intro h
        apply hsl0
        rw [hs, rnI_self h]
        ring
      have hbig : ulpExp yh.natAbs + 1 ≤ ulpExp (xh + yh).natAbs := by
        apply le_ulpExp_of_le
        by_contra hlt
        apply hnr
        apply rep_of_dvd_le (k := ulpExp yh.natAbs) (natAbs_dvd_iff.mp hxyd)
        have e : 2 ^ (52 + (ulpExp yh.natAbs + 1)) = 2 ^ (53 + ulpExp yh.natAbs) := by ring
        rw [e] at hlt
        exact le_of_lt (not_le.mp hlt)
      obtain ⟨hJs, hspos⟩ := exp_arith3 hJ3 hbig hU hJ2
      have hxl : ulpExp (xl + yl).natAbs ≤ ulpExp xh.natAbs - 52 := ulpExp_lo_le hxy
      rcases Nat.lt_or_ge J 2 with hJ2' | hJ2'
      · exact exp_arith2 hxl hgap hJ2'
      · obtain ⟨J', hJ'⟩ : ∃ J', J = J' + 2 := ⟨J - 2, (Nat.sub_add_cancel hJ2').symm⟩
        have hs1 : 2 ^ (52 + J) ≤ s.natAbs := by
          rw [hJs]
          exact pow_le_of_ulpExp_pos hspos
        rw [hJ'] at hs1 hc2 hgap
        have h3 := size_v hs1 hc2 (natAbs_le_add_natAbs s c)
        exact exp_arith1 hxl hgap (le_ulpExp_of_le h3) hUv hK1
  have hwb : w.natAbs ≤ 2 ^ (52 + K) := by
    rw [hw]
    exact rnI_natAbs_le_of_rep (rep_pow _)
      (le_trans (Int.natAbs_add_le _ _) (size_w htl0 hlow hvl (le_trans hUv hK1)))
  exact dvd_trans (pow_dvd_pow 2 (ulpExp_le_of_le_pow hwb)) hvK

end Xprec

/-! ## `addqq` on doubles -/

namespace Xprec

theorem normalized_iff (x : ddouble) :
    Normalized x ↔ 2 * x.lo.toInt.natAbs ≤ 2 ^ ulpExp x.hi.toInt.natAbs := by
  unfold Normalized Dbl.ulp Dbl.toRat
  have hsc := scale_cast_pos
  have key : ∀ a P : ℚ, a / (scale : ℚ) ≤ P / (scale : ℚ) / 2 ↔ 2 * a ≤ P := by
    intro a P
    rw [div_div, div_le_div_iff₀ hsc (by positivity)]
    constructor <;> intro h <;> nlinarith
  rw [abs_div, abs_of_pos hsc, key, ← Int.cast_abs, ← Nat.cast_natAbs]
  constructor
  · intro h
    exact_mod_cast h
  · intro h
    exact_mod_cast h

/-- The intermediate `s - a` of a `two_sum` whose low word is finite is finite. -/
theorem two_sum_lo_finite_inv {a b : Dbl} (h : (two_sum a b).lo.isFinite = true) :
    (Dbl.sub (Dbl.add a b) a).isFinite = true := by
  have h1 := (Dbl.add_of_finite (x := Dbl.sub a (Dbl.sub (Dbl.add a b) (Dbl.sub (Dbl.add a b) a)))
    (y := Dbl.sub b (Dbl.sub (Dbl.add a b) a)) h).2.1
  exact (Dbl.sub_of_finite h1).2.1

/-- The divisibility facts of `addqq_int_aux` without an order on the high words. -/
theorem addqq_int {xh xl yh yl : Int} (hxh : RepI xh) (hyh : RepI yh)
    (nx : 2 * xl.natAbs ≤ 2 ^ ulpExp xh.natAbs) (ny : 2 * yl.natAbs ≤ 2 ^ ulpExp yh.natAbs)
    (s t c v w : Int) (hs : s = rnI (xh + yh)) (ht : t = rnI (xl + yl))
    (hc : c = rnI (xh + yh - s + t)) (hv : v = rnI (s + c))
    (hw : w = rnI (xl + yl - t + (s + c - v))) :
    (2 : Int) ^ ulpExp c.natAbs ∣ s ∧ (2 : Int) ^ ulpExp w.natAbs ∣ v := by
  rcases le_total (ulpExp yh.natAbs) (ulpExp xh.natAbs) with h | h
  · exact addqq_int_aux hxh hyh nx ny h s t c v w hs ht hc hv hw
  · exact addqq_int_aux hyh hxh ny nx h s t c v w (by rw [add_comm yh xh]; exact hs)
      (by rw [add_comm yl xl]; exact ht) (by rw [add_comm yh xh]; exact hc) hv
      (by rw [add_comm yl xl]; exact hw)

/-- Correctness of `addqq` in terms of signed magnitudes: on finite normalized operands with a
finite result, the final `two_sum_quick` is exact: `hi` is the rounded value of the sum
`v + w` of its two arguments, and `lo` is the rounding error. -/
theorem addqq_spec {x y : ddouble}
    (hxh : IsDouble x.hi) (hxl : IsDouble x.lo) (hyh : IsDouble y.hi) (hyl : IsDouble y.lo)
    (nx : Normalized x) (ny : Normalized y)
    (hz : (addqq x y).hi.isFinite = true) :
    ∃ e : Int, (addqq x y).hi.toInt = rnI e ∧ (addqq x y).lo.isFinite = true ∧
      (addqq x y).lo.toInt = e - rnI e := by
  rw [normalized_iff] at nx ny
  -- the finiteness of every intermediate result follows from that of the result
  have hz' : (Dbl.add (two_sum_quick (two_sum x.hi y.hi).hi
      (Dbl.add (two_sum x.hi y.hi).lo (two_sum x.lo y.lo).hi)).hi
      (Dbl.add (two_sum x.lo y.lo).lo (two_sum_quick (two_sum x.hi y.hi).hi
        (Dbl.add (two_sum x.hi y.hi).lo (two_sum x.lo y.lo).hi)).lo)).isFinite = true := hz
  obtain ⟨fV, fw, _, _⟩ := Dbl.add_of_finite hz'
  have fV' : (Dbl.add (two_sum x.hi y.hi).hi
      (Dbl.add (two_sum x.hi y.hi).lo (two_sum x.lo y.lo).hi)).isFinite = true := fV
  obtain ⟨fS, fc, _, _⟩ := Dbl.add_of_finite fV'
  obtain ⟨fSl, fT, hcI, _⟩ := Dbl.add_of_finite fc
  obtain ⟨fTl, fVl, hwI, _⟩ := Dbl.add_of_finite fw
  have fS' : (Dbl.add x.hi y.hi).isFinite = true := fS
  have fT' : (Dbl.add x.lo y.lo).isFinite = true := fT
  obtain ⟨fxh, fyh, _, _⟩ := Dbl.add_of_finite fS'
  obtain ⟨fxl, fyl, _, _⟩ := Dbl.add_of_finite fT'
  obtain ⟨s1, _, s3⟩ := two_sum_spec hxh hyh fxh fyh fS' (two_sum_lo_finite_inv fSl)
  obtain ⟨t1, _, t3⟩ := two_sum_spec hxl hyl fxl fyl fT' (two_sum_lo_finite_inv fTl)
  obtain ⟨hXh, _⟩ := repI_of_isDouble hxh fxh
  obtain ⟨hYh, _⟩ := repI_of_isDouble hyh fyh
  rw [s3, t1] at hcI
  -- first call of `two_sum_quick`
  have hV := two_sum_quick_spec (a := (two_sum x.hi y.hi).hi)
    (b := Dbl.add (two_sum x.hi y.hi).lo (two_sum x.lo y.lo).hi)
    (Dbl.isDouble_add _ _) (Dbl.isDouble_add _ _) fS fc
  rw [hcI, s1] at hV
  have hdiv := addqq_int hXh hYh nx ny _ _ _ _ _ rfl rfl rfl rfl rfl
  obtain ⟨v1, _, v3⟩ := hV hdiv.1 fV'
  rw [t3, v3] at hwI
  -- second call of `two_sum_quick`
  have hZ := two_sum_quick_spec (a := (two_sum_quick (two_sum x.hi y.hi).hi
      (Dbl.add (two_sum x.hi y.hi).lo (two_sum x.lo y.lo).hi)).hi)
    (b := Dbl.add (two_sum x.lo y.lo).lo (two_sum_quick (two_sum x.hi y.hi).hi
        (Dbl.add (two_sum x.hi y.hi).lo (two_sum x.lo y.lo).hi)).lo)
    (Dbl.isDouble_add _ _) (Dbl.isDouble_add _ _) fV fw
  rw [hwI, v1] at hZ
  obtain ⟨z1, z2, z3⟩ := hZ hdiv.2 hz'
  exact ⟨_, z1, z2, z3⟩

end Xprec

/-! ## Consequences for the result of `addqq` -/

namespace Xprec

theorem nearest_int {x y : Dbl} {i : Int} (h : NearestTo ((i : ℚ) / (scale : ℚ)) x)
    (hy : IsDouble y) (hfy : y.isFinite = true) :
    (x.toInt - i).natAbs ≤ (y.toInt - i).natAbs := by
  have h1 := h y hy hfy
  unfold Dbl.toRat at h1
  rw [← sub_div, ← sub_div, abs_div, abs_div] at h1
  have hp : (0 : ℚ) < |(scale : ℚ)| := abs_pos.mpr (ne_of_gt scale_cast_pos)
  rw [div_le_div_iff_of_pos_right hp] at h1
  apply natAbs_le_iff.mpr
  exact_mod_cast h1

theorem toRat_add4 (a b c d : Dbl) :
    a.toRat + b.toRat + (c.toRat + d.toRat) =
      ((a.toInt + b.toInt + (c.toInt + d.toInt) : Int) : ℚ) / (scale : ℚ) := by
  unfold Dbl.toRat
  push_cast
  ring

/-- The result of `addqq` is normalized, and its high word is the rounded value of the sum of
its two words. -/
theorem addqq_result {x y : ddouble}
    (hxh : IsDouble x.hi) (hxl : IsDouble x.lo) (hyh : IsDouble y.hi) (hyl : IsDouble y.lo)
    (nx : Normalized x) (ny : Normalized y)
    (hz : (addqq x y).hi.isFinite = true) :
    (addqq x y).lo.isFinite = true ∧ Normalized (addqq x y) ∧
    (addqq x y).hi.toInt = rnI ((addqq x y).hi.toInt + (addqq x y).lo.toInt) := by
  obtain ⟨e, z1, z2, z3⟩ := addqq_spec hxh hxl hyh hyl nx ny hz
  have hsum : (addqq x y).hi.toInt + (addqq x y).lo.toInt = e := by
    rw [z1, z3]
    ring
  refine ⟨z2, ?_, ?_⟩
  · rw [normalized_iff, z1, z3, rnI_natAbs]
    exact le_trans (rnI_err_nat_sub e) (pow_mono2 (ulpExp_le_rn _))
  · rw [hsum]
    exact z1

/-- A finite double with the value of the rounded sum of two finite doubles is their IEEE
sum, up to the sign of zero. -/
theorem add_eqZ_of_toInt {a b : Dbl} (ha : a.isFinite = true) (hb : b.isFinite = true)
    (h : a.toInt = rnI (a.toInt + b.toInt)) (ho : a.toInt.natAbs < ovf) :
    EqZ (Dbl.add a b) a := by
  have hf := Dbl.add_finite ha hb (by rw [← h]; exact ho)
  rw [← h] at hf
  cases a with
  | nan => simp [Dbl.isFinite] at ha
  | inf _ => simp [Dbl.isFinite] at ha
  | fin s n =>
    rcases hadd : Dbl.add (Dbl.fin s n) b with _ | _ | ⟨s', n'⟩
    · rw [hadd] at hf; simp [Dbl.isFinite] at hf
    · rw [hadd] at hf; simp [Dbl.isFinite] at hf
    · rw [hadd] at hf
      by_cases h0 : (Dbl.fin s n).toInt = 0
      · right
        have hn : n = 0 := by
          have := Dbl.natAbs_toInt s n
          rw [h0] at this
          simpa using this.symm
        have hn' : n' = 0 := by
          have := Dbl.natAbs_toInt s' n'
          rw [hf.2, h0] at this
          simpa using this.symm
        subst hn hn'
        exact ⟨_, _, rfl, rfl⟩
      · left
        exact eq_of_toInt_ne_zero hf.2 (by rw [hf.2]; exact h0)

end Xprec

/-! ## Relative rounding errors -/

namespace Xprec

/-- The absolute error of `roundRat`, cleared of denominators: at most half an ulp. -/
theorem roundRat_err {n d : Nat} (hd : 0 < d) :
    2 * ((roundRat n d : Int) * d - n).natAbs ≤ d * 2 ^ ulpExp (n / d) := by
  have hD : 0 < d * 2 ^ ulpExp (n / d) := Nat.mul_pos hd (Nat.two_pow_pos _)
  have h1 := Nat.div_add_mod n (d * 2 ^ ulpExp (n / d))
  have h2 := Nat.mod_lt n hD
  unfold roundRat
  simp only
  generalize hQ : n / (d * 2 ^ ulpExp (n / d)) = Q at *
  generalize hr : n % (d * 2 ^ ulpExp (n / d)) = r at *
  generalize hDD : d * 2 ^ ulpExp (n / d) = D at *
  have key : ∀ q : Nat, ((q * 2 ^ ulpExp (n / d) : Nat) : Int) * d = ((D * q : Nat) : Int) := by
    intro q
    rw [← hDD]
    push_cast
    ring
  split_ifs with h
  · rw [key]
    have : D ≤ 2 * r := by
      rcases h with h | h
      · exact le_of_lt h
      · exact le_of_eq h.1.symm
    have e : D * (Q + 1) = D * Q + D := by ring
    rw [e]
    omega
  · rw [key]
    have : 2 * r ≤ D := by
      by_contra hc
      exact h (Or.inl (by omega))
    omega

/-- The relative error of `roundRat` on a quotient in the normal range, cleared of
denominators: at most `2^-53`. -/
theorem roundRat_rel {n d : Nat} (hd : 0 < d) (hn : 2 ^ 52 * d ≤ n) :
    2 ^ 53 * ((roundRat n d : Int) * d - n).natAbs ≤ n := by
  have h1 := roundRat_err (n := n) hd
  have h2 : 2 ^ (52 + ulpExp (n / d)) ≤ n / d := by
    rcases Nat.eq_zero_or_pos (ulpExp (n / d)) with h0 | h0
    · rw [h0]
      exact (Nat.le_div_iff_mul_le hd).mpr hn
    · exact pow_le_of_ulpExp_pos h0
  have h3 : n / d * d ≤ n := Nat.div_mul_le_self n d
  have h4 : 2 ^ (52 + ulpExp (n / d)) * d ≤ n := le_trans (Nat.mul_le_mul_right d h2) h3
  have e : 2 ^ (52 + ulpExp (n / d)) * d = 2 ^ 52 * (d * 2 ^ ulpExp (n / d)) := by ring
  rw [e] at h4
  generalize ((roundRat n d : Int) * d - n).natAbs = a at *
  generalize d * 2 ^ ulpExp (n / d) = D at *
  omega

theorem roundRat_zero (d : Nat) : roundRat 0 d = 0 := by
  unfold roundRat
  simp

/-- The relative error of a rounded non-negative rational `N / d` (in units of `2^-1074`),
delivered with sign `σ`: if the quotient is zero or in the normal range and its rounded value
does not overflow, the result differs from the exact value by at most `2^-53` times that
value. -/
theorem round_toRat_err (σ : Bool) {N d : Nat} (hd : 0 < d) (hN : N = 0 ∨ 2 ^ 52 * d ≤ N)
    (hf : roundRat N d < ovf) (q : ℚ)
    (hq : q = ((if σ then -(N : Int) else (N : Int) : Int) : ℚ) / ((d : ℚ) * (scale : ℚ))) :
    |(mk σ (roundRat N d)).toRat - q| ≤ 1 / 2 ^ 53 * |q| := by
  rw [toInt_mk hf]
  have hsc := scale_cast_pos
  have hdq : (0 : ℚ) < (d : ℚ) := by exact_mod_cast hd
  rcases hN with h0 | hn
  · subst h0
    rw [hq, roundRat_zero]
    cases σ <;> simp [Dbl.toRat, Dbl.toInt]
  · have h1 := roundRat_rel hd hn
    have h2 : (2 : ℚ) ^ 53 * |((roundRat N d : ℚ) * d - N)| ≤ N := by
      have : ((2 ^ 53 * ((roundRat N d : Int) * d - N).natAbs : Nat) : ℚ) ≤ ((N : Nat) : ℚ) := by
        exact_mod_cast h1
      push_cast at this
      rw [Nat.cast_natAbs] at this
      push_cast at this
      exact this
    have e1 : (Dbl.fin σ (roundRat N d)).toRat - q =
        (if σ then -1 else 1) * (((roundRat N d : ℚ) * d - N) / ((d : ℚ) * (scale : ℚ))) := by
      rw [hq]
      unfold Dbl.toRat Dbl.toInt
      cases σ
      · simp only [Bool.false_eq_true, if_false]
        push_cast
        field_simp
        ring
      · simp only [if_true]
        push_cast
        field_simp
        ring
    have e2 : |q| = (N : ℚ) / ((d : ℚ) * (scale : ℚ)) := by
      rw [hq]
      cases σ
      · simp only [Bool.false_eq_true, if_false]
        push_cast
        rw [abs_of_nonneg (by positivity)]
      · simp only [if_true]
        push_cast
        rw [neg_div, abs_neg, abs_of_nonneg (by positivity)]
    rw [e1, e2, abs_mul, abs_div]
    have e3 : |(if σ then (-1 : ℚ) else 1)| = 1 := by
      cases σ <;> simp
    rw [e3, one_mul, abs_of_pos (mul_pos hdq hsc)]
    rw [div_le_iff₀ (mul_pos hdq hsc)]
    have e4 : 1 / 2 ^ 53 * ((N : ℚ) / ((d : ℚ) * (scale : ℚ))) * ((d : ℚ) * (scale : ℚ))
        = (N : ℚ) / 2 ^ 53 := by
      field_simp
      ring
    rw [e4, le_div_iff₀ (by positivity)]
    linarith

end Xprec

/-! ## Relative errors of the operations -/

namespace Xprec

theorem not_tiny {num : Int} {den : Nat} (h : ¬ Tiny num den) :
    num.natAbs = 0 ∨ 2 ^ 52 * den ≤ num.natAbs := by
  unfold Tiny at h
  by_cases h0 : num = 0
  · left
    rw [h0]
    rfl
  · right
    by_contra hc
    exact h ⟨h0, by omega⟩

theorem mk_finite {σ : Bool} {n : Nat} (h : (mk σ n).isFinite = true) : n < ovf := by
  by_contra hc
  unfold mk at h
  rw [if_pos (by omega)] at h
  simp [Dbl.isFinite] at h

theorem natAbs_signed (σ : Bool) (N : Nat) :
    (if σ then -(N : Int) else (N : Int)).natAbs = N := by
  cases σ <;> simp

theorem signed_natAbs (i : Int) :
    (if decide (i < 0) then -(i.natAbs : Int) else (i.natAbs : Int)) = i := by
  by_cases h : i < 0
  · simp only [h, decide_True, if_true]
    omega
  · simp only [h, decide_False, Bool.false_eq_true, if_false]
    omega

theorem toInt_mul_fin (s t : Bool) (n m : Nat) :
    (Dbl.fin s n).toInt * (Dbl.fin t m).toInt =
      if xor s t then -((n * m : Nat) : Int) else ((n * m : Nat) : Int) := by
  cases s <;> cases t <;> simp [Dbl.toInt]

/-- Relative error of a multiplication without overflow and underflow. -/
theorem mul_err {a b : Dbl} (h : Dbl.mulOK a b) :
    |(Dbl.mul a b).toRat - a.toRat * b.toRat| ≤ 1 / 2 ^ 53 * |a.toRat * b.toRat| := by
  obtain ⟨hf, ht⟩ := h
  cases a with
  | nan => simp [Dbl.mul, Dbl.isFinite] at hf
  | inf s =>
    cases b with
    | nan => simp [Dbl.mul, Dbl.isFinite] at hf
    | inf t => simp [Dbl.mul, Dbl.isFinite] at hf
    | fin t m =>
      by_cases hm : m = 0 <;> simp [Dbl.mul, hm, Dbl.isFinite] at hf
  | fin s n =>
    cases b with
    | nan => simp [Dbl.mul, Dbl.isFinite] at hf
    | inf t =>
      by_cases hn : n = 0 <;> simp [Dbl.mul, hn, Dbl.isFinite] at hf
    | fin t m =>
      rw [Dbl.mul_fin] at hf ⊢
      rw [toInt_mul_fin] at ht
      have hN := not_tiny ht
      rw [natAbs_signed] at hN
      exact round_toRat_err (xor s t) scale_pos hN (mk_finite hf) _ (toRat_mul_fin s t n m)

theorem rnI_rel (i : Int) : 2 ^ 53 * (rnI i - i).natAbs ≤ i.natAbs := by
  rcases Nat.eq_zero_or_pos (ulpExp i.natAbs) with h0 | h0
  · have hr : RepI i := by
      unfold RepI Rep
      rw [h0]
      simp
    rw [rnI_self hr]
    simp
  · have h1 := rnI_err_nat i
    have h2 := pow_le_of_ulpExp_pos h0
    have e : 2 ^ (52 + ulpExp i.natAbs) = 2 ^ 52 * 2 ^ ulpExp i.natAbs := Nat.pow_add 2 52 _
    rw [e] at h2
    generalize (rnI i - i).natAbs = x at *
    generalize 2 ^ ulpExp i.natAbs = p at *
    generalize i.natAbs = y at *
    omega

/-- Relative error of a signed rounding, as a statement on rationals. -/
theorem rnI_rel_rat (i : Int) (c : ℚ) (hc : 0 < c) :
    |((rnI i : Int) : ℚ) / c - (i : ℚ) / c| ≤ 1 / 2 ^ 53 * |(i : ℚ) / c| := by
  have h := rnI_rel i
  have h2 : (2 : ℚ) ^ 53 * |((rnI i : Int) : ℚ) - (i : ℚ)| ≤ |(i : ℚ)| := by
    have : ((2 ^ 53 * (rnI i - i).natAbs : Nat) : ℚ) ≤ ((i.natAbs : Nat) : ℚ) := by
      exact_mod_cast h
    push_cast at this
    rw [Nat.cast_natAbs, Nat.cast_natAbs] at this
    push_cast at this
    exact this
  rw [← sub_div, abs_div, abs_div, abs_of_pos hc]
  rw [show 1 / 2 ^ 53 * (|(i : ℚ)| / c) = (|(i : ℚ)| / 2 ^ 53) / c by ring]
  rw [div_le_div_iff_of_pos_right hc, le_div_iff₀ (by positivity)]
  linarith

/-- Relative error of an addition without overflow (an addition cannot underflow). -/
theorem add_err {a b : Dbl} (h : (Dbl.add a b).isFinite = true) :
    |(Dbl.add a b).toRat - (a.toRat + b.toRat)| ≤ 1 / 2 ^ 53 * |a.toRat + b.toRat| := by
  obtain ⟨_, _, h1, _⟩ := Dbl.add_of_finite h
  unfold Dbl.toRat
  rw [h1, ← add_div]
  have := rnI_rel_rat (a.toInt + b.toInt) (scale : ℚ) scale_cast_pos
  push_cast at this
  exact this

theorem Dbl.toRat_neg (x : Dbl) : (Dbl.neg x).toRat = -x.toRat := by
  unfold Dbl.toRat
  rw [Dbl.toInt_neg]
  push_cast
  ring

/-- Relative error of a subtraction without overflow. -/
theorem sub_err {a b : Dbl} (h : (Dbl.sub a b).isFinite = true) :
    |(Dbl.sub a b).toRat - (a.toRat - b.toRat)| ≤ 1 / 2 ^ 53 * |a.toRat - b.toRat| := by
  have := add_err (a := a) (b := Dbl.neg b) h
  rw [Dbl.toRat_neg, ← sub_eq_add_neg] at this
  exact this

/-- A finite fused multiply-add has finite operands. -/
theorem fma_of_finite {a b c : Dbl} (h : (Dbl.fma a b c).isFinite = true) :
    ∃ s n t m u l, a = Dbl.fin s n ∧ b = Dbl.fin t m ∧ c = Dbl.fin u l := by
  cases a with
  | nan => simp [Dbl.fma, Dbl.isFinite] at h
  | inf s =>
    cases b with
    | nan => simp [Dbl.fma, Dbl.isFinite] at h
    | inf t =>
      cases c with
      | nan => simp [Dbl.fma, Dbl.isFinite] at h
      | inf u => by_cases hc : Dbl.inf u = Dbl.inf (!(xor s t)) <;>
          simp [Dbl.fma, hc, Dbl.isFinite] at h
      | fin u l => simp [Dbl.fma, Dbl.isFinite] at h
    | fin t m =>
      cases c with
      | nan => simp [Dbl.fma, Dbl.isFinite] at h
      | inf u => by_cases hm : m = 0 <;>
          by_cases hc : Dbl.inf u = Dbl.inf (!(xor s t)) <;>
          simp [Dbl.fma, hc, hm, Dbl.isFinite] at h
      | fin u l => by_cases hm : m = 0 <;> simp [Dbl.fma, hm, Dbl.isFinite] at h
  | fin s n =>
    cases b with
    | nan => simp [Dbl.fma, Dbl.isFinite] at h
    | inf t =>
      cases c with
      | nan => simp [Dbl.fma, Dbl.isFinite] at h
      | inf u => by_cases hn : n = 0 <;>
          by_cases hc : Dbl.inf u = Dbl.inf (!(xor s t)) <;>
          simp [Dbl.fma, hc, hn, Dbl.isFinite] at h
      | fin u l => by_cases hn : n = 0 <;> simp [Dbl.fma, hn, Dbl.isFinite] at h
    | fin t m =>
      cases c with
      | nan => simp [Dbl.fma, Dbl.isFinite] at h
      | inf u => simp [Dbl.fma, Dbl.isFinite] at h
      | fin u l => exact ⟨_, _, _, _, _, _, rfl, rfl, rfl⟩

/-- Relative error of a fused multiply-add without overflow and underflow. -/
theorem fma_err {a b c : Dbl} (h : Dbl.fmaOK a b c) :
    |(Dbl.fma a b c).toRat - (a.toRat * b.toRat + c.toRat)| ≤
      1 / 2 ^ 53 * |a.toRat * b.toRat + c.toRat| := by
  obtain ⟨hf, ht⟩ := h
  have hsc := scale_cast_pos
  obtain ⟨s, n, t, m, u, l, rfl, rfl, rfl⟩ := fma_of_finite hf
  rw [toInt_mul_fin] at ht
  rw [Dbl.fma_fin] at hf ⊢
  rw [toRat_mul_fin]
  generalize (if xor s t then -((n * m : Nat) : Int) else ((n * m : Nat) : Int)) = P at *
  have hq : (P : ℚ) / ((scale : ℚ) * (scale : ℚ)) + (Dbl.fin u l).toRat =
      (((P + (Dbl.fin u l).toInt * (scale : Int) : Int)) : ℚ) / ((scale : ℚ) * (scale : ℚ)) := by
    unfold Dbl.toRat
    push_cast
    field_simp
    ring
  generalize hi : P + (Dbl.fin u l).toInt * (scale : Int) = i at *
  rw [hq]
  by_cases h0 : i = 0
  · rw [if_pos h0, h0]
    simp [Dbl.toRat, toInt_fin_zero]
  · rw [if_neg h0] at hf ⊢
    have hN := not_tiny ht
    exact round_toRat_err (decide (i < 0)) scale_pos hN (mk_finite hf) _
      (by rw [signed_natAbs])

theorem toRat_div_fin (s t : Bool) (n m : Nat) (hm : m ≠ 0) :
    (Dbl.fin s n).toRat / (Dbl.fin t m).toRat =
      (((if xor s t then -((n * scale : Nat) : Int) else ((n * scale : Nat) : Int)) : Int) : ℚ) /
        ((m : ℚ) * (scale : ℚ)) := by
  have hsc : (scale : ℚ) ≠ 0 := ne_of_gt scale_cast_pos
  have hmq : (m : ℚ) ≠ 0 := by exact_mod_cast hm
  have key : ∀ x y : ℚ, y ≠ 0 → x / (scale : ℚ) / (y / (scale : ℚ)) =
      x * (scale : ℚ) / (y * (scale : ℚ)) := by
    intro x y hy
    field_simp
    ring
  unfold Dbl.toRat Dbl.toInt
  cases s <;> cases t
  · simp only [Bool.false_eq_true, if_false, Bool.xor_false]
    push_cast
    exact key _ _ hmq
  · simp only [Bool.false_eq_true, if_false, if_true, Bool.xor_true, Bool.not_false]
    push_cast
    rw [key _ _ (neg_ne_zero.mpr hmq)]
    field_simp
  · simp only [Bool.false_eq_true, if_false, if_true, Bool.xor_false]
    push_cast
    rw [key _ _ hmq]
    field_simp
  · simp only [if_true, Bool.xor_true, Bool.not_true, Bool.false_eq_true, if_false]
    push_cast
    rw [key _ _ (neg_ne_zero.mpr hmq)]
    field_simp

/-- Relative error of a division without overflow and underflow. -/
theorem div_err {a b : Dbl} (h : Dbl.divOK a b) :
    |(Dbl.div a b).toRat - a.toRat / b.toRat| ≤ 1 / 2 ^ 53 * |a.toRat / b.toRat| := by
  obtain ⟨hf, hb0, ht⟩ := h
  cases b with
  | nan => simp [Dbl.toInt] at hb0
  | inf t => simp [Dbl.toInt] at hb0
  | fin t m =>
    have hm : m ≠ 0 := by
      rintro rfl
      exact hb0 (toInt_fin_zero t)
    cases a with
    | nan => simp [Dbl.div, Dbl.isFinite] at hf
    | inf s => simp [Dbl.div, Dbl.isFinite] at hf
    | fin s n =>
      unfold Dbl.div at hf ⊢
      simp only [if_neg hm] at hf ⊢
      rw [Dbl.natAbs_toInt] at ht
      have hN := not_tiny ht
      rw [Int.natAbs_mul, Dbl.natAbs_toInt, Int.natAbs_ofNat] at hN
      exact round_toRat_err (xor s t) (Nat.pos_of_ne_zero hm) hN (mk_finite hf) _
        (toRat_div_fin s t n m hm)

end Xprec

/-! ## Error analysis of `mulqq` and `divqq` over the rationals

The lemmas of this section are about rational numbers that satisfy the relative error bounds
of the single operations; `u = 2^-53` is written out as a numeral. -/

namespace Xprec

/-- A relative error bound turned into an absolute one. -/
theorem abs_err_le {e q A c : ℚ} (h : |e| ≤ 1 / 2 ^ 53 * |q|) (hq : |q| ≤ c * A) :
    |e| ≤ 1 / 2 ^ 53 * (c * A) :=
  le_trans h (mul_le_mul_of_nonneg_left hq (by norm_num))

/-- The operations of `mulqq`, with `M = xh * yh`, `B = xh * yl`, `C = xl * yh`,
`D = xl * yl`: the second summand `v` passed to `two_sum_quick` is at most `ch` in magnitude,
and `ch + v` approximates the exact product. -/
theorem mulqq_abs {M B C D ch cl t1 t2 v : ℚ}
    (hB : |B| ≤ 1 / 2 ^ 53 * |M|) (hC : |C| ≤ 1 / 2 ^ 53 * |M|) (hD : |D| ≤ 1 / 2 ^ 53 * |C|)
    (h1 : |ch - M| ≤ 1 / 2 ^ 53 * |M|)
    (h2 : |cl - (M + -ch)| ≤ 1 / 2 ^ 53 * |M + -ch|)
    (h3 : |t1 - B| ≤ 1 / 2 ^ 53 * |B|)
    (h4 : |t2 - (C + t1)| ≤ 1 / 2 ^ 53 * |C + t1|)
    (h5 : |v - (cl + t2)| ≤ 1 / 2 ^ 53 * |cl + t2|) :
    |v| ≤ |ch| ∧ |ch + v - (M + B + C + D)| ≤ 9 / 2 ^ 106 * |M| ∧
      |ch + v| ≤ (1 + 5 / 2 ^ 53) * |M| ∧ (1 - 2 / 2 ^ 53) * |M| ≤ |ch| := by
  have hA : 0 ≤ |M| := abs_nonneg M
  have hch0 := abs_sub_abs_le_abs_sub M ch
  rw [abs_sub_comm M ch] at hch0
  generalize hAM : |M| = A at *
  have bM := abs_le.mp (le_of_eq hAM)
  have b1 := abs_le.mp h1
  have q2 : |M + -ch| ≤ 1 / 2 ^ 53 * A := by
    rw [abs_le]; constructor <;> linarith only [b1.1, b1.2]
  have b2 := abs_le.mp q2
  have e2 := abs_le.mp (abs_err_le h2 q2)
  have bB := abs_le.mp hB
  have e3 := abs_le.mp (abs_err_le h3 (by simpa using hB : |B| ≤ 1 / 2 ^ 53 * A))
  have bC := abs_le.mp hC
  have q4 : |C + t1| ≤ (201 / 100) / 2 ^ 53 * A := by
    rw [abs_le]; constructor <;> linarith only [bC.1, bC.2, bB.1, bB.2, e3.1, e3.2, hA]
  have b4 := abs_le.mp q4
  have e4 := abs_le.mp (abs_err_le h4 q4)
  have q5 : |cl + t2| ≤ (302 / 100) / 2 ^ 53 * A := by
    rw [abs_le]; constructor <;>
      linarith only [b2.1, b2.2, e2.1, e2.2, b4.1, b4.2, e4.1, e4.2, hA]
  have b5 := abs_le.mp q5
  have e5 := abs_le.mp (abs_err_le h5 q5)
  have eD := abs_le.mp (abs_err_le hD (by simpa using hC : |C| ≤ 1 / 2 ^ 53 * A))
  have hv : |v| ≤ 4 / 2 ^ 53 * A := by
    rw [abs_le]; constructor <;> linarith only [b5.1, b5.2, e5.1, e5.2, hA]
  have bv := abs_le.mp hv
  have hch : (1 - 2 / 2 ^ 53) * A ≤ |ch| := by linarith only [hch0, h1, hA]
  refine ⟨by linarith only [hv, hch, hA], ?_, ?_, hch⟩
  · rw [abs_le]; constructor <;>
      linarith only [e2.1, e2.2, e3.1, e3.2, e4.1, e4.2, e5.1, e5.2, eD.1, eD.2, hA]
  · rw [abs_le]; constructor <;> linarith only [bv.1, bv.2, bM.1, bM.2, b1.1, b1.2, hA]

/-- The operations of `mulqd y th` inside `divqq`, with `a = yh * th` and `b = yl * th`: the
second summand `w` passed to `two_sum_quick` is at most `kh` in magnitude. -/
theorem mulqd_abs {ph a b kh kl w : ℚ}
    (ha : |a - ph| ≤ 1 / 2 ^ 53 * |ph|) (hb : |b| ≤ 1 / 2 ^ 53 * |a|)
    (g2 : |kh - a| ≤ 1 / 2 ^ 53 * |a|)
    (g3 : |kl - (a + -kh)| ≤ 1 / 2 ^ 53 * |a + -kh|)
    (g4 : |w - (b + kl)| ≤ 1 / 2 ^ 53 * |b + kl|) :
    |w| ≤ |kh| := by
  have hP : 0 ≤ |ph| := abs_nonneg ph
  have hPa := abs_sub_abs_le_abs_sub a ph
  have hPa2 := abs_sub_abs_le_abs_sub ph a
  rw [abs_sub_comm ph a] at hPa2
  have hak := abs_sub_abs_le_abs_sub a kh
  rw [abs_sub_comm a kh] at hak
  generalize |ph| = P at *
  have qa : |a| ≤ (1 + 1 / 2 ^ 53) * P := by linarith only [hPa, ha]
  have e2 := abs_le.mp (abs_err_le g2 qa)
  have q3 : |a + -kh| ≤ 2 / 2 ^ 53 * P := by
    rw [abs_le]; constructor <;> linarith only [e2.1, e2.2, hP]
  have b3 := abs_le.mp q3
  have e3 := abs_le.mp (abs_err_le g3 q3)
  have bb := abs_le.mp (abs_err_le hb qa)
  have q4 : |b + kl| ≤ 4 / 2 ^ 53 * P := by
    rw [abs_le]; constructor <;> linarith only [b3.1, b3.2, e3.1, e3.2, bb.1, bb.2, hP]
  have b4 := abs_le.mp q4
  have e4 := abs_le.mp (abs_err_le g4 q4)
  have hw : |w| ≤ 5 / 2 ^ 53 * P := by
    rw [abs_le]; constructor <;> linarith only [b4.1, b4.2, e4.1, e4.2, hP]
  linarith only [hw, hak, hPa2, ha, g2, qa, hP]

/-- The operations of `divqq`, with `a = yh * th`, `b = yl * th`, `g = yh * tl` and
`h = yl * tl`: the correction `tl` is at most `th` in magnitude (after scaling by `yh`), and
the quotient times the divisor approximates the dividend `ph + pl`. -/
theorem divqq_abs {ph pl a b kh kl w rh rl pi dl d g h : ℚ}
    (hp : |pl| ≤ 1 / 2 ^ 53 * |ph + pl|)
    (ha : |a - ph| ≤ 1 / 2 ^ 53 * |ph|) (hb : |b| ≤ 1 / 2 ^ 53 * |a|)
    (g2 : |kh - a| ≤ 1 / 2 ^ 53 * |a|)
    (g3 : |kl - (a + -kh)| ≤ 1 / 2 ^ 53 * |a + -kh|)
    (g4 : |w - (b + kl)| ≤ 1 / 2 ^ 53 * |b + kl|)
    (g5 : rh + rl = kh + w) (g5e : |rh - (kh + w)| ≤ 1 / 2 ^ 53 * |kh + w|)
    (g6 : |pi - (ph - rh)| ≤ 1 / 2 ^ 53 * |ph - rh|)
    (g7 : |dl - (pl - rl)| ≤ 1 / 2 ^ 53 * |pl - rl|)
    (g8 : |d - (pi + dl)| ≤ 1 / 2 ^ 53 * |pi + dl|)
    (g9 : |g - d| ≤ 1 / 2 ^ 53 * |d|)
    (g10 : |h| ≤ 1 / 2 ^ 53 * |g|) :
    |g| ≤ |a| ∧ |a + b + g + h - (ph + pl)| ≤ 18 / 2 ^ 106 * |ph| := by
  have hP : 0 ≤ |ph| := abs_nonneg ph
  have hPa := abs_sub_abs_le_abs_sub a ph
  have hPa2 := abs_sub_abs_le_abs_sub ph a
  rw [abs_sub_comm ph a] at hPa2
  have hpp := abs_add ph pl
  have hpl0 : 0 ≤ |pl| := abs_nonneg pl
  generalize hPP : |ph| = P at *
  have bph := abs_le.mp (le_of_eq hPP)
  have qa : |a| ≤ (1 + 1 / 2 ^ 53) * P := by linarith only [hPa, ha]
  have ea := abs_le.mp ha
  have qp : |pl| ≤ (1001 / 1000) / 2 ^ 53 * P := by linarith only [hp, hpp, hpl0, hP]
  have bp := abs_le.mp qp
  have e2 := abs_le.mp (abs_err_le g2 qa)
  have q3 : |a + -kh| ≤ (1001 / 1000) / 2 ^ 53 * P := by
    rw [abs_le]; constructor <;> linarith only [e2.1, e2.2, hP]
  have b3 := abs_le.mp q3
  have e3 := abs_le.mp (abs_err_le g3 q3)
  have bb := abs_le.mp (abs_err_le hb qa)
  have q4 : |b + kl| ≤ (201 / 100) / 2 ^ 53 * P := by
    rw [abs_le]; constructor <;> linarith only [b3.1, b3.2, e3.1, e3.2, bb.1, bb.2, hP]
  have e4 := abs_le.mp (abs_err_le g4 q4)
  have q5 : |kh + w| ≤ (1001 / 1000) * P := by
    rw [abs_le]; constructor <;>
      linarith only [bph.1, bph.2, ea.1, ea.2, bb.1, bb.2, e3.1, e3.2, e4.1, e4.2, hP]
  have e5 := abs_le.mp (abs_err_le g5e q5)
  have q6 : |ph - rh| ≤ (301 / 100) / 2 ^ 53 * P := by
    rw [abs_le]; constructor <;>
      linarith only [ea.1, ea.2, bb.1, bb.2, e3.1, e3.2, e4.1, e4.2, e5.1, e5.2, hP]
  have e6 := abs_le.mp (abs_err_le g6 q6)
  have q7 : |pl - rl| ≤ (201 / 100) / 2 ^ 53 * P := by
    rw [abs_le]; constructor <;> linarith only [bp.1, bp.2, g5, e5.1, e5.2, hP]
  have e7 := abs_le.mp (abs_err_le g7 q7)
  have q8 : |pi + dl| ≤ (301 / 100) / 2 ^ 53 * P := by
    rw [abs_le]; constructor <;>
      linarith only [g5, ea.1, ea.2, bp.1, bp.2, bb.1, bb.2, e3.1, e3.2, e4.1, e4.2,
        e6.1, e6.2, e7.1, e7.2, hP]
  have b8 := abs_le.mp q8
  have e8 := abs_le.mp (abs_err_le g8 q8)
  have q9 : |d| ≤ (302 / 100) / 2 ^ 53 * P := by
    rw [abs_le]; constructor <;> linarith only [b8.1, b8.2, e8.1, e8.2, hP]
  have b9 := abs_le.mp q9
  have e9 := abs_le.mp (abs_err_le g9 q9)
  have q10 : |g| ≤ (303 / 100) / 2 ^ 53 * P := by
    rw [abs_le]; constructor <;> linarith only [b9.1, b9.2, e9.1, e9.2, hP]
  have e10 := abs_le.mp (abs_err_le g10 q10)
  refine ⟨by linarith only [q10, hPa2, ha, hP], ?_⟩
  rw [abs_le]; constructor <;>
    linarith only [g5, e3.1, e3.2, e4.1, e4.2, e6.1, e6.2, e7.1, e7.2, e8.1, e8.2,
      e9.1, e9.2, e10.1, e10.2, hP]

/-- Scaling a relative error bound of a quotient `p / y` by the divisor. -/
theorem mul_div_err {t p y : ℚ} (hy : y ≠ 0) (h : |t - p / y| ≤ 1 / 2 ^ 53 * |p / y|) :
    |y * t - p| ≤ 1 / 2 ^ 53 * |p| := by
  have hy0 : 0 < |y| := abs_pos.mpr hy
  have e1 : y * t - p = y * (t - p / y) := by
    field_simp
    ring
  have e2 : |p| = |y| * |p / y| := by
    rw [← abs_mul]
    congr 1
    field_simp
  rw [e1, abs_mul, e2]
  have := mul_le_mul_of_nonneg_left h (le_of_lt hy0)
  linarith

/-- A bound on a low word scaled by a common factor. -/
theorem mul_lo_le {l h t : ℚ} (hl : |l| ≤ 1 / 2 ^ 53 * |h|) :
    |l * t| ≤ 1 / 2 ^ 53 * |h * t| := by
  rw [abs_mul, abs_mul]
  have := mul_le_mul_of_nonneg_right hl (abs_nonneg t)
  linarith

/-- The round trip: from the error of the product and the error of the quotient to the
error of `divqq (mulqq x y) y` against `x`. -/
theorem roundtrip_abs {X Y R p ph M B C D : ℚ} (hXY : X * Y = M + B + C + D)
    (hB : |B| ≤ 1 / 2 ^ 53 * |M|) (hC : |C| ≤ 1 / 2 ^ 53 * |M|) (hD : |D| ≤ 1 / 2 ^ 53 * |C|)
    (h1 : |p - (M + B + C + D)| ≤ 9 / 2 ^ 106 * |M|)
    (h2 : |p| ≤ (1 + 5 / 2 ^ 53) * |M|)
    (h3 : |ph - p| ≤ 1 / 2 ^ 53 * |p|)
    (h4 : |R * Y - p| ≤ 18 / 2 ^ 106 * |ph|) (hY : Y ≠ 0) :
    |R - X| ≤ 1 / 2 ^ 101 * |X| := by
  have hY0 : 0 < |Y| := abs_pos.mpr hY
  have hM : 0 ≤ |M| := abs_nonneg M
  have t1 := abs_sub_abs_le_abs_sub ph p
  have t2 : |M| ≤ |X * Y| + |B| + |C| + |D| := by
    have e : M = X * Y - B - C - D := by rw [hXY]; ring
    calc |M| = |X * Y - B - C - D| := by rw [← e]
      _ ≤ |X * Y - B - C| + |D| := abs_sub _ _
      _ ≤ |X * Y - B| + |C| + |D| := by linarith [abs_sub (X * Y - B) C]
      _ ≤ |X * Y| + |B| + |C| + |D| := by linarith [abs_sub (X * Y) B]
  have t3 : |R * Y - X * Y| ≤ |R * Y - p| + |p - (M + B + C + D)| := by
    rw [hXY]
    have := abs_add (R * Y - p) (p - (M + B + C + D))
    rw [show R * Y - p + (p - (M + B + C + D)) = R * Y - (M + B + C + D) by ring] at this
    exact this
  have hC0 : 0 ≤ |C| := abs_nonneg C
  have key : |R * Y - X * Y| ≤ 1 / 2 ^ 101 * |X * Y| := by
    generalize |R * Y - X * Y| = E at *
    generalize |X * Y| = Z at *
    generalize |M| = A at *
    generalize |ph| = P at *
    generalize |p| = Q at *
    generalize |B| = b at *
    generalize |C| = c at *
    generalize |D| = d at *
    generalize |R * Y - p| = e4 at *
    generalize |p - (M + B + C + D)| = e1 at *
    generalize |ph - p| = e3 at *
    linarith only [hB, hC, hD, h1, h2, h3, h4, hM, t1, t2, t3, hC0]
  rw [← sub_mul, abs_mul, abs_mul, ← mul_assoc] at key
  exact le_of_mul_le_mul_right key hY0

end Xprec

/-! ## The operations return well-formed doubles -/

namespace Xprec

theorem roundRat_rep {n d : Nat} (hd : 0 < d) : Rep (roundRat n d) := by
  have h1 := ulpExp_lt (n / d)
  have hD : 0 < d * 2 ^ ulpExp (n / d) := Nat.mul_pos hd (Nat.two_pow_pos _)
  have hQ : n / (d * 2 ^ ulpExp (n / d)) < 2 ^ 53 := by
    rw [← Nat.div_div_eq_div_mul]
    apply (Nat.div_lt_iff_lt_mul (Nat.two_pow_pos _)).mpr
    rw [← Nat.pow_add]
    exact h1
  unfold roundRat
  simp only
  generalize n / (d * 2 ^ ulpExp (n / d)) = Q at *
  have e : 2 ^ (53 + ulpExp (n / d)) = 2 ^ 53 * 2 ^ ulpExp (n / d) := Nat.pow_add 2 53 _
  refine rep_of_dvd_le (k := ulpExp (n / d)) (Dvd.intro_left _ rfl) ?_
  rw [e]
  apply Nat.mul_le_mul_right
  split_ifs <;> omega

theorem isDouble_mk (σ : Bool) {n : Nat} (h : Rep n) : IsDouble (mk σ n) := by
  unfold mk
  split_ifs with h1
  · trivial
  · exact ⟨h, by omega⟩

theorem Dbl.isDouble_mul (x y : Dbl) : IsDouble (Dbl.mul x y) := by
  cases x with
  | nan => cases y <;> trivial
  | inf s =>
    cases y with
    | nan => trivial
    | inf t => trivial
    | fin t m => by_cases hm : m = 0 <;> simp [Dbl.mul, hm, IsDouble]
  | fin s n =>
    cases y with
    | nan => trivial
    | inf t => by_cases hn : n = 0 <;> simp [Dbl.mul, hn, IsDouble]
    | fin t m =>
      rw [Dbl.mul_fin]
      exact isDouble_mk _ (roundRat_rep scale_pos)

theorem Dbl.isDouble_div (x y : Dbl) : IsDouble (Dbl.div x y) := by
  cases x with
  | nan => cases y <;> trivial
  | inf s => cases y <;> trivial
  | fin s n =>
    cases y with
    | nan => trivial
    | inf t => exact ⟨rep_zero, ovf_pos⟩
    | fin t m =>
      unfold Dbl.div
      by_cases hm : m = 0
      · by_cases hn : n = 0 <;> simp [hm, hn, IsDouble]
      · simp only [if_neg hm]
        exact isDouble_mk _ (roundRat_rep (Nat.pos_of_ne_zero hm))

/-- A finite fused multiply-add is a well-formed double. -/
theorem Dbl.isDouble_fma {a b c : Dbl} (h : (Dbl.fma a b c).isFinite = true) :
    IsDouble (Dbl.fma a b c) := by
  obtain ⟨s, n, t, m, u, l, rfl, rfl, rfl⟩ := fma_of_finite h
  rw [Dbl.fma_fin]
  generalize (if xor s t then -((n * m : Nat) : Int) else ((n * m : Nat) : Int)) = P
  by_cases h0 : P + (Dbl.fin u l).toInt * (scale : Int) = 0
  · rw [if_pos h0]
    exact ⟨rep_zero, ovf_pos⟩
  · rw [if_neg h0]
    exact isDouble_mk _ (roundRat_rep scale_pos)

/-- The magnitude of the real number of a double. -/
theorem abs_toRat (x : Dbl) : |x.toRat| = (x.toInt.natAbs : ℚ) / (scale : ℚ) := by
  unfold Dbl.toRat
  rw [abs_div, abs_of_pos scale_cast_pos, Nat.cast_natAbs, Int.cast_abs]

/-- The low word of a normalized double-double is at most `2^-53` times the high word in
magnitude. -/
theorem lo_le_of_normalized {x : ddouble} (h : Normalized x) :
    |x.lo.toRat| ≤ 1 / 2 ^ 53 * |x.hi.toRat| := by
  rw [normalized_iff] at h
  rw [abs_toRat, abs_toRat]
  have hsc := scale_cast_pos
  have key : 2 ^ 53 * x.lo.toInt.natAbs ≤ x.hi.toInt.natAbs := by
    rcases Nat.eq_zero_or_pos (ulpExp x.hi.toInt.natAbs) with h0 | h0
    · rw [h0] at h
      have : x.lo.toInt.natAbs = 0 := by omega
      rw [this]
      omega
    · have h2 := pow_le_of_ulpExp_pos h0
      have e : 2 ^ (52 + ulpExp x.hi.toInt.natAbs) = 2 ^ 52 * 2 ^ ulpExp x.hi.toInt.natAbs :=
        Nat.pow_add 2 52 _
      rw [e] at h2
      generalize 2 ^ ulpExp x.hi.toInt.natAbs = p at *
      omega
  have keyq : (2 : ℚ) ^ 53 * (x.lo.toInt.natAbs : ℚ) ≤ (x.hi.toInt.natAbs : ℚ) := by
    exact_mod_cast key
  rw [show 1 / 2 ^ 53 * ((x.hi.toInt.natAbs : ℚ) / (scale : ℚ)) =
    ((x.hi.toInt.natAbs : ℚ) / 2 ^ 53) / (scale : ℚ) by ring]
  rw [div_le_div_iff_of_pos_right hsc, le_div_iff₀ (by positivity)]
  linarith

/-- Fast2Sum on rationals: when the second operand is at most the first in magnitude and the
sum does not overflow, `two_sum_quick` returns the rounded sum and its exact error. -/
theorem two_sum_quick_real {a b : Dbl} (ha : IsDouble a) (hb : IsDouble b)
    (hs : (Dbl.add a b).isFinite = true) (hab : |b.toRat| ≤ |a.toRat|) :
    (two_sum_quick a b).hi = Dbl.add a b ∧ (two_sum_quick a b).lo.isFinite = true ∧
      (two_sum_quick a b).hi.toRat + (two_sum_quick a b).lo.toRat = a.toRat + b.toRat := by
  obtain ⟨hfa, hfb, hsum, _⟩ := Dbl.add_of_finite hs
  have hle : b.toInt.natAbs ≤ a.toInt.natAbs := natAbs_le_iff.mpr (toRat_abs_le.mp hab)
  have hd := RepI.dvd_of_natAbs_le (repI_of_isDouble ha hfa).1 hle
  obtain ⟨h1, h2, h3⟩ := two_sum_quick_spec ha hb hfa hfb hd hs
  refine ⟨rfl, h2, ?_⟩
  unfold Dbl.toRat
  rw [← add_div, ← add_div]
  congr 1
  have : (two_sum_quick a b).hi.toInt + (two_sum_quick a b).lo.toInt = a.toInt + b.toInt := by
    rw [h1, h3]
    ring
  exact_mod_cast this

end Xprec

/-! ## Error bounds of `mulqq` and `divqq` -/

namespace Xprec

theorem toRat_ne_zero {x : Dbl} (h : x.toInt ≠ 0) : x.toRat ≠ 0 := by
  unfold Dbl.toRat
  have hsc := scale_cast_pos
  have : (x.toInt : ℚ) ≠ 0 := by exact_mod_cast h
  positivity

/-- The relative error of the low word returned by an exact `two_sum_quick`. -/
theorem lo_le_of_sum {hi lo s : ℚ} (h : hi + lo = s) (he : |hi - s| ≤ 1 / 2 ^ 53 * |s|) :
    |lo| ≤ 1 / 2 ^ 53 * |hi + lo| := by
  have e : lo = -(hi - s) := by rw [← h]; ring
  rw [h, e, abs_neg]
  exact he

theorem two_prod_hi (a b : Dbl) : (two_prod a b).hi = Dbl.mul a b := rfl

theorem two_prod_lo (a b : Dbl) :
    (two_prod a b).lo = Dbl.fma a b (Dbl.neg (Dbl.mul a b)) := rfl

/-- Error bound of `mulqq`: for normalized operands and operations that neither overflow nor
underflow, the result is finite, its value differs from the exact product by at most
`9 * 2^-106 * |xh * yh|`, and its low word is the rounding error of its high word. -/
theorem mulqq_err {x y : ddouble} (nx : Normalized x) (ny : Normalized y)
    (hok : mulqq_OK x y) :
    (mulqq x y).hi.isFinite = true ∧ (mulqq x y).lo.isFinite = true ∧
    |(mulqq x y).hi.toRat + (mulqq x y).lo.toRat -
        (x.hi.toRat * y.hi.toRat + x.hi.toRat * y.lo.toRat + x.lo.toRat * y.hi.toRat +
          x.lo.toRat * y.lo.toRat)| ≤ 9 / 2 ^ 106 * |x.hi.toRat * y.hi.toRat| ∧
    |(mulqq x y).hi.toRat + (mulqq x y).lo.toRat| ≤
        (1 + 5 / 2 ^ 53) * |x.hi.toRat * y.hi.toRat| ∧
    |(mulqq x y).hi.toRat - ((mulqq x y).hi.toRat + (mulqq x y).lo.toRat)| ≤
        1 / 2 ^ 53 * |(mulqq x y).hi.toRat + (mulqq x y).lo.toRat| := by
  unfold mulqq_OK two_prod_OK two_sum_quick_OK at hok
  simp only [two_prod_hi, two_prod_lo] at hok
  obtain ⟨⟨hm1, hf1⟩, hm2, hf2, ha, hq, _, _⟩ := hok
  have hxl := lo_le_of_normalized nx
  have hyl := lo_le_of_normalized ny
  have h1 := mul_err hm1
  have h2 := fma_err hf1
  rw [Dbl.toRat_neg] at h2
  have h3 := mul_err hm2
  have h4 := fma_err hf2
  have h5 := add_err ha.1
  have hB : |x.hi.toRat * y.lo.toRat| ≤ 1 / 2 ^ 53 * |x.hi.toRat * y.hi.toRat| := by
    have := mul_lo_le (t := x.hi.toRat) hyl
    rwa [mul_comm y.lo.toRat, mul_comm y.hi.toRat] at this
  have hC : |x.lo.toRat * y.hi.toRat| ≤ 1 / 2 ^ 53 * |x.hi.toRat * y.hi.toRat| :=
    mul_lo_le hxl
  have hD : |x.lo.toRat * y.lo.toRat| ≤ 1 / 2 ^ 53 * |x.lo.toRat * y.hi.toRat| := by
    have := mul_lo_le (t := x.lo.toRat) hyl
    rwa [mul_comm y.lo.toRat, mul_comm y.hi.toRat] at this
  obtain ⟨hv, herr, hsum, _⟩ := mulqq_abs hB hC hD h1 h2 h3 h4 h5
  obtain ⟨e1, e2, e3⟩ := two_sum_quick_real (Dbl.isDouble_mul x.hi y.hi) (Dbl.isDouble_add _ _)
    hq.1 hv
  have e0 : mulqq x y = two_sum_quick (Dbl.mul x.hi y.hi)
      (Dbl.add (Dbl.fma x.hi y.hi (Dbl.neg (Dbl.mul x.hi y.hi)))
        (Dbl.fma x.lo y.hi (Dbl.mul x.hi y.lo))) := rfl
  rw [e0, e3]
  refine ⟨?_, e2, ?_, hsum, ?_⟩
  · rw [e1]
    exact hq.1
  · exact herr
  · rw [e1]
    exact add_err hq.1

end Xprec

namespace Xprec

theorem mulqd_eq (x : ddouble) (y : Dbl) :
    mulqd x y = two_sum_quick (Dbl.mul x.hi y)
      (Dbl.fma x.lo y (Dbl.fma x.hi y (Dbl.neg (Dbl.mul x.hi y)))) := rfl

/-- Error bound of `divqq`: for a dividend whose low word is at most `2^-53` times its value,
a normalized divisor and operations that neither overflow nor underflow, the result is
finite and the quotient times the divisor differs from the dividend by at most
`18 * 2^-106 * |p.hi|`. -/
theorem divqq_err {p y : ddouble}
    (hp : |p.lo.toRat| ≤ 1 / 2 ^ 53 * |p.hi.toRat + p.lo.toRat|) (ny : Normalized y)
    (hok : divqq_OK p y) :
    (divqq p y).hi.isFinite = true ∧ (divqq p y).lo.isFinite = true ∧
    |((divqq p y).hi.toRat + (divqq p y).lo.toRat) * (y.hi.toRat + y.lo.toRat) -
        (p.hi.toRat + p.lo.toRat)| ≤ 18 / 2 ^ 106 * |p.hi.toRat| := by
  unfold divqq_OK mulqd_OK two_prod_OK two_sum_quick_OK at hok
  simp only [mulqd_eq, two_prod_hi, two_prod_lo] at hok
  obtain ⟨hd1, ⟨⟨hm, hf1⟩, hf2, hq1, _, _⟩, hs1, hs2, ha, hd2, hq2, _, _⟩ := hok
  have hyl := lo_le_of_normalized ny
  have hy0 : y.hi.toRat ≠ 0 := toRat_ne_zero hd1.2.1
  have hy1 : 0 < |y.hi.toRat| := abs_pos.mpr hy0
  have ha1 := mul_div_err hy0 (div_err hd1)
  have hb := mul_lo_le (t := (Dbl.div p.hi y.hi).toRat) hyl
  have g2 := mul_err hm
  have g3 := fma_err hf1
  rw [Dbl.toRat_neg] at g3
  have g4 := fma_err hf2
  have hw := mulqd_abs ha1 hb g2 g3 g4
  obtain ⟨r1, _, r3⟩ := two_sum_quick_real (Dbl.isDouble_mul _ _) (Dbl.isDouble_fma hf2.1)
    hq1.1 hw
  have g5e := add_err hq1.1
  rw [← r1] at g5e
  have g6 := sub_err hs1.1
  have g7 := sub_err hs2.1
  have g8 := add_err ha.1
  have g9 := mul_div_err hy0 (div_err hd2)
  have g10 := mul_lo_le (t := (Dbl.div (Dbl.add (Dbl.sub p.hi (two_sum_quick (Dbl.mul y.hi
    (Dbl.div p.hi y.hi)) (Dbl.fma y.lo (Dbl.div p.hi y.hi) (Dbl.fma y.hi (Dbl.div p.hi y.hi)
    (Dbl.neg (Dbl.mul y.hi (Dbl.div p.hi y.hi)))))).hi) (Dbl.sub p.lo (two_sum_quick
    (Dbl.mul y.hi (Dbl.div p.hi y.hi)) (Dbl.fma y.lo (Dbl.div p.hi y.hi) (Dbl.fma y.hi
    (Dbl.div p.hi y.hi) (Dbl.neg (Dbl.mul y.hi (Dbl.div p.hi y.hi)))))).lo)) y.hi).toRat) hyl
  obtain ⟨hg, hfin⟩ := divqq_abs hp ha1 hb g2 g3 g4 r3 g5e g6 g7 g8 g9 g10
  rw [abs_mul, abs_mul] at hg
  have htl := le_of_mul_le_mul_left hg hy1
  obtain ⟨e1, e2, e3⟩ := two_sum_quick_real (Dbl.isDouble_div _ _) (Dbl.isDouble_div _ _)
    hq2.1 htl
  have e0 : divqq p y = two_sum_quick (Dbl.div p.hi y.hi)
      (Dbl.div (Dbl.add (Dbl.sub p.hi (two_sum_quick (Dbl.mul y.hi
    (Dbl.div p.hi y.hi)) (Dbl.fma y.lo (Dbl.div p.hi y.hi) (Dbl.fma y.hi (Dbl.div p.hi y.hi)
    (Dbl.neg (Dbl.mul y.hi (Dbl.div p.hi y.hi)))))).hi) (Dbl.sub p.lo (two_sum_quick
    (Dbl.mul y.hi (Dbl.div p.hi y.hi)) (Dbl.fma y.lo (Dbl.div p.hi y.hi) (Dbl.fma y.hi
    (Dbl.div p.hi y.hi) (Dbl.neg (Dbl.mul y.hi (Dbl.div p.hi y.hi)))))).lo)) y.hi) := rfl
  rw [e0, e3]
  refine ⟨?_, e2, ?_⟩
  · rw [e1]
    exact hq2.1
  · refine le_trans (le_of_eq ?_) hfin
    congr 1
    ring

/-- Error bound of the round trip `divqq (mulqq x y) y` for normalized operands and
operations that neither overflow nor underflow: the result is finite and within a relative
error of `2^-101` of `x`. -/
theorem roundtrip_err {x y : ddouble} (nx : Normalized x) (ny : Normalized y)
    (hok : roundTripOK x y) :
    (divqq (mulqq x y) y).hi.isFinite = true ∧ (divqq (mulqq x y) y).lo.isFinite = true ∧
    |((divqq (mulqq x y) y).hi.toRat + (divqq (mulqq x y) y).lo.toRat) -
        (x.hi.toRat + x.lo.toRat)| ≤ 1 / 2 ^ 101 * |x.hi.toRat + x.lo.toRat| := by
  obtain ⟨hok1, hok2⟩ := hok
  obtain ⟨_, _, m1, m2, m3⟩ := mulqq_err nx ny hok1
  have hp := lo_le_of_sum rfl m3
  obtain ⟨d1, d2, d3⟩ := divqq_err hp ny hok2
  refine ⟨d1, d2, ?_⟩
  have hxl := lo_le_of_normalized nx
  have hyl := lo_le_of_normalized ny
  have hB : |x.hi.toRat * y.lo.toRat| ≤ 1 / 2 ^ 53 * |x.hi.toRat * y.hi.toRat| := by
    have := mul_lo_le (t := x.hi.toRat) hyl
    rwa [mul_comm y.lo.toRat, mul_comm y.hi.toRat] at this
  have hC : |x.lo.toRat * y.hi.toRat| ≤ 1 / 2 ^ 53 * |x.hi.toRat * y.hi.toRat| :=
    mul_lo_le hxl
  have hD : |x.lo.toRat * y.lo.toRat| ≤ 1 / 2 ^ 53 * |x.lo.toRat * y.hi.toRat| := by
    have := mul_lo_le (t := x.lo.toRat) hyl
    rwa [mul_comm y.lo.toRat, mul_comm y.hi.toRat] at this
  have hy0 : y.hi.toRat ≠ 0 := by
    unfold divqq_OK at hok2
    exact toRat_ne_zero hok2.1.2.1
  have hY : y.hi.toRat + y.lo.toRat ≠ 0 := by
    intro h0
    have e : y.lo.toRat = -y.hi.toRat := by linarith
    rw [e, abs_neg] at hyl
    have := abs_pos.mpr hy0
    linarith
  exact roundtrip_abs (by ring) hB hC hD m1 m2 m3 d3 hY

end Xprec

namespace Xprec

/-- A relative error above `2^-k`, decided on the integers of the words. -/
theorem rel_err_lt_of_int {r x : ddouble} {k : Nat}
    (h : (x.hi.toInt + x.lo.toInt).natAbs <
      2 ^ k * (r.hi.toInt + r.lo.toInt - (x.hi.toInt + x.lo.toInt)).natAbs) :
    1 / 2 ^ k * |x.hi.toRat + x.lo.toRat| <
      |r.hi.toRat + r.lo.toRat - (x.hi.toRat + x.lo.toRat)| := by
  have hsc := scale_cast_pos
  unfold Dbl.toRat
  rw [← add_div, ← add_div, ← sub_div, abs_div, abs_div, abs_of_pos hsc]
  have hq : ((x.hi.toInt + x.lo.toInt).natAbs : ℚ) <
      2 ^ k * ((r.hi.toInt + r.lo.toInt - (x.hi.toInt + x.lo.toInt)).natAbs : ℚ) := by
    exact_mod_cast h
  rw [Nat.cast_natAbs, Nat.cast_natAbs] at hq
  push_cast at hq
  rw [show 1 / 2 ^ k * (|(x.hi.toInt : ℚ) + (x.lo.toInt : ℚ)| / (scale : ℚ)) =
    (|(x.hi.toInt : ℚ) + (x.lo.toInt : ℚ)| / 2 ^ k) / (scale : ℚ) by ring]
  rw [div_lt_div_iff_of_pos_right hsc, div_lt_iff₀ (by positivity)]
  linarith

end Xprec

/-! ## Commutativity of `two_sum` and the calls of `two_sum_quick` inside `addqq` -/

namespace Xprec

theorem toRat_sum_ne_of_toInt {a b c d : Dbl} (h : a.toInt + b.toInt ≠ c.toInt + d.toInt) :
    a.toRat + b.toRat ≠ c.toRat + d.toRat := by
  unfold Dbl.toRat
  rw [← add_div, ← add_div]
  intro he
  have hsc : (scale : ℚ) ≠ 0 := ne_of_gt scale_cast_pos
  rw [div_left_inj' hsc] at he
  exact h (by exact_mod_cast he)

theorem toRat_abs_lt {a b : Dbl} (h : a.toInt.natAbs < b.toInt.natAbs) :
    |a.toRat| < |b.toRat| := by
  apply lt_of_not_le
  intro hle
  have := natAbs_le_iff.mpr (toRat_abs_le.mp hle)
  omega

/-- IEEE addition is commutative, the sign of a zero sum included. -/
theorem Dbl.add_comm (x y : Dbl) : Dbl.add x y = Dbl.add y x := by
  cases x with
  | nan => cases y <;> rfl
  | inf s =>
    cases y with
    | nan => rfl
    | inf t =>
      by_cases hst : s = t
      · subst hst
        rfl
      · have hts : ¬ t = s := fun h => hst h.symm
        simp [Dbl.add, hst, hts]
    | fin t m => rfl
  | fin s n =>
    cases y with
    | nan => rfl
    | inf t => rfl
    | fin t m =>
      rw [Dbl.add_fin, Dbl.add_fin, Int.add_comm (Dbl.fin t m).toInt (Dbl.fin s n).toInt,
        Bool.and_comm]

/-- The low word of `two_sum` is determined by its signed magnitude: it is never `-0.0`. -/
theorem two_sum_lo_eq {a b c d : Dbl} (h1 : (two_sum a b).lo.isFinite = true)
    (h2 : (two_sum c d).lo.isFinite = true)
    (h : (two_sum a b).lo.toInt = (two_sum c d).lo.toInt) :
    (two_sum a b).lo = (two_sum c d).lo := by
  have n1 := two_sum_lo_ne_negZero a b
  have n2 := two_sum_lo_ne_negZero c d
  generalize (two_sum a b).lo = p at *
  generalize (two_sum c d).lo = q at *
  cases p with
  | nan => simp [Dbl.isFinite] at h1
  | inf _ => simp [Dbl.isFinite] at h1
  | fin s n =>
    cases q with
    | nan => simp [Dbl.isFinite] at h2
    | inf _ => simp [Dbl.isFinite] at h2
    | fin t m =>
      by_cases h0 : (Dbl.fin s n).toInt = 0
      · have hn : n = 0 := by
          have := Dbl.natAbs_toInt s n
          rw [h0] at this
          simpa using this.symm
        have hm : m = 0 := by
          have := Dbl.natAbs_toInt t m
          rw [← h, h0] at this
          simpa using this.symm
        subst hn hm
        cases s
        · cases t
          · rfl
          · exact absurd rfl n2
        · exact absurd rfl n1
      · exact eq_of_toInt_ne_zero h h0

/-- Source `two_sum` is commutative word for word when neither evaluation overflows. -/
theorem two_sum_comm {a b : Dbl} (ha : IsDouble a) (hb : IsDouble b)
    (h1 : (two_sum a b).lo.isFinite = true) (h2 : (two_sum b a).lo.isFinite = true) :
    two_sum a b = two_sum b a := by
  have v1 := two_sum_lo_finite_inv h1
  have v2 := two_sum_lo_finite_inv h2
  obtain ⟨s1, _, _, _⟩ := Dbl.sub_of_finite v1
  obtain ⟨s2, _, _, _⟩ := Dbl.sub_of_finite v2
  obtain ⟨fa, fb, _, _⟩ := Dbl.add_of_finite s1
  obtain ⟨_, _, e1⟩ := two_sum_spec ha hb fa fb s1 v1
  obtain ⟨_, _, e2⟩ := two_sum_spec hb ha fb fa s2 v2
  have hlo : (two_sum a b).lo = (two_sum b a).lo := by
    apply two_sum_lo_eq h1 h2
    rw [e1, e2, Int.add_comm a.toInt b.toInt]
  have hhi : (two_sum a b).hi = (two_sum b a).hi := Dbl.add_comm a b
  cases hab : two_sum a b with
  | mk h l =>
    cases hba : two_sum b a with
    | mk h' l' =>
      rw [hab, hba] at hlo hhi
      simp only at hlo hhi
      rw [hlo, hhi]

theorem addqq_eq (x y : ddouble) :
    addqq x y = two_sum_quick (two_sum_quick (two_sum x.hi y.hi).hi
      (Dbl.add (two_sum x.hi y.hi).lo (two_sum x.lo y.lo).hi)).hi
      (Dbl.add (two_sum x.lo y.lo).lo (two_sum_quick (two_sum x.hi y.hi).hi
        (Dbl.add (two_sum x.hi y.hi).lo (two_sum x.lo y.lo).hi)).lo) := rfl

end Xprec

namespace Xprec

/-- The locals of `addqq` give its result. -/
theorem addqq_eq_locals (x y : ddouble) :
    addqq x y = two_sum_quick (addqq_v x y).hi (addqq_w x y) := rfl

/-- A well-formed finite double is a multiple of the ulp of every double that is not larger
in magnitude. -/
theorem ulpMultiple_of_abs_le {a b : Dbl} (ha : IsDouble a) (hfa : a.isFinite = true)
    (h : |b.toRat| ≤ |a.toRat|) : UlpMultiple a b :=
  RepI.dvd_of_natAbs_le (repI_of_isDouble ha hfa).1 (natAbs_le_iff.mpr (toRat_abs_le.mp h))

/-- Both calls of `two_sum_quick` inside `addqq` meet the condition of exactness, and are
exact, on finite normalized operands with a finite result. -/
theorem addqq_calls {x y : ddouble}
    (hxh : IsDouble x.hi) (hxl : IsDouble x.lo) (hyh : IsDouble y.hi) (hyl : IsDouble y.lo)
    (nx : Normalized x) (ny : Normalized y)
    (hz : (addqq x y).hi.isFinite = true) :
    UlpMultiple (addqq_s x y).hi (addqq_c x y) ∧
    (addqq_v x y).hi.toInt + (addqq_v x y).lo.toInt =
      (addqq_s x y).hi.toInt + (addqq_c x y).toInt ∧
    UlpMultiple (addqq_v x y).hi (addqq_w x y) ∧
    (addqq x y).hi.toInt + (addqq x y).lo.toInt =
      (addqq_v x y).hi.toInt + (addqq_w x y).toInt := by
  rw [normalized_iff] at nx ny
  have hz' : (Dbl.add (addqq_v x y).hi (addqq_w x y)).isFinite = true := hz
  obtain ⟨fV, fw, _, _⟩ := Dbl.add_of_finite hz'
  have fV' : (Dbl.add (addqq_s x y).hi (addqq_c x y)).isFinite = true := fV
  obtain ⟨fS, fc, _, _⟩ := Dbl.add_of_finite fV'
  have fc' : (Dbl.add (addqq_s x y).lo (addqq_t x y).hi).isFinite = true := fc
  have fw' : (Dbl.add (addqq_t x y).lo (addqq_v x y).lo).isFinite = true := fw
  obtain ⟨fSl, fT, hcI, _⟩ := Dbl.add_of_finite fc'
  obtain ⟨fTl, fVl, hwI, _⟩ := Dbl.add_of_finite fw'
  have fS' : (Dbl.add x.hi y.hi).isFinite = true := fS
  have fT' : (Dbl.add x.lo y.lo).isFinite = true := fT
  obtain ⟨fxh, fyh, _, _⟩ := Dbl.add_of_finite fS'
  obtain ⟨fxl, fyl, _, _⟩ := Dbl.add_of_finite fT'
  obtain ⟨s1, _, s3⟩ := two_sum_spec hxh hyh fxh fyh fS' (two_sum_lo_finite_inv fSl)
  obtain ⟨t1, _, t3⟩ := two_sum_spec hxl hyl fxl fyl fT' (two_sum_lo_finite_inv fTl)
  obtain ⟨hXh, _⟩ := repI_of_isDouble hxh fxh
  obtain ⟨hYh, _⟩ := repI_of_isDouble hyh fyh
  have s1' : (addqq_s x y).hi.toInt = rnI (x.hi.toInt + y.hi.toInt) := s1
  have s3' : (addqq_s x y).lo.toInt = x.hi.toInt + y.hi.toInt - rnI (x.hi.toInt + y.hi.toInt) :=
    s3
  have t1' : (addqq_t x y).hi.toInt = rnI (x.lo.toInt + y.lo.toInt) := t1
  have t3' : (addqq_t x y).lo.toInt = x.lo.toInt + y.lo.toInt - rnI (x.lo.toInt + y.lo.toInt) :=
    t3
  have hcI' : (addqq_c x y).toInt = rnI ((addqq_s x y).lo.toInt + (addqq_t x y).hi.toInt) := hcI
  rw [s3', t1'] at hcI'
  have hdiv := addqq_int hXh hYh nx ny _ _ _ _ _ rfl rfl rfl rfl rfl
  have d1 : UlpMultiple (addqq_s x y).hi (addqq_c x y) := by
    unfold UlpMultiple
    rw [hcI', s1']
    exact hdiv.1
  obtain ⟨v1, _, v3⟩ := two_sum_quick_spec (a := (addqq_s x y).hi) (b := addqq_c x y)
    (Dbl.isDouble_add _ _) (Dbl.isDouble_add _ _) fS fc d1 fV'
  have v1' : (addqq_v x y).hi.toInt = rnI ((addqq_s x y).hi.toInt + (addqq_c x y).toInt) := v1
  have v3' : (addqq_v x y).lo.toInt = (addqq_s x y).hi.toInt + (addqq_c x y).toInt -
      rnI ((addqq_s x y).hi.toInt + (addqq_c x y).toInt) := v3
  have hwI' : (addqq_w x y).toInt = rnI ((addqq_t x y).lo.toInt + (addqq_v x y).lo.toInt) := hwI
  have d2 : UlpMultiple (addqq_v x y).hi (addqq_w x y) := by
    unfold UlpMultiple
    rw [hwI', v1', v3', t3', hcI', s1']
    exact hdiv.2
  obtain ⟨z1, _, z3⟩ := two_sum_quick_spec (a := (addqq_v x y).hi) (b := addqq_w x y)
    (Dbl.isDouble_add _ _) (Dbl.isDouble_add _ _) fV fw d2 hz'
  refine ⟨d1, ?_, d2, ?_⟩
  · rw [v1', v3']
    ring
  · rw [addqq_eq_locals, z1, z3]
    ring

end Xprec

namespace Xprec

/-- The hypothesis of commutativity on both evaluations cannot be dropped: for
`x = {DBL_MAX, 0.0}` and `y = {-3 * 2^970, 0.0}` no sum of `addqq x y` overflows, but in
`addqq y x` the intermediate `v = s - a` of `two_sum` overflows and the result is NaN. -/
theorem addqq_swapped_overflow :
    addqq maxQ ⟨negThreeTwoPow970, zero⟩ =
      ⟨Dbl.fin false ((2 ^ 53 - 2) * 2 ^ 2045), Dbl.fin true (2 ^ 2044)⟩ ∧
    addqq ⟨negThreeTwoPow970, zero⟩ maxQ = ⟨Dbl.nan, Dbl.nan⟩ := by
  constructor <;> decide!

end Xprec

/-! ## The element-strided loop against the byte-pointer loop -/

namespace Xprec

theorem wrap64_cast (a : Int) : ((wrap64 a : Nat) : Int) = a % 2 ^ 64 := by
  unfold wrap64
  exact Int.toNat_of_nonneg (Int.emod_nonneg a (by norm_num))

theorem wrap64_eq_iff {a b : Int} : wrap64 a = wrap64 b ↔ a % 2 ^ 64 = b % 2 ^ 64 := by
  constructor
  · intro h
    have := congrArg (fun n : Nat => (n : Int)) h
    simpa [wrap64_cast] using this
  · intro h
    unfold wrap64
    rw [h]

theorem wrap64_lt (a : Int) : wrap64 a < 2 ^ 64 := by
  have h := Int.emod_lt_of_pos a (by norm_num : (0 : Int) < 2 ^ 64)
  have h2 := wrap64_cast a
  omega

theorem wrap64_of_lt {n : Nat} (h : n < 2 ^ 64) : wrap64 (n : Int) = n := by
  unfold wrap64
  omega

theorem wrap64_add (a b : Int) : wrap64 ((wrap64 a : Int) + b) = wrap64 (a + b) := by
  rw [wrap64_eq_iff, wrap64_cast, Int.emod_add_emod]

/-- The byte-pointer loop visits the byte offsets `in1 + i * is1` and `out1 + i * os1`. -/
theorem byteLoop_eq_map {α β : Type} (f : α → β) (is1 os1 : Int) (inp : Nat → α) :
    ∀ (k p q : Nat), p < 2 ^ 64 → q < 2 ^ 64 →
      byteLoop f is1 os1 inp k p q = (List.range k).map fun (i : Nat) =>
        (wrap64 ((q : Int) + (i : Int) * os1), f (inp (wrap64 ((p : Int) + (i : Int) * is1)))) := by
  intro k
  induction k with
  | zero =>
    intro p q _ _
    rfl
  | succ k ih =>
    intro p q hp hq
    rw [byteLoop, ih _ _ (wrap64_lt _) (wrap64_lt _), List.range_succ_eq_map, List.map_cons,
      List.map_map]
    congr 1
    · simp only [Nat.cast_zero, zero_mul, add_zero]
      rw [wrap64_of_lt hp, wrap64_of_lt hq]
    · apply List.map_congr_left
      intro i _
      simp only [Function.comp_apply, Nat.succ_eq_add_one, Nat.cast_add, Nat.cast_one]
      rw [wrap64_add, wrap64_add]
      congr 2
      · ring_nf
      · congr 2
        ring_nf

/-- An element stride computed as `step / sizeof`, for a step that is a multiple of the
element size, addresses the byte offset `i * step` modulo `2^64`. -/
theorem stride_offset {size : Nat} (hs : size ∣ 2 ^ 64) {step : Int} (hd : (size : Int) ∣ step)
    (i : Nat) :
    wrap64 ((i : Int) * toIntp (wrap64 step / size) * (size : Int)) =
      wrap64 ((0 : Int) + (i : Int) * step) := by
  rw [wrap64_eq_iff, zero_add]
  have hsI : (size : Int) ∣ 2 ^ 64 := by exact_mod_cast Int.natCast_dvd_natCast.mpr hs
  have hU : (size : Int) ∣ ((wrap64 step : Nat) : Int) := by
    rw [wrap64_cast, Int.emod_def]
    exact dvd_sub hd (Dvd.dvd.mul_right hsI _)
  have hq : ((wrap64 step / size : Nat) : Int) * (size : Int) = ((wrap64 step : Nat) : Int) := by
    rw [Int.natCast_div]
    exact Int.ediv_mul_cancel hU
  have hT : ∃ c : Int, toIntp (wrap64 step / size) = ((wrap64 step / size : Nat) : Int) + c * 2 ^ 64 := by
    unfold toIntp
    split_ifs
    · exact ⟨0, by ring⟩
    · exact ⟨-1, by ring⟩
  obtain ⟨c, hc⟩ := hT
  rw [hc]
  have e : (i : Int) * (((wrap64 step / size : Nat) : Int) + c * 2 ^ 64) * (size : Int) =
      (i : Int) * (((wrap64 step / size : Nat) : Int) * (size : Int)) +
        2 ^ 64 * ((i : Int) * c * (size : Int)) := by ring
  rw [e, hq, Int.add_mul_emod_self_left, wrap64_cast, Int.mul_emod, Int.emod_emod,
    ← Int.mul_emod]

/-- For byte steps that are multiples of the element sizes (positive, zero or negative) and
element sizes that divide `2^64`, the loop of `ULOOP_UNARY` makes the same reads and writes
as the byte-pointer loop `DDOUBLE_UNARY_FUNCTION`, addresses taken modulo `2^64`. -/
theorem ULOOP_UNARY_eq_byte_loop {α β : Type} (f : α → β) {sizeof_out sizeof_in : Nat}
    (ho : sizeof_out ∣ 2 ^ 64) (hi : sizeof_in ∣ 2 ^ 64) (n : Int) {steps0 steps1 : Int}
    (h0 : (sizeof_in : Int) ∣ steps0) (h1 : (sizeof_out : Int) ∣ steps1) (inp : Nat → α) :
    ULOOP_UNARY f sizeof_out sizeof_in n steps0 steps1 inp =
      DDOUBLE_UNARY_FUNCTION f n steps0 steps1 inp := by
  unfold ULOOP_UNARY DDOUBLE_UNARY_FUNCTION
  rw [byteLoop_eq_map f steps0 steps1 inp _ 0 0 (by norm_num) (by norm_num)]
  apply List.map_congr_left
  intro i _
  simp only [Nat.cast_zero]
  rw [stride_offset ho h1 i, stride_offset hi h0 i]

end Xprec

/-! ## The claims -/

namespace Xprec

/-- C1 (as amended): `two_sum` is an error-free transformation when neither the sum
`s = a + b` nor the intermediate difference `v = s - a` overflows: for all finite doubles
`a`, `b` with `s` and `v` finite, `hi` is the IEEE sum `a + b`, a double nearest to the real
sum, `lo` is finite and `hi + lo = a + b` exactly as real numbers, whatever the relative
magnitude of `a` and `b`. -/
theorem two_sum_exact (a b : Dbl) (ha : IsDouble a) (hb : IsDouble b)
    (hfa : a.isFinite = true) (hfb : b.isFinite = true)
    (hs : (Dbl.add a b).isFinite = true)
    (hv : (Dbl.sub (Dbl.add a b) a).isFinite = true) :
    (two_sum a b).hi = Dbl.add a b ∧
    NearestTo (a.toRat + b.toRat) (two_sum a b).hi ∧
    (two_sum a b).lo.isFinite = true ∧
    (two_sum a b).hi.toRat + (two_sum a b).lo.toRat = a.toRat + b.toRat := by
  obtain ⟨h1, h2, h3⟩ := two_sum_spec ha hb hfa hfb hs hv
  refine ⟨rfl, Dbl.add_nearest hs, h2, toRat_eq_of_toInt ?_⟩
  rw [h1, h3]
  ring

/-- Witness for C1 (as amended): `two_sum (2^-1074) 1.0`, with the smaller operand first. -/
theorem two_sum_exact_witness :
    (two_sum minSubnormal one).lo.isFinite = true ∧
    (two_sum minSubnormal one).hi.toRat + (two_sum minSubnormal one).lo.toRat
      = minSubnormal.toRat + one.toRat :=
  (two_sum_exact minSubnormal one (by decide!) (by decide!) rfl rfl
    (by decide!) (by decide!)).2.2

/-- C1 (counterexample): for `a = -3 * 2^970` and `b` the largest finite double the sum
`a + b` is finite, yet `s - a` overflows and `two_sum` returns a NaN low word, so `hi + lo`
is not the real number `a + b`. -/
theorem two_sum_not_exact :
    IsDouble negThreeTwoPow970 ∧ IsDouble maxDbl ∧
    negThreeTwoPow970.isFinite = true ∧ maxDbl.isFinite = true ∧
    (Dbl.add negThreeTwoPow970 maxDbl).isFinite = true ∧
    (two_sum negThreeTwoPow970 maxDbl).lo = Dbl.nan := by decide!

/-- C3: `two_sum_quick` is exact under its precondition: for all finite doubles `a`, `b`
with `|a| ≥ |b|` whose sum does not overflow, `hi` is the IEEE sum `a + b`, a double nearest
to the real sum, `lo` is finite and `hi + lo = a + b` exactly as real numbers. -/
theorem two_sum_quick_exact (a b : Dbl) (ha : IsDouble a) (hb : IsDouble b)
    (hfa : a.isFinite = true) (hfb : b.isFinite = true)
    (hab : |b.toRat| ≤ |a.toRat|)
    (hs : (Dbl.add a b).isFinite = true) :
    (two_sum_quick a b).hi = Dbl.add a b ∧
    NearestTo (a.toRat + b.toRat) (two_sum_quick a b).hi ∧
    (two_sum_quick a b).lo.isFinite = true ∧
    (two_sum_quick a b).hi.toRat + (two_sum_quick a b).lo.toRat = a.toRat + b.toRat := by
  obtain ⟨hA, _⟩ := repI_of_isDouble ha hfa
  have hd := hA.dvd_of_natAbs_le (natAbs_le_iff.mpr (toRat_abs_le.mp hab))
  obtain ⟨h1, h2, h3⟩ := two_sum_quick_spec ha hb hfa hfb hd hs
  refine ⟨rfl, Dbl.add_nearest hs, h2, toRat_eq_of_toInt ?_⟩
  rw [h1, h3]
  ring

/-- Witness for C3: `two_sum_quick 1.0 1e-20`. -/
theorem two_sum_quick_exact_witness :
    (two_sum_quick one tenPowNeg20).lo.isFinite = true ∧
    (two_sum_quick one tenPowNeg20).hi.toRat + (two_sum_quick one tenPowNeg20).lo.toRat
      = one.toRat + tenPowNeg20.toRat :=
  (two_sum_quick_exact one tenPowNeg20 (by decide!) (by decide!) rfl rfl
    (toRat_abs_le.mpr (natAbs_le_iff.mp (by decide!))) (by decide!)).2.2

/-- C4 (the code at the failing input): `posq` negates both words; on `{1.0, 0.0}` it
returns `{-1.0, -0.0}`, and in general it returns what `negq` returns. -/
theorem posq_negates :
    posq ⟨one, zero⟩ = ⟨negOne, negZero⟩ ∧ posq ⟨one, zero⟩ ≠ ⟨one, zero⟩ ∧
    ∀ a : ddouble, posq a = negq a :=
  ⟨by decide!, by decide!, fun _ => rfl⟩

end Xprec

namespace Xprec

/-- C2 (as amended): `two_prod` is an error-free transformation when the product does not
underflow below the grid of the format: for all finite doubles `a`, `b` whose product
`a * b` does not overflow and is an integer multiple of `2^-1074`, `hi` is the IEEE product
`a * b`, a double nearest to the real product, `lo = fma(a, b, -hi)` is finite and
`hi + lo = a * b` exactly as real numbers. -/
theorem two_prod_exact (a b : Dbl) (ha : IsDouble a) (hb : IsDouble b)
    (hfa : a.isFinite = true) (hfb : b.isFinite = true)
    (hs : (Dbl.mul a b).isFinite = true)
    (hg : ∃ k : ℤ, a.toRat * b.toRat = (k : ℚ) / 2 ^ 1074) :
    (two_prod a b).hi = Dbl.mul a b ∧
    (two_prod a b).lo = Dbl.fma a b (Dbl.neg (two_prod a b).hi) ∧
    NearestTo (a.toRat * b.toRat) (two_prod a b).hi ∧
    (two_prod a b).lo.isFinite = true ∧
    (two_prod a b).hi.toRat + (two_prod a b).lo.toRat = a.toRat * b.toRat :=
  ⟨rfl, rfl, two_prod_real ha hb hfa hfb hs hg⟩

/-- Witness for C2 (as amended): `two_prod 1e-20 1e-20`, whose product is inexact. -/
theorem two_prod_exact_witness :
    (two_prod tenPowNeg20 tenPowNeg20).lo.isFinite = true ∧
    (two_prod tenPowNeg20 tenPowNeg20).hi.toRat + (two_prod tenPowNeg20 tenPowNeg20).lo.toRat
      = tenPowNeg20.toRat * tenPowNeg20.toRat :=
  (two_prod_exact tenPowNeg20 tenPowNeg20 (by decide!) (by decide!) rfl rfl (by decide!)
    ⟨0x179ca10c924223 * 0x179ca10c924223 * 2 ^ 836, by
      rw [← scale_cast]
      unfold Dbl.toRat tenPowNeg20 Dbl.toInt scale
      simp only [Bool.false_eq_true, if_false]
      push_cast
      rw [div_mul_div_comm, div_eq_div_iff (by positivity) (by positivity)]
      rw [show (1074 : ℕ) = 955 + 119 by norm_num, show (836 : ℕ) = 955 - 119 by norm_num]
      ring⟩).2.2.2

/-- C2 (counterexample): for `a = 2^-1074` and `b = 0.5` the product `2^-1075` rounds to
zero and so does its `fma` residual: `two_prod` returns `{0.0, 0.0}`, and `hi + lo = 0` is
not the real number `a * b`. -/
theorem two_prod_not_exact :
    IsDouble minSubnormal ∧ IsDouble half ∧
    minSubnormal.isFinite = true ∧ half.isFinite = true ∧
    (Dbl.mul minSubnormal half).isFinite = true ∧
    two_prod minSubnormal half = ⟨zero, zero⟩ ∧
    (two_prod minSubnormal half).hi.toRat + (two_prod minSubnormal half).lo.toRat
      ≠ minSubnormal.toRat * half.toRat := by
  have h : two_prod minSubnormal half = ⟨zero, zero⟩ := by decide!
  refine ⟨by decide!, by decide!, rfl, rfl, by decide!, h, ?_⟩
  rw [h]
  have hz : zero.toRat = 0 := by simp [Dbl.toRat, Dbl.toInt, zero]
  have hsc : (scale : ℚ) ≠ 0 := ne_of_gt scale_cast_pos
  have h1 : minSubnormal.toRat ≠ 0 := by
    unfold Dbl.toRat
    exact div_ne_zero (Int.cast_ne_zero.mpr (by decide!)) hsc
  have h2 : half.toRat ≠ 0 := by
    unfold Dbl.toRat
    exact div_ne_zero (Int.cast_ne_zero.mpr (by decide!)) hsc
  simp only [hz, add_zero]
  exact (mul_ne_zero h1 h2).symm

/-- C5 (as amended): `two_diff a b` and `two_sum a (-b)` return the same high word, and low
words that are the same datum up to the sign of a zero; this holds for all doubles, NaN and
infinities included. -/
theorem two_diff_eq_two_sum_neg (a b : Dbl) :
    (two_diff a b).hi = (two_sum a (Dbl.neg b)).hi ∧
    EqZ (two_diff a b).lo (two_sum a (Dbl.neg b)).lo :=
  ⟨rfl, add_eqZ_right _ (neg_add_eqZ _ _)⟩

/-- C5 (counterexample): for `a = -0.0`, `b = 1.0` the low word of `two_diff a b` is `-0.0`
while the low word of `two_sum a (-b)` is `+0.0`: the two pairs are not the same. -/
theorem two_diff_ne_two_sum_neg :
    (two_diff negZero one).lo = negZero ∧ (two_sum negZero (Dbl.neg one)).lo = zero ∧
    two_diff negZero one ≠ two_sum negZero (Dbl.neg one) := by decide!

/-- C7 (as amended): dividing by the double zero yields NaN in both words, not an infinity:
`divqd {1.0, 0.0} 0.0` and `divqd {-1.0, 0.0} 0.0` are `{NaN, NaN}`, and so is `divqd x y`
for every `x` and every zero `y` of either sign (the quotient `x.hi / y` may be infinite,
but `two_prod` then multiplies it by zero). -/
theorem divqd_by_zero :
    divqd ⟨one, zero⟩ zero = ⟨Dbl.nan, Dbl.nan⟩ ∧
    divqd ⟨negOne, zero⟩ zero = ⟨Dbl.nan, Dbl.nan⟩ ∧
    ∀ (x : ddouble) (t : Bool), divqd x (Dbl.fin t 0) = ⟨Dbl.nan, Dbl.nan⟩ :=
  ⟨divqd_zero _ _, divqd_zero _ _, divqd_zero⟩

/-- C7 (counterexample): the high word of `divqd {1.0, 0.0} 0.0` is not `+infinity`, and the
high word of `divqd {-1.0, 0.0} 0.0` is not `-infinity`, although the first quotient
`x.hi / y` is that infinity. -/
theorem divqd_by_zero_not_inf :
    Dbl.div one zero = Dbl.inf false ∧ Dbl.div negOne zero = Dbl.inf true ∧
    (divqd ⟨one, zero⟩ zero).hi ≠ Dbl.inf false ∧
    (divqd ⟨negOne, zero⟩ zero).hi ≠ Dbl.inf true := by decide!

end Xprec

namespace Xprec

/-- C6 (as amended): `addqq {1.0, 0.0} {1e-20, 0.0}` returns exactly `{1.0, 1e-20}`; more
generally, for finite doubles `a`, `b` that are not both `-0.0`, when neither `a + b` nor the
intermediate `(a + b) - a` of `two_sum` overflows, `addqq {a, 0} {b, 0}` returns the same
pair as `two_sum a b`, so the small addend is kept in the low word. -/
theorem addqq_zero_lo :
    addqq ⟨one, zero⟩ ⟨tenPowNeg20, zero⟩ = ⟨one, tenPowNeg20⟩ ∧
    ∀ a b : Dbl, IsDouble a → IsDouble b → a.isFinite = true → b.isFinite = true →
      (Dbl.add a b).isFinite = true → (Dbl.sub (Dbl.add a b) a).isFinite = true →
      ¬ (a = negZero ∧ b = negZero) →
      addqq ⟨a, zero⟩ ⟨b, zero⟩ = two_sum a b :=
  ⟨by decide!, fun _ _ ha hb hfa hfb hs hv hz => addqq_zero_lo_spec ha hb hfa hfb hs hv hz⟩

/-- Witness for C6 (as amended): the general part at `a = 2^-1074`, `b = 1.0`. -/
theorem addqq_zero_lo_witness :
    addqq ⟨minSubnormal, zero⟩ ⟨one, zero⟩ = two_sum minSubnormal one :=
  addqq_zero_lo.2 minSubnormal one (by decide!) (by decide!) rfl rfl (by decide!) (by decide!)
    (by decide!)

/-- C6 (counterexample): for `a = -3 * 2^970` and `b` the largest finite double, `a + b` is
finite, but `addqq {a, 0} {b, 0}` is `{NaN, NaN}` while `two_sum a b` has the finite high
word `a + b`; and for `a = b = -0.0` the high word of `addqq` is `+0.0` while that of
`two_sum` is `-0.0`. -/
theorem addqq_zero_lo_ne_two_sum :
    (Dbl.add negThreeTwoPow970 maxDbl).isFinite = true ∧
    addqq ⟨negThreeTwoPow970, zero⟩ ⟨maxDbl, zero⟩ = ⟨Dbl.nan, Dbl.nan⟩ ∧
    (two_sum negThreeTwoPow970 maxDbl).hi = Dbl.add negThreeTwoPow970 maxDbl ∧
    addqq ⟨negThreeTwoPow970, zero⟩ ⟨maxDbl, zero⟩ ≠ two_sum negThreeTwoPow970 maxDbl ∧
    (addqq ⟨negZero, zero⟩ ⟨negZero, zero⟩).hi = zero ∧
    (two_sum negZero negZero).hi = negZero := by decide!

end Xprec

namespace Xprec

/-- C9: `addqq` preserves the normalized form: for all well-formed ddoubles `x`, `y` with
`|lo| ≤ 0.5 * ulp(hi)` whose sum `addqq x y` has a finite high word (no overflow; the
operands and all intermediate results are then finite), the low word of the result is
finite, `|z.lo| ≤ 0.5 * ulp(z.hi)`, and `z.hi` is a double nearest to `z.hi + z.lo`. -/
theorem addqq_normalized (x y : ddouble)
    (hxh : IsDouble x.hi) (hxl : IsDouble x.lo) (hyh : IsDouble y.hi) (hyl : IsDouble y.lo)
    (nx : Normalized x) (ny : Normalized y)
    (hz : (addqq x y).hi.isFinite = true) :
    (addqq x y).lo.isFinite = true ∧ Normalized (addqq x y) ∧
    NearestTo ((addqq x y).hi.toRat + (addqq x y).lo.toRat) (addqq x y).hi := by
  obtain ⟨h1, h2, h3⟩ := addqq_result hxh hxl hyh hyl nx ny hz
  refine ⟨h1, h2, ?_⟩
  have := nearest_of_rnI h3
  unfold Dbl.toRat
  rw [← add_div]
  push_cast at this
  exact this

/-- Witness for C9: `addqq {1.0, 2^-54} {2^-54, 2^-200}`. -/
theorem addqq_normalized_witness :
    (addqq onePlusTiny tinyPlusTinier).lo.isFinite = true ∧
    Normalized (addqq onePlusTiny tinyPlusTinier) ∧
    NearestTo ((addqq onePlusTiny tinyPlusTinier).hi.toRat +
      (addqq onePlusTiny tinyPlusTinier).lo.toRat) (addqq onePlusTiny tinyPlusTinier).hi :=
  addqq_normalized onePlusTiny tinyPlusTinier (by decide!) (by decide!) (by decide!)
    (by decide!) ((normalized_iff _).mpr (by decide!)) ((normalized_iff _).mpr (by decide!))
    (by decide!)

/-- C10 (as amended): the high word of `addqq x y` is the correctly rounded value of the
double-double it returns, not of the exact real sum: for all well-formed normalized ddoubles
`x`, `y` with a finite result `z = addqq x y`, the IEEE sum `z.hi + z.lo` is `z.hi` again (up
to the sign of a zero), that is `z.hi = RN(z.hi + z.lo)`. -/
theorem addqq_hi_rounds_result (x y : ddouble)
    (hxh : IsDouble x.hi) (hxl : IsDouble x.lo) (hyh : IsDouble y.hi) (hyl : IsDouble y.lo)
    (nx : Normalized x) (ny : Normalized y)
    (hz : (addqq x y).hi.isFinite = true) :
    EqZ (Dbl.add (addqq x y).hi (addqq x y).lo) (addqq x y).hi ∧
    (Dbl.add (addqq x y).hi (addqq x y).lo).toRat = (addqq x y).hi.toRat := by
  obtain ⟨h1, _, h3⟩ := addqq_result hxh hxl hyh hyl nx ny hz
  have hd : IsDouble (addqq x y).hi := Dbl.isDouble_add _ _
  have hE := add_eqZ_of_toInt hz h1 h3 (repI_of_isDouble hd hz).2
  refine ⟨hE, ?_⟩
  rcases hE with h | ⟨s, t, h, h'⟩
  · rw [h]
  · rw [h, h']
    simp [Dbl.toRat, toInt_fin_zero]

/-- Witness for C10 (as amended): `addqq {1.0, 2^-54} {2^-54, 2^-200}`. -/
theorem addqq_hi_rounds_result_witness :
    EqZ (Dbl.add (addqq onePlusTiny tinyPlusTinier).hi (addqq onePlusTiny tinyPlusTinier).lo)
      (addqq onePlusTiny tinyPlusTinier).hi :=
  (addqq_hi_rounds_result onePlusTiny tinyPlusTinier (by decide!) (by decide!) (by decide!)
    (by decide!) ((normalized_iff _).mpr (by decide!)) ((normalized_iff _).mpr (by decide!))
    (by decide!)).1

/-- C10 (counterexample): for the normalized operands `x = {1.0, 2^-54}` and
`y = {2^-54, 2^-200}`, `addqq x y` is `{1.0, 2^-53}`, but the exact sum
`1 + 2^-53 + 2^-200` lies above the midpoint of `1.0` and its successor `1 + 2^-52`, which
is therefore the correctly rounded value: `1.0` is not nearest to the exact sum. -/
theorem addqq_hi_not_rounded_sum :
    Normalized onePlusTiny ∧ Normalized tinyPlusTinier ∧
    addqq onePlusTiny tinyPlusTinier = ⟨one, twoPow 1021⟩ ∧
    rnI (onePlusTiny.hi.toInt + onePlusTiny.lo.toInt +
      (tinyPlusTinier.hi.toInt + tinyPlusTinier.lo.toInt)) = succOne.toInt ∧
    ¬ NearestTo (onePlusTiny.hi.toRat + onePlusTiny.lo.toRat +
      (tinyPlusTinier.hi.toRat + tinyPlusTinier.lo.toRat)) (addqq onePlusTiny tinyPlusTinier).hi := by
  refine ⟨(normalized_iff _).mpr (by decide!), (normalized_iff _).mpr (by decide!),
    by decide!, by decide!, ?_⟩
  intro h
  rw [toRat_add4] at h
  have := nearest_int (y := succOne) h (by decide!) rfl
  revert this
  decide!

end Xprec

namespace Xprec

/-- C8 (as amended): multiply/divide round trip. For all normalized ddoubles `x`, `y` such
that no operation of `mulqq x y` and of `divqq (mulqq x y) y` overflows or underflows (the
operands are then finite and `y` is nonzero), the result `r = divqq (mulqq x y) y` is finite
and `|(r.hi + r.lo) - (x.hi + x.lo)| ≤ 2^-101 * |x.hi + x.lo|`. -/
theorem mul_div_round_trip (x y : ddouble) (nx : Normalized x) (ny : Normalized y)
    (hok : roundTripOK x y) :
    (divqq (mulqq x y) y).hi.isFinite = true ∧ (divqq (mulqq x y) y).lo.isFinite = true ∧
    |((divqq (mulqq x y) y).hi.toRat + (divqq (mulqq x y) y).lo.toRat) -
        (x.hi.toRat + x.lo.toRat)| ≤ 1 / 2 ^ 101 * |x.hi.toRat + x.lo.toRat| :=
  roundtrip_err nx ny hok

/-- Witness for C8 (as amended): `x = {1.625, -13 * 2^-57}` and `y = {1.25, -3 * 2^-55}`. -/
theorem mul_div_round_trip_witness :
    Normalized rtA ∧ Normalized rtB ∧ roundTripOK rtA rtB ∧
    |((divqq (mulqq rtA rtB) rtB).hi.toRat + (divqq (mulqq rtA rtB) rtB).lo.toRat) -
        (rtA.hi.toRat + rtA.lo.toRat)| ≤ 1 / 2 ^ 101 * |rtA.hi.toRat + rtA.lo.toRat| :=
  ⟨(normalized_iff _).mpr (by decide!), (normalized_iff _).mpr (by decide!), by decide!,
    (mul_div_round_trip rtA rtB ((normalized_iff _).mpr (by decide!))
      ((normalized_iff _).mpr (by decide!)) (by decide!)).2.2⟩

/-- C8 (counterexample): the operands `x = {0x1.1bf83cdd16d7ap+0, -0x1.e3bad27bfca48p-56}` and
`y = {0x1.0dfe6bf49af65p+0, 0x1.b51a069b4f624p-55}` are finite, nonzero and normalized, no
operation of `mulqq x y` and of `divqq (mulqq x y) y` overflows or underflows, and the
relative error of `r = divqq (mulqq x y) y` against `x` exceeds `2^-104`. -/
theorem mul_div_round_trip_exceeds :
    IsDouble rtX.hi ∧ IsDouble rtX.lo ∧ IsDouble rtY.hi ∧ IsDouble rtY.lo ∧
    rtX.hi.isFinite = true ∧ rtX.lo.isFinite = true ∧
    rtY.hi.isFinite = true ∧ rtY.lo.isFinite = true ∧
    rtX.hi.toInt + rtX.lo.toInt ≠ 0 ∧ rtY.hi.toInt + rtY.lo.toInt ≠ 0 ∧
    Normalized rtX ∧ Normalized rtY ∧ roundTripOK rtX rtY ∧
    1 / 2 ^ 104 * |rtX.hi.toRat + rtX.lo.toRat| <
      |((divqq (mulqq rtX rtY) rtY).hi.toRat + (divqq (mulqq rtX rtY) rtY).lo.toRat) -
        (rtX.hi.toRat + rtX.lo.toRat)| :=
  ⟨by decide!, by decide!, by decide!, by decide!, by decide!, by decide!, by decide!,
    by decide!, by decide!, by decide!,
    (normalized_iff _).mpr (by decide!), (normalized_iff _).mpr (by decide!), by decide!,
    rel_err_lt_of_int (by decide!)⟩

end Xprec

namespace Xprec

/-- C11: `absq` is idempotent: for every ddouble `x` whose high word is not NaN,
`absq (absq x)` is the same `(hi, lo)` pair as `absq x`, also when `x.hi` is `-0.0`. -/
theorem absq_idempotent (x : ddouble) (h : x.hi ≠ Dbl.nan) : absq (absq x) = absq x := by
  obtain ⟨hi, lo⟩ := x
  cases hi with
  | nan => exact absurd rfl h
  | inf s => cases s <;> simp [absq, negq, Dbl.signbit, Dbl.neg]
  | fin s n => cases s <;> simp [absq, negq, Dbl.signbit, Dbl.neg]

/-- Witness for C11: `x = {-0.0, 0.0}`, for which `absq x = {0.0, -0.0}`. -/
theorem absq_idempotent_witness :
    negZeroQ.hi ≠ Dbl.nan ∧ absq negZeroQ = ⟨zero, negZero⟩ ∧
      absq (absq negZeroQ) = absq negZeroQ :=
  ⟨by decide, by decide, absq_idempotent negZeroQ (by decide)⟩

/-- C12: `absq` yields a non-negative high word: for every ddouble `x` whose high word is not
NaN, `absq(x).hi >= 0` holds as a comparison of doubles and the sign bit of `absq(x).hi` is
clear; in particular `absq` of `{-0.0, lo}` has the high word `+0.0`. -/
theorem absq_hi_nonneg (x : ddouble) (h : x.hi ≠ Dbl.nan) :
    Dbl.ge (absq x).hi zero = true ∧ (absq x).hi.signbit = false ∧
      (x.hi = negZero → (absq x).hi = zero) := by
  obtain ⟨hi, lo⟩ := x
  cases hi with
  | nan => exact absurd rfl h
  | inf s => cases s <;> simp [absq, negq, Dbl.signbit, Dbl.neg, Dbl.ge, Dbl.le, Dbl.lt,
      Dbl.eq, zero, negZero]
  | fin s n =>
    have key : Dbl.ge (Dbl.fin false n) zero = true := by
      simp only [Dbl.ge, Dbl.le, Dbl.lt, Dbl.eq, zero, Dbl.toInt, Bool.or_eq_true,
        decide_eq_true_eq, Bool.false_eq_true, if_false]
      omega
    cases s
    · refine ⟨?_, rfl, ?_⟩
      · exact key
      · intro h0
        simp [negZero] at h0
    · refine ⟨?_, rfl, ?_⟩
      · exact key
      · intro h0
        simp only [negZero, Dbl.fin.injEq, true_and] at h0
        subst h0
        rfl

/-- Witness for C12: `x = {-0.0, 0.0}`. -/
theorem absq_hi_nonneg_witness :
    negZeroQ.hi ≠ Dbl.nan ∧ Dbl.ge (absq negZeroQ).hi zero = true ∧
      (absq negZeroQ).hi.signbit = false ∧ (absq negZeroQ).hi = zero :=
  ⟨by decide, (absq_hi_nonneg negZeroQ (by decide)).1, (absq_hi_nonneg negZeroQ (by decide)).2.1,
    (absq_hi_nonneg negZeroQ (by decide)).2.2 rfl⟩

/-- C13: `two_sum_quick` does not correct a violated precondition. For the finite doubles
`a = 1` and `b = 2^53 + 2`, with `|a| < |b|`, `two_sum_quick a b` is `{2^53 + 4, -2}`: the
sum `hi + lo` differs from the real `a + b`, and the non-overlap invariant
`|lo| ≤ 0.5 * ulp(hi)` is violated. The operands are not reordered: with the operands
exchanged the result is `{2^53 + 4, -1}`, which is exact. -/
theorem two_sum_quick_no_reordering :
    IsDouble one ∧ IsDouble twoPow53Plus2 ∧
    one.isFinite = true ∧ twoPow53Plus2.isFinite = true ∧
    |one.toRat| < |twoPow53Plus2.toRat| ∧
    two_sum_quick one twoPow53Plus2 =
      ⟨Dbl.fin false ((2 ^ 53 + 4) * 2 ^ 1074), Dbl.fin true (2 * 2 ^ 1074)⟩ ∧
    (two_sum_quick one twoPow53Plus2).hi.toRat + (two_sum_quick one twoPow53Plus2).lo.toRat ≠
      one.toRat + twoPow53Plus2.toRat ∧
    ¬ Normalized (two_sum_quick one twoPow53Plus2) ∧
    two_sum_quick twoPow53Plus2 one =
      ⟨Dbl.fin false ((2 ^ 53 + 4) * 2 ^ 1074), Dbl.fin true (2 ^ 1074)⟩ :=
  ⟨by decide!, by decide!, by decide!, by decide!, toRat_abs_lt (by decide!), by decide!,
    toRat_sum_ne_of_toInt (by decide!), fun h => absurd ((normalized_iff _).mp h) (by decide!),
    by decide!⟩

/-- C14: the loops registered for the ddouble-by-ddouble forms of `greater_equal` and
`less_equal` are generated from the strict comparisons `greaterqq` and `lessqq`: on the pair
`(x, x)` with `x = {1.0, 0.0}`, where `(x.hi, x.lo) >= (x.hi, x.lo)` and
`(x.hi, x.lo) <= (x.hi, x.lo)` hold, both loops write `false`. -/
theorem greater_equal_loop_is_strict :
    lexGe oneQ oneQ = true ∧ lexLe oneQ oneQ = true ∧
    u_greaterequalqq 1 16 16 1 (fun _ => oneQ) (fun _ => oneQ) = [(0, false)] ∧
    u_lessequalqq 1 16 16 1 (fun _ => oneQ) (fun _ => oneQ) = [(0, false)] :=
  ⟨by decide!, by decide!, by decide!, by decide!⟩

end Xprec

namespace Xprec

/-- C15 (as amended): the callers of `two_sum_quick` inside `addqq` meet the condition under
which it is exact. For all well-formed normalized ddoubles `x`, `y` with a finite result
(no overflow), at both calls the first argument is an integer multiple of the ulp of the
second (which `|a| ≥ |b|` implies, but not conversely): `s.hi` is a multiple of
`ulp(s.lo + t.hi)` and `v.hi` is a multiple of `ulp(t.lo + v.lo)`; and both calls return
`hi + lo = a + b` exactly. -/
theorem addqq_calls_exact (x y : ddouble)
    (hxh : IsDouble x.hi) (hxl : IsDouble x.lo) (hyh : IsDouble y.hi) (hyl : IsDouble y.lo)
    (nx : Normalized x) (ny : Normalized y)
    (hz : (addqq x y).hi.isFinite = true) :
    UlpMultiple (addqq_s x y).hi (addqq_c x y) ∧
    (addqq_v x y).hi.toRat + (addqq_v x y).lo.toRat =
      (addqq_s x y).hi.toRat + (addqq_c x y).toRat ∧
    UlpMultiple (addqq_v x y).hi (addqq_w x y) ∧
    (addqq x y).hi.toRat + (addqq x y).lo.toRat =
      (addqq_v x y).hi.toRat + (addqq_w x y).toRat := by
  obtain ⟨d1, e1, d2, e2⟩ := addqq_calls hxh hxl hyh hyl nx ny hz
  exact ⟨d1, toRat_eq_of_toInt e1, d2, toRat_eq_of_toInt e2⟩

/-- Witness for C15 (as amended): `x = {1.0, 2^-54}` and `y = {-1.0, 2^-54}`. -/
theorem addqq_calls_exact_witness :
    UlpMultiple (addqq_s onePlusTiny negOnePlusTiny).hi (addqq_c onePlusTiny negOnePlusTiny) ∧
    (addqq_v onePlusTiny negOnePlusTiny).hi.toRat + (addqq_v onePlusTiny negOnePlusTiny).lo.toRat =
      (addqq_s onePlusTiny negOnePlusTiny).hi.toRat + (addqq_c onePlusTiny negOnePlusTiny).toRat ∧
    UlpMultiple (addqq_v onePlusTiny negOnePlusTiny).hi (addqq_w onePlusTiny negOnePlusTiny) ∧
    (addqq onePlusTiny negOnePlusTiny).hi.toRat + (addqq onePlusTiny negOnePlusTiny).lo.toRat =
      (addqq_v onePlusTiny negOnePlusTiny).hi.toRat + (addqq_w onePlusTiny negOnePlusTiny).toRat :=
  addqq_calls_exact onePlusTiny negOnePlusTiny (by decide!) (by decide!) (by decide!)
    (by decide!) ((normalized_iff _).mpr (by decide!)) ((normalized_iff _).mpr (by decide!))
    (by decide!)

/-- C15 (counterexample): for the finite normalized operands `x = {1.0, 2^-54}` and
`y = {-1.0, 2^-54}`, whose sum `addqq x y = {2^-53, 0.0}` is finite, the high words cancel:
`s.hi = 0.0`, while the second argument of the first call of `two_sum_quick` is
`s.lo + t.hi = 2^-53`. The call is made with `|a| < |b|`. -/
theorem addqq_first_call_smaller :
    IsDouble onePlusTiny.hi ∧ IsDouble onePlusTiny.lo ∧
    IsDouble negOnePlusTiny.hi ∧ IsDouble negOnePlusTiny.lo ∧
    onePlusTiny.hi.isFinite = true ∧ onePlusTiny.lo.isFinite = true ∧
    negOnePlusTiny.hi.isFinite = true ∧ negOnePlusTiny.lo.isFinite = true ∧
    Normalized onePlusTiny ∧ Normalized negOnePlusTiny ∧
    addqq onePlusTiny negOnePlusTiny = ⟨twoPow 1021, zero⟩ ∧
    (addqq_s onePlusTiny negOnePlusTiny).hi = zero ∧
    addqq_c onePlusTiny negOnePlusTiny = twoPow 1021 ∧
    |(addqq_s onePlusTiny negOnePlusTiny).hi.toRat| <
      |(addqq_c onePlusTiny negOnePlusTiny).toRat| :=
  ⟨by decide!, by decide!, by decide!, by decide!, by decide!, by decide!, by decide!,
    by decide!, (normalized_iff _).mpr (by decide!), (normalized_iff _).mpr (by decide!),
    by decide!, by decide!, by decide!, toRat_abs_lt (by decide!)⟩

/-- C16: the loop generated by `ULOOP_UNARY` does not address the bytes of the byte-pointer
loop `DDOUBLE_UNARY_FUNCTION` when a step is not a multiple of the element size. For
`n = 2` and the byte steps `(24, 16)` with `sizeof(ddouble) = 16`, the input stride
`24 / 16` is truncated to one element: at `i = 1` the loop `u_negq` reads the element at
byte offset 16, the byte-pointer loop the element at byte offset 24. -/
theorem uloop_unary_truncates_step :
    u_negq 2 24 16 offsetArray =
      [(0, negq (offsetArray 0)), (16, negq (offsetArray 16))] ∧
    DDOUBLE_UNARY_FUNCTION negq 2 24 16 offsetArray =
      [(0, negq (offsetArray 0)), (16, negq (offsetArray 24))] ∧
    u_negq 2 24 16 offsetArray ≠ DDOUBLE_UNARY_FUNCTION negq 2 24 16 offsetArray :=
  ⟨by decide, by decide, by decide⟩

/-- C17: `addqq` is commutative word for word. For all well-formed ddoubles `x`, `y` such
that no intermediate sum overflows in either evaluation, of which only the four calls of
`two_sum` matter (their error terms `lo` are finite, the operands then are finite too),
`addqq x y` and `addqq y x` are the same `(hi, lo)` pair. -/
theorem addqq_comm (x y : ddouble)
    (hxh : IsDouble x.hi) (hxl : IsDouble x.lo) (hyh : IsDouble y.hi) (hyl : IsDouble y.lo)
    (h1 : (two_sum x.hi y.hi).lo.isFinite = true) (h2 : (two_sum y.hi x.hi).lo.isFinite = true)
    (h3 : (two_sum x.lo y.lo).lo.isFinite = true) (h4 : (two_sum y.lo x.lo).lo.isFinite = true) :
    addqq x y = addqq y x := by
  rw [addqq_eq, addqq_eq, two_sum_comm hxh hyh h1 h2, two_sum_comm hxl hyl h3 h4]

/-- Witness for C17: `x = {1.0, 2^-54}` and `y = {2^-54, 2^-200}`. -/
theorem addqq_comm_witness :
    addqq onePlusTiny tinyPlusTinier = addqq tinyPlusTinier onePlusTiny :=
  addqq_comm onePlusTiny tinyPlusTinier (by decide!) (by decide!) (by decide!) (by decide!)
    (by decide!) (by decide!) (by decide!) (by decide!)

end Xprec
